import Mathlib

/-!
# Graph algorithms over an indexed binary min-heap

A shallow embedding of `graph.c` / `graph_algos.c`: the graph store, the
per-run `Records`, Prim's minimum-spanning-tree construction
(`getMSTprim`), Dijkstra's distance-tree construction
(`getDistanceTreeDijkstra`) and the path reconstruction
(`getShortestPaths`).

Conventions of the embedding.

* C `int` values are `Int`; the only arithmetic the algorithms perform is the
  relaxation sum of Dijkstra, embedded as `addInt` (32-bit two's complement
  wrap-around).
* Array indices that the C code never bounds-checks are bounds-checked here:
  an out-of-range access, a null vertex slot or a violated heap precondition
  makes the embedded function return `none` ("undefined behaviour").  A C
  pointer result is `TreeResult.null` or `TreeResult.edges`.
* Arrays are total functions `Nat → α` together with the size they were
  allocated with; `malloc`-ed cells that were never written hold an
  unspecified value.
* `minheap.c` is not part of the sources at hand; the heap is modelled from
  its specification.
* Statements about the order of events in a run refer to the list of nodes that
  the outer loop extracts (`primExtracted`, `dijkstraExtracted`), computed from
  the same `extractMin` calls as the loop, and to the records after a given
  number of iterations (`primLoop g j`, `dijkstraLoop g j`).
-/

set_option autoImplicit false

namespace GraphAlgos

/-! ## Machine integers -/

/-- The C constant `INT_MAX` for a 32-bit `int`. -/
def INT_MAX : Int := 2147483647

/-- The C constant `INT_MIN` for a 32-bit `int`. -/
def INT_MIN : Int := -2147483648

/-- The macro `NOTHING` of `graph_algos.c`. -/
def NOTHING : Int := -1

/-- Addition of two C `int`s, wrapping around in 32-bit two's complement. -/
def addInt (a b : Int) : Int := (a + b + 2147483648) % 4294967296 - 2147483648

/-! ## Graph store (`graph.c`) -/

/-- The struct `Edge`: the fields written by `newEdge`. -/
structure Edge where
  fromVertex : Int
  toVertex : Int
  weight : Int
deriving DecidableEq, Inhabited

/-- The struct `Vertex` as built by `newVertex` (the opaque payload `value` is
not represented); `adjList` is the linked `EdgeList` read front to back. -/
structure Vertex where
  id : Int
  adjList : List Edge
deriving DecidableEq

/-- The struct `Graph` as built by `newGraph`: `vertices` is the array of
vertex slots, each `none` (a `NULL` slot) or a vertex. -/
structure Graph where
  numVertices : Nat
  numEdges : Nat
  vertices : List (Option Vertex)
deriving DecidableEq

/-- The function `newEdge`. -/
def newEdge (fromVertex toVertex weight : Int) : Edge :=
  { fromVertex := fromVertex, toVertex := toVertex, weight := weight }

/-- The function `newVertex`. -/
def newVertex (id : Int) (adjList : List Edge) : Vertex :=
  { id := id, adjList := adjList }

/-- The function `newGraph`: `numVertices` slots, all `NULL`. -/
def newGraph (numVertices : Nat) : Graph :=
  { numVertices := numVertices, numEdges := 0,
    vertices := List.replicate numVertices none }

/-! ## Indexed min-heap (modelled from the specification) -/

/-- Modelled from the spec: the `HeapNode` of the absent `minheap.h`, a pair
(priority, vertex id). -/
structure HeapNode where
  priority : Int
  id : Nat
deriving DecidableEq, Inhabited

/-- Modelled from the spec: the `MinHeap` of the absent `minheap.h`, a dense
array of heap nodes used as a binary heap (root at position 0) and a map from
vertex id to its current array position (`none` is the "absent" sentinel). -/
structure MinHeap where
  size : Nat
  capacity : Nat
  arr : Nat → HeapNode
  indexMap : Nat → Option Nat

/-- Modelled from the spec: `create(capacity)` of the absent `minheap.c`, a heap
with 0 elements and room for `capacity`. -/
def newHeap (capacity : Nat) : MinHeap :=
  { size := 0, capacity := capacity, arr := fun _ => default, indexMap := fun _ => none }

/-- Modelled from the spec: the array-index parent relation of the absent
`minheap.c`, root at position 0. -/
def parentIdx (p : Nat) : Nat := (p - 1) / 2

/-- Modelled from the spec: the swap step of the absent `minheap.c`, exchanging
two array cells and updating the position index of both ids. -/
def swapNodes (h : MinHeap) (i j : Nat) : MinHeap :=
  { h with
    arr := Function.update (Function.update h.arr i (h.arr j)) j (h.arr i)
    indexMap := Function.update (Function.update h.indexMap (h.arr j).id (some i))
      (h.arr i).id (some j) }

/-- Modelled from the spec: the upward sift of the absent `minheap.c`, repeated
swap-with-parent while the parent's priority is strictly greater.  The first
argument bounds the number of iterations; `p` iterations always suffice. -/
def bubbleUp : Nat → MinHeap → Nat → MinHeap
  | 0, h, _ => h
  | fuel + 1, h, p =>
    if p = 0 then h
    else if (h.arr p).priority < (h.arr (parentIdx p)).priority then
      bubbleUp fuel (swapNodes h p (parentIdx p)) (parentIdx p)
    else h

/-- Modelled from the spec: the downward sift of the absent `minheap.c`: compare
against the smaller child (the left one on a tie), swap if that child is
strictly smaller, stop otherwise or when there is no child. -/
def bubbleDown : Nat → MinHeap → Nat → MinHeap
  | 0, h, _ => h
  | fuel + 1, h, p =>
    if 2 * p + 1 < h.size then
      let c := if 2 * p + 2 < h.size ∧
          (h.arr (2 * p + 2)).priority < (h.arr (2 * p + 1)).priority
        then 2 * p + 2 else 2 * p + 1
      if (h.arr c).priority < (h.arr p).priority then
        bubbleDown fuel (swapNodes h p c) c
      else h
    else h

/-- Modelled from the spec: `insert(priority, id)` of the absent `minheap.c`;
undefined when the heap is at capacity, the id is outside `[0, capacity)` or
already present. -/
def insert (h : MinHeap) (priority : Int) (id : Nat) : Option MinHeap :=
  if h.capacity ≤ h.size ∨ h.capacity ≤ id ∨ (h.indexMap id).isSome then none
  else
    some (bubbleUp h.size
      { h with
        size := h.size + 1
        arr := Function.update h.arr h.size { priority := priority, id := id }
        indexMap := Function.update h.indexMap id (some h.size) } h.size)

/-- Modelled from the spec: `getMin()` of the absent `minheap.c`. -/
def getMin (h : MinHeap) : Option HeapNode :=
  if h.size = 0 then none else some (h.arr 0)

/-- Modelled from the spec: `extractMin()` of the absent `minheap.c`: save the
root, move the last element to position 0, shrink, sift down. -/
def extractMin (h : MinHeap) : Option (HeapNode × MinHeap) :=
  if h.size = 0 then none
  else
    let root := h.arr 0
    let last := h.arr (h.size - 1)
    some (root, bubbleDown (h.size - 1)
      { h with
        size := h.size - 1
        arr := Function.update h.arr 0 last
        indexMap := Function.update (Function.update h.indexMap last.id (some 0)) root.id none }
      0)

/-- Modelled from the spec: `getPriority(id)` of the absent `minheap.c`. -/
def getPriority (h : MinHeap) (id : Nat) : Option Int :=
  match h.indexMap id with
  | none => none
  | some p => some (h.arr p).priority

/-- Modelled from the spec: `decreasePriority(id, newPriority)` of the absent
`minheap.c`; it requires the id present and the new priority strictly
smaller. -/
def decreasePriority (h : MinHeap) (id : Nat) (newPriority : Int) : Option MinHeap :=
  match h.indexMap id with
  | none => none
  | some p =>
    if newPriority < (h.arr p).priority then
      some (bubbleUp p
        { h with arr := Function.update h.arr p { priority := newPriority, id := id } } p)
    else none

/-! ## Records and helpers (`graph_algos.c`) -/

/-- The struct `Records`.  `tree` is the array of capacity `numVertices - 1`. -/
structure Records where
  numVertices : Nat
  heap : MinHeap
  finished : Nat → Bool
  predecessors : Nat → Int
  tree : Nat → Edge
  numTreeEdges : Nat

/-- The loop of `initHeap`, from index `i` for `k` more iterations. -/
def initHeapLoop (startVertex : Int) : Nat → Nat → MinHeap → Option MinHeap
  | 0, _, heap => some heap
  | k + 1, i, heap =>
    (if (i : Int) = startVertex then insert heap 0 i else insert heap INT_MAX i).bind
      (initHeapLoop startVertex k (i + 1))

/-- The function `initHeap`. -/
def initHeap (graph : Graph) (startVertex : Int) : Option MinHeap :=
  initHeapLoop startVertex graph.numVertices 0 (newHeap graph.numVertices)

/-- The function `initRecords` (allocation is assumed to succeed). -/
def initRecords (graph : Graph) (startVertex : Int) : Option Records :=
  (initHeap graph startVertex).map fun heap =>
    { numVertices := graph.numVertices
      heap := heap
      finished := fun _ => false
      predecessors := fun _ => NOTHING
      tree := fun _ => default
      numTreeEdges := 0 }

/-- The function `isEmpty`: true iff the heap is `NULL` or has no element. -/
def isEmpty : Option MinHeap → Bool
  | none => true
  | some heap => decide (heap.size ≤ 0)

/-- The function `addTreeEdge`; a write outside the `numVertices - 1` cells of
the tree array is undefined. -/
def addTreeEdge (records : Records) (ind : Nat) (fromVertex toVertex weight : Int) :
    Option Records :=
  if ind < records.numVertices - 1 then
    some { records with
      tree := Function.update records.tree ind
        { fromVertex := fromVertex, toVertex := toVertex, weight := weight } }
  else none

/-- The cell `graph->vertices[u]->adjList`; undefined for a missing slot. -/
def adjListOf (graph : Graph) (u : Nat) : Option (List Edge) :=
  if u < graph.numVertices then
    match graph.vertices[u]? with
    | some (some vertex) => some vertex.adjList
    | _ => none
  else none

/-- The populated part of the tree array, which the algorithms return. -/
def treeEdges (records : Records) : List Edge :=
  (List.range records.numTreeEdges).map records.tree

/-- The result of a function returning `Edge *`. -/
inductive TreeResult where
  | null : TreeResult
  | edges : List Edge → TreeResult
deriving DecidableEq

/-! ## Prim -/

/-- The inner `while (adjList != NULL)` loop of `getMSTprim`. -/
def primRelax (u : Nat) : List Edge → Records → Option Records
  | [], records => some records
  | edge :: adjList, records =>
    if edge.toVertex < 0 ∨ (records.numVertices : Int) ≤ edge.toVertex then none
    else
      let toVertex := edge.toVertex.toNat
      if records.finished toVertex then primRelax u adjList records
      else
        match getPriority records.heap toVertex with
        | none => none
        | some prio =>
          if edge.weight < prio then
            match decreasePriority records.heap toVertex edge.weight with
            | none => none
            | some heap =>
              primRelax u adjList
                { records with
                  heap := heap
                  predecessors := Function.update records.predecessors toVertex (u : Int) }
          else primRelax u adjList records

/-- One iteration of the outer loop of `getMSTprim`. -/
def primStep (graph : Graph) (records : Records) : Option Records :=
  match getMin records.heap with
  | none => none
  | some top =>
    let weight := top.priority
    match extractMin records.heap with
    | none => none
    | some (node, heap) =>
      let u := node.id
      let records := { records with heap := heap, finished := Function.update records.finished u true }
      let records :=
        if records.predecessors u ≠ NOTHING then
          (addTreeEdge records records.numTreeEdges u (records.predecessors u) weight).map
            fun r => { r with numTreeEdges := r.numTreeEdges + 1 }
        else some records
      records.bind fun records =>
        (adjListOf graph u).bind fun adjList => primRelax u adjList records

/-- The outer `while (!isEmpty(records->heap))` loop of `getMSTprim`; the first
argument bounds the number of iterations. -/
def primLoop (graph : Graph) : Nat → Records → Option Records
  | 0, records => some records
  | fuel + 1, records =>
    if isEmpty (some records.heap) then some records
    else (primStep graph records).bind (primLoop graph fuel)

/-- The function `getMSTprim`.  Every iteration removes one heap entry, so
`numVertices` iterations drain the heap. -/
def getMSTprim (graph : Option Graph) (startVertex : Int) : Option TreeResult :=
  match graph with
  | none => some TreeResult.null
  | some graph =>
    if startVertex < 0 ∨ (graph.numVertices : Int) ≤ startVertex then some TreeResult.null
    else
      (initRecords graph startVertex).bind fun records =>
        (primLoop graph graph.numVertices records).map fun records =>
          TreeResult.edges (treeEdges records)

/-! ## Dijkstra -/

/-- The inner `while (adjList != NULL)` loop of `getDistanceTreeDijkstra`. -/
def dijkstraRelax (u : Nat) (priority : Int) : List Edge → Records → Option Records
  | [], records => some records
  | edge :: adjList, records =>
    if edge.toVertex < 0 ∨ (records.numVertices : Int) ≤ edge.toVertex then none
    else
      let toVertex := edge.toVertex.toNat
      if records.finished toVertex then dijkstraRelax u priority adjList records
      else
        match getPriority records.heap toVertex with
        | none => none
        | some prio =>
          if addInt priority edge.weight < prio then
            match decreasePriority records.heap toVertex (addInt priority edge.weight) with
            | none => none
            | some heap =>
              dijkstraRelax u priority adjList
                { records with
                  heap := heap
                  predecessors := Function.update records.predecessors toVertex (u : Int) }
          else dijkstraRelax u priority adjList records

/-- One iteration of the outer loop of `getDistanceTreeDijkstra`. -/
def dijkstraStep (graph : Graph) (records : Records) : Option Records :=
  match extractMin records.heap with
  | none => none
  | some (node, heap) =>
    let u := node.id
    let records := { records with heap := heap, finished := Function.update records.finished u true }
    let records :=
      if records.predecessors u ≠ NOTHING then
        (addTreeEdge records records.numTreeEdges u (records.predecessors u) node.priority).map
          fun r => { r with numTreeEdges := r.numTreeEdges + 1 }
      else some records
    records.bind fun records =>
      (adjListOf graph u).bind fun adjList => dijkstraRelax u node.priority adjList records

/-- The outer loop of `getDistanceTreeDijkstra`. -/
def dijkstraLoop (graph : Graph) : Nat → Records → Option Records
  | 0, records => some records
  | fuel + 1, records =>
    if isEmpty (some records.heap) then some records
    else (dijkstraStep graph records).bind (dijkstraLoop graph fuel)

/-- The function `getDistanceTreeDijkstra`. -/
def getDistanceTreeDijkstra (graph : Option Graph) (startVertex : Int) : Option TreeResult :=
  match graph with
  | none => some TreeResult.null
  | some graph =>
    if startVertex < 0 ∨ (graph.numVertices : Int) ≤ startVertex then some TreeResult.null
    else
      (initRecords graph startVertex).bind fun records =>
        (dijkstraLoop graph graph.numVertices records).map fun records =>
          TreeResult.edges (treeEdges records)

/-! ## Example graph -/

/-- The 4-vertex example: 0-1 (1), 0-2 (4), 1-2 (2), 1-3 (5), 2-3 (1), every
connection stored in both adjacency lists. -/
def exampleGraph : Graph :=
  { numVertices := 4
    numEdges := 5
    vertices :=
      [ some (newVertex 0 [newEdge 0 1 1, newEdge 0 2 4]),
        some (newVertex 1 [newEdge 1 0 1, newEdge 1 2 2, newEdge 1 3 5]),
        some (newVertex 2 [newEdge 2 0 4, newEdge 2 1 2, newEdge 2 3 1]),
        some (newVertex 3 [newEdge 3 1 5, newEdge 3 2 1]) ] }

/-! ## Heap invariants -/

/-- Position-index invariant of the heap. -/
structure HeapWF (h : MinHeap) : Prop where
  size_le : h.size ≤ h.capacity
  id_lt : ∀ p, p < h.size → (h.arr p).id < h.capacity
  index_arr : ∀ p, p < h.size → h.indexMap (h.arr p).id = some p
  arr_index : ∀ id p, h.indexMap id = some p → p < h.size ∧ (h.arr p).id = id

/-- Heap-order invariant. -/
def HeapOrdered (h : MinHeap) : Prop :=
  ∀ p, 0 < p → p < h.size → (h.arr (parentIdx p)).priority ≤ (h.arr p).priority

/-- Heap order everywhere except between `p` and its parent. -/
def OrderedExceptAt (h : MinHeap) (p : Nat) : Prop :=
  ∀ q, 0 < q → q < h.size → q ≠ p → (h.arr (parentIdx q)).priority ≤ (h.arr q).priority

/-- Heap order everywhere except between `p` and its children. -/
def OrderedExceptBelow (h : MinHeap) (p : Nat) : Prop :=
  ∀ q, 0 < q → q < h.size → parentIdx q ≠ p → (h.arr (parentIdx q)).priority ≤ (h.arr q).priority

/-- The parent of `p` is below every child of `p`. -/
def GrandOrdered (h : MinHeap) (p : Nat) : Prop :=
  0 < p → ∀ c, 0 < c → c < h.size → parentIdx c = p →
    (h.arr (parentIdx p)).priority ≤ (h.arr c).priority

/-- What a sift must deliver relative to the heap it started from. -/
structure SiftResult (h h' : MinHeap) : Prop where
  wf : HeapWF h'
  ordered : HeapOrdered h'
  size_eq : h'.size = h.size
  capacity_eq : h'.capacity = h.capacity
  prio_eq : ∀ id, getPriority h' id = getPriority h id

/-- Both heap invariants together. -/
def HeapInv (h : MinHeap) : Prop := HeapWF h ∧ HeapOrdered h

/-! ## The loop shared by both algorithms, and the consistency of the records -/

/-- The relaxation loop shared by both algorithms, with the candidate key of an
edge as a parameter. -/
def relaxWith (cand : Edge → Int) (u : Nat) : List Edge → Records → Option Records
  | [], records => some records
  | edge :: adjList, records =>
    if edge.toVertex < 0 ∨ (records.numVertices : Int) ≤ edge.toVertex then none
    else
      let toVertex := edge.toVertex.toNat
      if records.finished toVertex then relaxWith cand u adjList records
      else
        match getPriority records.heap toVertex with
        | none => none
        | some prio =>
          if cand edge < prio then
            match decreasePriority records.heap toVertex (cand edge) with
            | none => none
            | some heap =>
              relaxWith cand u adjList
                { records with
                  heap := heap
                  predecessors := Function.update records.predecessors toVertex (u : Int) }
          else relaxWith cand u adjList records

/-- One iteration of the outer loop shared by both algorithms; `cand k` is the
candidate key of an edge leaving a vertex extracted at priority `k`. -/
def stepWith (cand : Int → Edge → Int) (graph : Graph) (records : Records) : Option Records :=
  match extractMin records.heap with
  | none => none
  | some (node, heap) =>
    let u := node.id
    let records := { records with heap := heap, finished := Function.update records.finished u true }
    let records :=
      if records.predecessors u ≠ NOTHING then
        (addTreeEdge records records.numTreeEdges u (records.predecessors u) node.priority).map
          fun r => { r with numTreeEdges := r.numTreeEdges + 1 }
      else some records
    records.bind fun records =>
      (adjListOf graph u).bind fun adjList => relaxWith (cand node.priority) u adjList records

/-- The outer loop shared by both algorithms. -/
def loopWith (cand : Int → Edge → Int) (graph : Graph) : Nat → Records → Option Records
  | 0, records => some records
  | fuel + 1, records =>
    if isEmpty (some records.heap) then some records
    else (stepWith cand graph records).bind (loopWith cand graph fuel)

/-- Candidate key of Prim: the weight of the edge. -/
def primCand (_ : Int) (edge : Edge) : Int := edge.weight

/-- Candidate key of Dijkstra: extracted priority plus weight, in `int` arithmetic. -/
def dijkstraCand (priority : Int) (edge : Edge) : Int := addInt priority edge.weight

/-- Consistency of the records of a run on `n` vertices. -/
structure RecInv (n : Nat) (r : Records) : Prop where
  nv : r.numVertices = n
  heap : HeapInv r.heap
  cap : r.heap.capacity = n
  fin_heap : ∀ v, v < n → (r.finished v = true ↔ getPriority r.heap v = none)

/-- What relaxing the edges `adj` of `u` does to the priority and predecessor
of one vertex `v`. -/
def VertexRelax (c : Edge → Int) (u : Nat) (adj : List Edge) (p : Option Int) (pr : Int)
    (p' : Option Int) (pr' : Int) (v : Nat) : Prop :=
  match p with
  | none => p' = none ∧ pr' = pr
  | some kv => ∃ kv', p' = some kv' ∧ kv' ≤ kv ∧
      (∀ e, e ∈ adj → e.toVertex = (v : Int) → kv' ≤ c e) ∧
      ((kv' = kv ∧ pr' = pr) ∨
        (kv' < kv ∧ pr' = (u : Int) ∧ ∃ e, e ∈ adj ∧ e.toVertex = (v : Int) ∧ c e = kv'))

/-! ## Well-formed graphs and the effect of one iteration -/

/-- Every vertex slot of the graph holds a vertex. -/
def SlotsPresent (g : Graph) : Prop :=
  ∀ u, u < g.numVertices → ∃ vertex, g.vertices[u]? = some (some vertex)

/-- Every adjacency target is a vertex id of the graph. -/
def TargetsInRange (g : Graph) : Prop :=
  ∀ u adj, adjListOf g u = some adj →
    ∀ e, e ∈ adj → 0 ≤ e.toVertex ∧ e.toVertex < (g.numVertices : Int)

/-- The effect of the relaxation loop on the records. -/
structure RelaxResult (c : Edge → Int) (u : Nat) (adj : List Edge) (n : Nat)
    (r r' : Records) : Prop where
  inv : RecInv n r'
  fin_eq : r'.finished = r.finished
  tree_eq : r'.tree = r.tree
  num_eq : r'.numTreeEdges = r.numTreeEdges
  size_eq : r'.heap.size = r.heap.size
  relax : ∀ v, VertexRelax c u adj (getPriority r.heap v) (r.predecessors v)
    (getPriority r'.heap v) (r'.predecessors v) v

/-- The effect of one iteration of the outer loop: `u` is extracted at its
priority `k`, which is minimal, and the edges `adj` of `u` are relaxed. -/
structure StepRel (cand : Int → Edge → Int) (g : Graph) (n : Nat) (r r' : Records)
    (u : Nat) (k : Int) (adj : List Edge) : Prop where
  inv : RecInv n r'
  u_lt : u < n
  prio_u : getPriority r.heap u = some k
  min_u : ∀ v kv, getPriority r.heap v = some kv → k ≤ kv
  adj_u : adjListOf g u = some adj
  size_eq : r'.heap.size + 1 = r.heap.size
  fin_eq : r'.finished = Function.update r.finished u true
  num_eq : r'.numTreeEdges = if r.predecessors u ≠ NOTHING then r.numTreeEdges + 1
    else r.numTreeEdges
  tree_eq : treeEdges r' = if r.predecessors u ≠ NOTHING then
    treeEdges r ++ [{ fromVertex := u, toVertex := r.predecessors u, weight := k }]
    else treeEdges r
  prio_u' : getPriority r'.heap u = none
  pred_u' : r'.predecessors u = r.predecessors u
  relax : ∀ v, v ≠ u → VertexRelax (cand k) u adj (getPriority r.heap v) (r.predecessors v)
    (getPriority r'.heap v) (r'.predecessors v) v

/-- The priorities after `initHeap` has inserted the ids below `i`. -/
def initPrio (s : Int) (i : Nat) (v : Nat) : Option Int :=
  if v < i then some (if (v : Int) = s then 0 else INT_MAX) else none

/-! ## Paths of the graph and facts about every run -/

/-- The graph has an edge from `a` to `b` of weight `w`: an entry of the
adjacency list of `a` with target `b` and weight `w`. -/
def Links (g : Graph) (a b : Nat) (w : Int) : Prop :=
  ∃ adj e, adjListOf g a = some adj ∧ e ∈ adj ∧ e.toVertex = (b : Int) ∧ e.weight = w

/-- A directed path in the graph with its total weight. -/
inductive PathW (g : Graph) : Nat → Nat → Int → Prop
  | nil (a : Nat) : PathW g a a 0
  | snoc {a b c : Nat} {w w' : Int} : PathW g a b w → Links g b c w' → PathW g a c (w + w')

/-- Vertex `b` can be reached from `a` along adjacency entries. -/
def Reach (g : Graph) (a b : Nat) : Prop := ∃ w, PathW g a b w

/-- Facts about a run from start vertex `s` that hold for every graph whose
slots are present and whose targets are in range. -/
structure Running (g : Graph) (s : Nat) (r : Records) : Prop where
  inv : RecInv g.numVertices r
  init : r.finished s = false →
    (∀ v, r.predecessors v = NOTHING) ∧ (∀ v, r.finished v = false) ∧
    (∀ v, getPriority r.heap v = initPrio s g.numVertices v) ∧
    r.numTreeEdges = 0 ∧ r.heap.size = g.numVertices
  count : r.finished s = true → r.numTreeEdges + r.heap.size ≤ g.numVertices - 1
  pred_s : r.predecessors s = NOTHING
  fin_lt : ∀ v, r.finished v = true → v < g.numVertices

/-! ## Facts about every run of Prim -/

/-- Facts about a run of Prim's loop that hold for every well-formed graph. -/
structure PrimInv (g : Graph) (s : Nat) (r : Records) : Prop where
  reach_prio : ∀ x y w kv, r.finished x = true → Links g x y w →
    getPriority r.heap y = some kv → kv ≤ w
  pred_edge : ∀ v kv, getPriority r.heap v = some kv → r.predecessors v ≠ NOTHING →
    ∃ p : Nat, r.predecessors v = (p : Int) ∧ r.finished p = true ∧ Links g p v kv
  pred_in : ∀ v, r.predecessors v ≠ NOTHING →
    ∃ (p : Nat) (w : Int), r.predecessors v = (p : Int) ∧ Links g p v w
  pred_set : r.finished s = true → ∀ v kv, getPriority r.heap v = some kv →
    kv < INT_MAX → r.predecessors v ≠ NOTHING
  tree_edge : ∀ e, e ∈ treeEdges r → ∃ v p : Nat, e.fromVertex = (v : Int) ∧
    e.toVertex = (p : Int) ∧ r.finished v = true ∧ r.finished p = true ∧
    Links g p v e.weight
  prio_sentinel : ∀ v kv, getPriority r.heap v = some kv → r.predecessors v = NOTHING →
    v ≠ s → kv = INT_MAX

/-! ## Connection by a list of edges -/

/-- Edge `e`, read as an undirected connection, joins `a` and `b`. -/
def Joins (e : Edge) (a b : Int) : Prop :=
  (e.fromVertex = a ∧ e.toVertex = b) ∨ (e.fromVertex = b ∧ e.toVertex = a)

/-- One undirected step along an edge of the list `E`. -/
def UStep (E : List Edge) (a b : Int) : Prop := ∃ e, e ∈ E ∧ Joins e a b

/-- Vertices `a` and `b` are connected by edges of the list `E`, read as
undirected connections. -/
def UConn (E : List Edge) (a b : Int) : Prop := Relation.ReflTransGen (UStep E) a b

/-- Sum of the weight fields of a list of edges. -/
def totalWeight (T : List Edge) : Int := (T.map Edge.weight).sum

/-! ## Connected graphs, spanning trees and the exchange invariant -/

/-- Every vertex can be reached from every vertex. -/
def Connected (g : Graph) : Prop :=
  ∀ u v, u < g.numVertices → v < g.numVertices → Reach g u v

/-- Every undirected connection is stored as two directed edges of equal
weight. -/
def SymmetricEdges (g : Graph) : Prop := ∀ a b w, Links g a b w → Links g b a w

/-- Every weight is strictly below the sentinel `INT_MAX`. -/
def WeightsBelowMax (g : Graph) : Prop := ∀ a b w, Links g a b w → w < INT_MAX

/-- Every weight is non-negative. -/
def NonNegWeights (g : Graph) : Prop := ∀ a b w, Links g a b w → 0 ≤ w

/-- The edge record `e` is a connection of the graph: one of its two directions
is an adjacency entry with the weight of `e`. -/
def IsEdgeOf (g : Graph) (e : Edge) : Prop :=
  ∃ a b : Nat, e.fromVertex = (a : Int) ∧ e.toVertex = (b : Int) ∧
    (Links g a b e.weight ∨ Links g b a e.weight)

/-- A spanning tree of the graph, as a list of edge records: `numVertices - 1`
connections of the graph that connect all vertices. -/
def SpanningTree (g : Graph) (T : List Edge) : Prop :=
  (∀ e, e ∈ T → IsEdgeOf g e) ∧ T.length + 1 = g.numVertices ∧
    ∀ u v : Nat, u < g.numVertices → v < g.numVertices → UConn T (u : Int) (v : Int)

/-- The exchange invariant of Prim's algorithm against a spanning tree `T0`: the
tree edges chosen so far extend to a spanning tree that weighs no more. -/
def PrimExch (g : Graph) (r : Records) (T0 : List Edge) : Prop :=
  ∃ R, SpanningTree g (treeEdges r ++ R) ∧
    totalWeight (treeEdges r ++ R) ≤ totalWeight T0

/-- The loop invariant of Prim on a well-formed graph. -/
structure PrimState (g : Graph) (s : Nat) (r : Records) : Prop where
  run : Running g s r
  inv : PrimInv g s r

/-- The loop invariant of Prim on a connected graph with weights below the
sentinel: one tree edge per extracted vertex other than the start. -/
structure PrimConnState (g : Graph) (s : Nat) (r : Records) : Prop where
  st : PrimState g s r
  count_eq : r.finished s = true → r.numTreeEdges + r.heap.size = g.numVertices - 1
  conn : ∀ v, r.finished v = true → UConn (treeEdges r) (s : Int) (v : Int)

/-! ## Shortest-path distances and facts about every run of Dijkstra -/

/-- The true shortest-path distance from `s` to `v`: the weight of some path,
and a lower bound of the weight of every path. -/
def IsDist (g : Graph) (s v : Nat) (d : Int) : Prop :=
  PathW g s v d ∧ ∀ W, PathW g s v W → d ≤ W

/-- Every relaxation sum stays below `INT_MAX`: the true distance `d` of a vertex
`u` plus the weight of an edge from `u` to a vertex `v` that is not closer to the
start than `u` (the algorithm adds only for targets it has not finished, and
those are never closer than the vertex it extracts). -/
def NoOverflow (g : Graph) (s : Nat) : Prop :=
  ∀ u d, IsDist g s u d → ∀ v w, Links g u v w → (∀ W, PathW g s v W → d ≤ W) →
    d + w < INT_MAX

/-- A tree array listed in extraction order from the root `s`: every edge leads
to the root or to the `fromVertex` of an earlier edge, and no vertex is the
`fromVertex` of two edges or the root. -/
inductive TreeOrdered (s : Int) : List Edge → Prop
  | nil : TreeOrdered s []
  | snoc {T : List Edge} {e : Edge} : TreeOrdered s T →
      (e.toVertex = s ∨ ∃ e', e' ∈ T ∧ e'.fromVertex = e.toVertex) →
      (∀ e', e' ∈ T → e'.fromVertex ≠ e.fromVertex) → e.fromVertex ≠ s →
      TreeOrdered s (T ++ [e])

/-- Facts about a run of Dijkstra's loop on a graph with non-negative weights,
all vertices reachable and no overflowing relaxation sum. -/
structure DijkInv (g : Graph) (s : Nat) (r : Records) : Prop where
  fin_dist : ∀ x, r.finished x = true → ∃ dx, IsDist g s x dx ∧
    (∀ y w ky, Links g x y w → getPriority r.heap y = some ky → ky ≤ dx + w) ∧
    ∀ y W, r.finished y = false → PathW g s y W → dx ≤ W
  prio_path : r.finished s = true → ∀ v kv, getPriority r.heap v = some kv →
    kv < INT_MAX → ∃ p : Nat, r.predecessors v = (p : Int) ∧ r.finished p = true ∧
      ∃ dp w, IsDist g s p dp ∧ Links g p v w ∧ kv = dp + w
  tree_edge : ∀ e, e ∈ treeEdges r → ∃ v p : Nat, e.fromVertex = (v : Int) ∧
    e.toVertex = (p : Int) ∧ r.finished v = true ∧ r.finished p = true ∧ v ≠ s ∧
    IsDist g s v e.weight ∧ ∃ dp w, IsDist g s p dp ∧ Links g p v w ∧ e.weight = dp + w
  tree_all : ∀ v, r.finished v = true → v ≠ s →
    ∃ e, e ∈ treeEdges r ∧ e.fromVertex = (v : Int)
  tree_order : TreeOrdered (s : Int) (treeEdges r)

/-! ## Predecessor walks through a tree array -/

/-- The tree edge that records the predecessor of `v`: the first edge of the
tree array whose `fromVertex` is `v`. -/
def findTreeEdge (tree : List Edge) (v : Int) : Option Edge :=
  tree.find? fun e => decide (e.fromVertex = v)

/-- The walk along predecessor links from `v` until `startVertex` is reached,
as the list of tree edges passed; the first argument bounds its length. -/
def predecessorPath (tree : List Edge) (startVertex : Int) : Nat → Int → Option (List Edge)
  | 0, v => if v = startVertex then some [] else none
  | fuel + 1, v =>
    if v = startVertex then some []
    else
      match findTreeEdge tree v with
      | none => none
      | some e => (predecessorPath tree startVertex fuel e.toVertex).map fun rest => e :: rest

/-- The loop invariant of Dijkstra. -/
structure DijkState (g : Graph) (s : Nat) (r : Records) : Prop where
  run : Running g s r
  inv : DijkInv g s r

/-! ## Graphs for counterexamples -/

/-- All adjacency entries of the graph as triples (owner, target, weight). -/
def edgeTriples (g : Graph) : List (Nat × Int × Int) :=
  (List.range g.numVertices).flatMap fun u =>
    match adjListOf g u with
    | some adj => adj.map fun e => (u, e.toVertex, e.weight)
    | none => []

/-- Two vertices, joined by a connection whose weight is the sentinel
`INT_MAX`. -/
def sentinelGraph : Graph :=
  { numVertices := 2
    numEdges := 1
    vertices :=
      [ some (newVertex 0 [newEdge 0 1 INT_MAX]),
        some (newVertex 1 [newEdge 1 0 INT_MAX]) ] }

/-- Three vertices: vertex 0 has no edge, vertices 1 and 2 are joined by a
connection of weight 1. -/
def islandGraph : Graph :=
  { numVertices := 3
    numEdges := 1
    vertices :=
      [ some (newVertex 0 []),
        some (newVertex 1 [newEdge 1 2 1]),
        some (newVertex 2 [newEdge 2 1 1]) ] }

/-! ## Path reconstruction (`getShortestPaths`) -/

/-- The result of a function returning `EdgeList **`: `NULL`, or the array
`paths`, each cell of which holds an edge list (`NULL` being the empty list) or
was never written (`none`). -/
inductive PathsResult where
  | null : PathsResult
  | paths : List (Option (List Edge)) → PathsResult
deriving DecidableEq

/-- The function `getShortestPaths` (allocation is assumed to succeed): only the
cell of `startVertex` is ever written. -/
def getShortestPaths (distTree : Option (List Edge)) (numVertices startVertex : Int) :
    PathsResult :=
  match distTree with
  | none => PathsResult.null
  | some _ =>
    if startVertex < 0 ∨ numVertices ≤ startVertex then PathsResult.null
    else
      PathsResult.paths
        ((List.range numVertices.toNat).map fun i =>
          if (i : Int) = startVertex then some [] else none)

/-- The contract of `getShortestPaths` in the words of its doc comment: for
every vertex id the walk along predecessor links from id to `startVertex`. -/
def specShortestPaths (distTree : List Edge) (numVertices : Nat) (startVertex : Int) :
    List (Option (List Edge)) :=
  (List.range numVertices).map fun i =>
    predecessorPath distTree startVertex numVertices (i : Int)

/-! ## The example graph under every order of its adjacency lists -/

/-- The example graph with its adjacency lists given explicitly. -/
def exampleGraphOf (l0 l1 l2 l3 : List Edge) : Graph :=
  { numVertices := 4
    numEdges := 5
    vertices :=
      [ some (newVertex 0 l0), some (newVertex 1 l1), some (newVertex 2 l2),
        some (newVertex 3 l3) ] }

/-- The two orders of a two-entry adjacency list. -/
def orders2 (a b : Edge) : List (List Edge) := [[a, b], [b, a]]

/-- The six orders of a three-entry adjacency list. -/
def orders3 (a b c : Edge) : List (List Edge) :=
  [[a, b, c], [a, c, b], [b, a, c], [b, c, a], [c, a, b], [c, b, a]]

/-! ## Sequences of heap operations -/

/-- Modelled from the spec: one call of a mutating operation of the absent
`minheap.c`. -/
inductive HeapOp where
  | insert (priority : Int) (id : Nat)
  | extractMin
  | decreasePriority (id : Nat) (newPriority : Int)
deriving DecidableEq

/-- The heap left by one call of a mutating operation (the node returned by
`extractMin` is dropped). -/
def applyOp (h : MinHeap) : HeapOp → Option MinHeap
  | HeapOp.insert priority id => insert h priority id
  | HeapOp.extractMin => (extractMin h).map Prod.snd
  | HeapOp.decreasePriority id newPriority => decreasePriority h id newPriority

/-- The heap left by a sequence of calls, made one after the other. -/
def applyOps : List HeapOp → MinHeap → Option MinHeap
  | [], h => some h
  | op :: ops, h => (applyOp h op).bind (applyOps ops)

/-- The precondition of a call in the words of the specification: `insert`
needs room and an id in `[0, capacity)` that no live cell holds, `extractMin` a
non-empty heap, `decreasePriority` a live cell that holds the id with a
priority strictly above the new one. -/
def OpPre (h : MinHeap) : HeapOp → Prop
  | HeapOp.insert _ id => h.size < h.capacity ∧ id < h.capacity ∧
      ∀ p, p < h.size → (h.arr p).id ≠ id
  | HeapOp.extractMin => 0 < h.size
  | HeapOp.decreasePriority id newPriority =>
      ∃ p, p < h.size ∧ (h.arr p).id = id ∧ newPriority < (h.arr p).priority

/-- Every call of the sequence meets its precondition on the heap it is made
on. -/
def PreOk : List HeapOp → MinHeap → Prop
  | [], _ => True
  | op :: ops, h => OpPre h op ∧
      match applyOp h op with
      | some h' => PreOk ops h'
      | none => True

/-- The precondition of a call can be checked by inspecting the live cells. -/
@[instance] def decidableOpPre (h : MinHeap) (op : HeapOp) : Decidable (OpPre h op) := by
  cases op <;> unfold OpPre <;> infer_instance

/-- Whether a sequence of calls meets its preconditions can be checked by
running it. -/
@[instance] def decidablePreOk : ∀ (ops : List HeapOp) (h : MinHeap), Decidable (PreOk ops h)
  | [], _ => isTrue trivial
  | op :: ops, h =>
    match hop : applyOp h op with
    | some h' =>
      match decidableOpPre h op, decidablePreOk ops h' with
      | isTrue h1, isTrue h2 => isTrue ⟨h1, by rw [hop]; exact h2⟩
      | isFalse h1, _ => isFalse fun hc => h1 hc.1
      | _, isFalse h2 => isFalse fun hc => h2 (by have := hc.2; rw [hop] at this; exact this)
    | none =>
      match decidableOpPre h op with
      | isTrue h1 => isTrue ⟨h1, by rw [hop]; trivial⟩
      | isFalse h1 => isFalse fun hc => h1 hc.1

/-- Loading a heap: `insert` called once for every entry of the list, in
order. -/
def insertAll : List HeapNode → MinHeap → Option MinHeap
  | [], h => some h
  | e :: es, h => (insert h e.priority e.id).bind (insertAll es)

/-- The nodes returned by `k` successive `extractMin` calls, in order, and the
heap they leave. -/
def extractAll : Nat → MinHeap → Option (List HeapNode × MinHeap)
  | 0, h => some ([], h)
  | k + 1, h =>
    match extractMin h with
    | none => none
    | some (node, h') => (extractAll k h').map fun res => (node :: res.1, res.2)

/-! ## The nodes a run extracts, and what a run is shown to do -/

/-- The nodes that the first `fuel` iterations of the outer loop of
`getMSTprim` extract from the heap, in order. -/
def primExtracted (graph : Graph) : Nat → Records → List HeapNode
  | 0, _ => []
  | fuel + 1, records =>
    if isEmpty (some records.heap) then []
    else
      match extractMin records.heap, primStep graph records with
      | some (node, _), some records' => node :: primExtracted graph fuel records'
      | _, _ => []

/-- The nodes that the first `fuel` iterations of the outer loop of
`getDistanceTreeDijkstra` extract from the heap, in order. -/
def dijkstraExtracted (graph : Graph) : Nat → Records → List HeapNode
  | 0, _ => []
  | fuel + 1, records =>
    if isEmpty (some records.heap) then []
    else
      match extractMin records.heap, dijkstraStep graph records with
      | some (node, _), some records' => node :: dijkstraExtracted graph fuel records'
      | _, _ => []

/-- The nodes that the first `fuel` iterations of the shared loop extract. -/
def extractedWith (cand : Int → Edge → Int) (graph : Graph) : Nat → Records → List HeapNode
  | 0, _ => []
  | fuel + 1, records =>
    if isEmpty (some records.heap) then []
    else
      match extractMin records.heap, stepWith cand graph records with
      | some (node, _), some records' => node :: extractedWith cand graph fuel records'
      | _, _ => []

/-- What it means for a loop to extract every vertex exactly once: the `n`
extracted ids are the ids in `[0, n)`, each once; after `j <= n` iterations the
heap is empty exactly when `j = n`, the flags that are true are exactly those of
the `j` vertices extracted so far, and all flags are true at the end. -/
def ExtractsEachOnce (loop : Nat → Records → Option Records)
    (extracted : Nat → Records → List HeapNode) (n : Nat) (r0 : Records) : Prop :=
  (extracted n r0).length = n ∧
  ((extracted n r0).map HeapNode.id).Perm (List.range n) ∧
  ∀ j, j ≤ n → ∃ r, loop j r0 = some r ∧
    (isEmpty (some r.heap) = true ↔ j = n) ∧
    extracted j r0 = (extracted n r0).take j ∧
    (∀ v, r.finished v = true ↔ v ∈ ((extracted n r0).take j).map HeapNode.id) ∧
    (j = n → ∀ v, v < n → r.finished v = true)

/-- Facts that tie the records of a run to the nodes extracted so far. -/
structure Logged (g : Graph) (s : Nat) (L : List HeapNode) (r : Records) : Prop where
  run : Running g s r
  fin_log : ∀ v, r.finished v = true ↔ v ∈ L.map HeapNode.id
  nodup : (L.map HeapNode.id).Nodup
  count : L.length + r.heap.size = g.numVertices

/-- The part of one iteration of the outer loop that precedes the relaxation
loop, the same in both algorithms: `extractMin`, the `finished` flag of the
extracted vertex, and `addTreeEdge` when it has a predecessor.  The result is
the extracted node and the records with which the relaxation loop starts. -/
def extractStep (records : Records) : Option (HeapNode × Records) :=
  match extractMin records.heap with
  | none => none
  | some (node, heap) =>
    let u := node.id
    let records := { records with heap := heap, finished := Function.update records.finished u true }
    let records :=
      if records.predecessors u ≠ NOTHING then
        (addTreeEdge records records.numTreeEdges u (records.predecessors u) node.priority).map
          fun r => { r with numTreeEdges := r.numTreeEdges + 1 }
      else some records
    records.map fun r => (node, r)

/-- The graph with every missing vertex slot filled by a vertex without
edges. -/
def fillSlots (g : Graph) : Graph :=
  { g with
    vertices := (List.range g.numVertices).map fun u : Nat =>
      match g.vertices[u]? with
      | some (some vertex) => some vertex
      | _ => some (newVertex (Int.ofNat u) []) }

/-- One iteration of a relaxation loop, for the edge `e` on the records `r`
with candidate key `k`, makes its heap calls within their preconditions.  The
flag of a vertex is false exactly when a live heap cell holds the vertex.  For a
finished target nothing is called and nothing changes.  For an unfinished target
`v` the call `getPriority(heap, v)` finds `v` present with its current priority
`prio`; `decreasePriority(heap, v, k)` is called exactly when `k < prio`, so with
`v` present and `k` strictly below its priority, and only then is the
predecessor of `v` assigned; otherwise nothing changes. -/
def InnerIterationOk (relax : List Edge → Records → Option Records) (u : Nat) (k : Int)
    (r : Records) (e : Edge) : Prop :=
  (0 ≤ e.toVertex ∧ e.toVertex < (r.numVertices : Int)) ∧
  (∀ x, x < r.numVertices →
    (r.finished x = false ↔ ∃ p, p < r.heap.size ∧ (r.heap.arr p).id = x)) ∧
  (r.finished e.toVertex.toNat = true → relax [e] r = some r) ∧
  (r.finished e.toVertex.toNat = false →
    ∃ p prio, p < r.heap.size ∧ r.heap.arr p = ⟨prio, e.toVertex.toNat⟩ ∧
      getPriority r.heap e.toVertex.toNat = some prio ∧
      (¬k < prio → relax [e] r = some r) ∧
      (k < prio → ∃ heap, decreasePriority r.heap e.toVertex.toNat k = some heap ∧
        relax [e] r = some { r with
          heap := heap
          predecessors := Function.update r.predecessors e.toVertex.toNat (u : Int) }))

/-- Every heap call made in the iteration of the outer loop that starts on the
records `r` meets its precondition: if the heap is not empty the extraction
part is defined, and when the slot of the extracted vertex holds a vertex, the
relaxation loop over its adjacency list makes its calls within their
preconditions. -/
def IterationCallsOk (relax : Nat → Int → List Edge → Records → Option Records)
    (cand : Int → Edge → Int) (g : Graph) (r : Records) : Prop :=
  isEmpty (some r.heap) = false →
    ∃ node r1, extractStep r = some (node, r1) ∧ getMin r.heap = some node ∧
      ∀ adj, adjListOf g node.id = some adj →
        ∀ pre e rest, adj = pre ++ e :: rest →
          ∃ r2, relax node.id node.priority pre r1 = some r2 ∧
            InnerIterationOk (relax node.id node.priority) node.id (cand node.priority e) r2 e

/-- Every key below its initial value is justified by an edge: a vertex with a
recorded predecessor `p` has the candidate key of an adjacency entry of `p`
that leads to it, computed from the key `p` was extracted with; and so has
every tree edge. -/
structure Justified (cand : Int → Edge → Int) (g : Graph) (L : List HeapNode) (r : Records) :
    Prop where
  prio_just : ∀ v kv, getPriority r.heap v = some kv → r.predecessors v ≠ NOTHING →
    ∃ (p : Nat) (kp : Int) (adj : List Edge) (e0 : Edge), r.predecessors v = (p : Int) ∧
      (⟨kp, p⟩ : HeapNode) ∈ L ∧ adjListOf g p = some adj ∧ e0 ∈ adj ∧
      e0.toVertex = (v : Int) ∧ kv = cand kp e0
  tree_just : ∀ e, e ∈ treeEdges r →
    ∃ (u p : Nat) (kp : Int) (adj : List Edge) (e0 : Edge), e.fromVertex = (u : Int) ∧
      e.toVertex = (p : Int) ∧ (⟨e.weight, u⟩ : HeapNode) ∈ L ∧ (⟨kp, p⟩ : HeapNode) ∈ L ∧
      adjListOf g p = some adj ∧ e0 ∈ adj ∧ e0.toVertex = (u : Int) ∧ e.weight = cand kp e0

/-- The tree array lists the extracted vertices other than the first, in
extraction order: the start vertex is extracted first, at key 0, and the
`fromVertex` fields of the tree are the ids extracted after it, in order. -/
structure TreeLog (s : Nat) (L : List HeapNode) (r : Records) : Prop where
  head : ∀ node, L.head? = some node → node = ⟨0, s⟩
  from_eq : (treeEdges r).map Edge.fromVertex = L.tail.map fun node => (node.id : Int)
  order : TreeOrdered (s : Int) (treeEdges r)

/-- No relaxation sum of the run that starts on the records `r0` overflows:
whenever an iteration of the outer loop of `getDistanceTreeDijkstra` has
extracted `node` and examines an edge `e` whose target is not finished, the sum
`node.priority + e.weight` is an `int`. -/
def NoSumOverflow (g : Graph) (r0 : Records) : Prop :=
  ∀ (j : Nat) (r : Records) (node : HeapNode) (adj : List Edge) (e : Edge),
    dijkstraLoop g j r0 = some r → getMin r.heap = some node →
    adjListOf g node.id = some adj → e ∈ adj → e.toVertex.toNat ≠ node.id →
    r.finished e.toVertex.toNat = false →
    INT_MIN ≤ node.priority + e.weight ∧ node.priority + e.weight ≤ INT_MAX

/-- The keys of a run of Dijkstra's loop never decrease: the extracted keys are
sorted, no key in the heap is below an extracted key or negative, and the
weight fields of the tree are among the extracted keys, in order. -/
structure KeysMonotone (L : List HeapNode) (r : Records) : Prop where
  sorted : List.Pairwise (fun a b : Int => a ≤ b) (L.map HeapNode.priority)
  nonneg : ∀ v kv, getPriority r.heap v = some kv → 0 ≤ kv
  above : ∀ node, node ∈ L → ∀ v kv, getPriority r.heap v = some kv → node.priority ≤ kv
  tree_sub : List.Sublist ((treeEdges r).map Edge.weight) (L.map HeapNode.priority)

/-- The tree array `T` is a rooted tree listed in the extraction order `L`: the
start vertex is extracted first (at key 0) and is never a `fromVertex`, the
`fromVertex` fields are the ids extracted after it, in order and pairwise
distinct, and the `toVertex` of the edge at index `i` is the start vertex or the
`fromVertex` of an edge at an index `j < i`. -/
def RootedInOrder (s : Nat) (L : List HeapNode) (T : List Edge) : Prop :=
  L.head? = some ⟨0, s⟩ ∧
  T.map Edge.fromVertex = L.tail.map (fun node => (node.id : Int)) ∧
  (∀ e, e ∈ T → e.fromVertex ≠ (s : Int)) ∧
  (T.map Edge.fromVertex).Nodup ∧
  ∀ (i : Nat) (e : Edge), T[i]? = some e → e.toVertex = (s : Int) ∨
    ∃ (j : Nat) (e' : Edge), j < i ∧ T[j]? = some e' ∧ e'.fromVertex = e.toVertex

/-! ## Vertices that cannot be reached from the start -/

theorem parentIdx_lt {p : Nat} (hp : 0 < p) : parentIdx p < p := by
  unfold parentIdx; omega

theorem parentIdx_eq_iff {q p : Nat} (hq : 0 < q) :
    parentIdx q = p ↔ q = 2 * p + 1 ∨ q = 2 * p + 2 := by
  unfold parentIdx; omega

theorem HeapWF.id_inj {h : MinHeap} (hw : HeapWF h) {i j : Nat} (hi : i < h.size)
    (hj : j < h.size) (hij : (h.arr i).id = (h.arr j).id) : i = j := by
  have h1 := hw.index_arr i hi
  have h2 := hw.index_arr j hj
  rw [hij, h2] at h1
  exact (Option.some.inj h1).symm

theorem getPriority_eq_some {h : MinHeap} (hw : HeapWF h) {p : Nat} (hp : p < h.size) :
    getPriority h (h.arr p).id = some (h.arr p).priority := by
  unfold getPriority
  rw [hw.index_arr p hp]

theorem getPriority_some_iff {h : MinHeap} (hw : HeapWF h) (id : Nat) (k : Int) :
    getPriority h id = some k ↔ ∃ p, p < h.size ∧ h.arr p = { priority := k, id := id } := by
  constructor
  · intro hg
    unfold getPriority at hg
    cases hi : h.indexMap id with
    | none => rw [hi] at hg; cases hg
    | some p =>
      rw [hi] at hg
      obtain ⟨hp, hid⟩ := hw.arr_index id p hi
      refine ⟨p, hp, ?_⟩
      simp only [Option.some.injEq] at hg
      cases hn : h.arr p with
      | mk pr i =>
        rw [hn] at hg hid
        simp only at hg hid
        rw [hg, hid]
  · rintro ⟨p, hp, hn⟩
    have := getPriority_eq_some hw hp
    rw [hn] at this
    exact this

theorem getPriority_isSome_lt {h : MinHeap} (hw : HeapWF h) {id : Nat} {k : Int}
    (hg : getPriority h id = some k) : id < h.capacity := by
  obtain ⟨p, hp, hn⟩ := (getPriority_some_iff hw id k).1 hg
  have := hw.id_lt p hp
  rw [hn] at this
  exact this

theorem swapNodes_size (h : MinHeap) (i j : Nat) : (swapNodes h i j).size = h.size := rfl

theorem swapNodes_capacity (h : MinHeap) (i j : Nat) :
    (swapNodes h i j).capacity = h.capacity := rfl

theorem swapNodes_arr (h : MinHeap) (i j q : Nat) :
    (swapNodes h i j).arr q = if q = j then h.arr i else if q = i then h.arr j else h.arr q := by
  simp only [swapNodes, Function.update_apply]

theorem swapNodes_indexMap (h : MinHeap) (i j id : Nat) :
    (swapNodes h i j).indexMap id =
      if id = (h.arr i).id then some j else if id = (h.arr j).id then some i
      else h.indexMap id := by
  simp only [swapNodes, Function.update_apply]

theorem swapNodes_wf {h : MinHeap} (hw : HeapWF h) {i j : Nat} (hi : i < h.size)
    (hj : j < h.size) : HeapWF (swapNodes h i j) := by
  refine ⟨hw.size_le, ?_, ?_, ?_⟩
  · intro p hp
    rw [swapNodes_size] at hp
    rw [swapNodes_arr, swapNodes_capacity]
    split_ifs
    · exact hw.id_lt i hi
    · exact hw.id_lt j hj
    · exact hw.id_lt p hp
  · intro p hp
    rw [swapNodes_size] at hp
    rw [swapNodes_arr, swapNodes_indexMap]
    by_cases hpj : p = j
    · subst hpj
      simp
    · rw [if_neg hpj]
      by_cases hpi : p = i
      · subst hpi
        rw [if_pos rfl]
        have hne : (h.arr j).id ≠ (h.arr p).id := fun he => hpj (hw.id_inj hp hj he.symm)
        rw [if_neg hne, if_pos rfl]
      · rw [if_neg hpi]
        have h1 : (h.arr p).id ≠ (h.arr i).id := fun he => hpi (hw.id_inj hp hi he)
        have h2 : (h.arr p).id ≠ (h.arr j).id := fun he => hpj (hw.id_inj hp hj he)
        rw [if_neg h1, if_neg h2]
        exact hw.index_arr p hp
  · intro id p hip
    rw [swapNodes_indexMap] at hip
    rw [swapNodes_size, swapNodes_arr]
    by_cases h1 : id = (h.arr i).id
    · rw [if_pos h1] at hip
      have : j = p := Option.some.inj hip
      subst this
      refine ⟨hj, ?_⟩
      rw [if_pos rfl]; exact h1.symm
    · rw [if_neg h1] at hip
      by_cases h2 : id = (h.arr j).id
      · rw [if_pos h2] at hip
        have : i = p := Option.some.inj hip
        subst this
        refine ⟨hi, ?_⟩
        by_cases hij : i = j
        · subst hij; exact absurd h2 h1
        · rw [if_neg hij, if_pos rfl]; exact h2.symm
      · rw [if_neg h2] at hip
        obtain ⟨hp, hid⟩ := hw.arr_index id p hip
        refine ⟨hp, ?_⟩
        have hpj : p ≠ j := fun he => h2 (by rw [← hid, he])
        have hpi : p ≠ i := fun he => h1 (by rw [← hid, he])
        rw [if_neg hpj, if_neg hpi]; exact hid

theorem swapNodes_getPriority {h : MinHeap} (hw : HeapWF h) {i j : Nat} (hi : i < h.size)
    (hj : j < h.size) (id : Nat) :
    getPriority (swapNodes h i j) id = getPriority h id := by
  have hw2 := swapNodes_wf hw hi hj
  cases hg : getPriority h id with
  | some k =>
    rw [getPriority_some_iff hw2]
    obtain ⟨p, hp, hn⟩ := (getPriority_some_iff hw id k).1 hg
    by_cases hpi : p = i
    · refine ⟨j, hj, ?_⟩
      rw [swapNodes_arr, if_pos rfl, ← hpi, hn]
    · by_cases hpj : p = j
      · refine ⟨i, hi, ?_⟩
        rw [swapNodes_arr]
        by_cases hij : i = j
        · exact absurd (hpj.trans hij.symm) hpi
        · rw [if_neg hij, if_pos rfl, ← hpj, hn]
      · refine ⟨p, hp, ?_⟩
        rw [swapNodes_arr, if_neg hpj, if_neg hpi, hn]
  | none =>
    cases hg2 : getPriority (swapNodes h i j) id with
    | none => rfl
    | some k =>
      exfalso
      obtain ⟨p, hp, hn⟩ := (getPriority_some_iff hw2 id k).1 hg2
      rw [swapNodes_size] at hp
      rw [swapNodes_arr] at hn
      have : ∃ q, q < h.size ∧ h.arr q = { priority := k, id := id } := by
        by_cases hpj : p = j
        · rw [if_pos hpj] at hn; exact ⟨i, hi, hn⟩
        · rw [if_neg hpj] at hn
          by_cases hpi : p = i
          · rw [if_pos hpi] at hn; exact ⟨j, hj, hn⟩
          · rw [if_neg hpi] at hn; exact ⟨p, hp, hn⟩
      rw [(getPriority_some_iff hw id k).2 this] at hg
      cases hg

/-! ## Sifting up and down -/

theorem SiftResult.of_swap {h h' : MinHeap} {i j : Nat} (hw : HeapWF h) (hi : i < h.size)
    (hj : j < h.size) (hr : SiftResult (swapNodes h i j) h') : SiftResult h h' :=
  { wf := hr.wf
    ordered := hr.ordered
    size_eq := hr.size_eq
    capacity_eq := hr.capacity_eq
    prio_eq := fun id => (hr.prio_eq id).trans (swapNodes_getPriority hw hi hj id) }

theorem bubbleUp_swap_ordered {h : MinHeap} {p : Nat} (hp0 : 0 < p)
    (hoe : OrderedExceptAt h p) (hgo : GrandOrdered h p)
    (hlt : (h.arr p).priority < (h.arr (parentIdx p)).priority) :
    OrderedExceptAt (swapNodes h p (parentIdx p)) (parentIdx p) := by
  intro q hq0 hqs hqne
  rw [swapNodes_size] at hqs
  have hpp : parentIdx p < p := parentIdx_lt hp0
  have hqq : parentIdx q < q := parentIdx_lt hq0
  rw [swapNodes_arr, swapNodes_arr, if_neg hqne]
  by_cases hqp : q = p
  · subst hqp
    rw [if_pos rfl, if_pos rfl]
    exact le_of_lt hlt
  · rw [if_neg hqp]
    by_cases h1 : parentIdx q = parentIdx p
    · rw [if_pos h1]
      have := hoe q hq0 hqs hqp
      rw [h1] at this
      exact le_trans (le_of_lt hlt) this
    · rw [if_neg h1]
      by_cases h2 : parentIdx q = p
      · rw [if_pos h2]
        exact hgo hp0 q hq0 hqs h2
      · rw [if_neg h2]
        exact hoe q hq0 hqs hqp

theorem bubbleUp_swap_grand {h : MinHeap} {p : Nat} (hp0 : 0 < p)
    (hoe : OrderedExceptAt h p) (hps : p < h.size) :
    GrandOrdered (swapNodes h p (parentIdx p)) (parentIdx p) := by
  intro hpp0 c hc0 hcs hcp
  rw [swapNodes_size] at hcs
  have hpp : parentIdx p < p := parentIdx_lt hp0
  have hppp : parentIdx (parentIdx p) < parentIdx p := parentIdx_lt hpp0
  have hcc : parentIdx c < c := parentIdx_lt hc0
  rw [swapNodes_arr, swapNodes_arr]
  rw [if_neg (by omega : parentIdx (parentIdx p) ≠ parentIdx p),
    if_neg (by omega : parentIdx (parentIdx p) ≠ p), if_neg (by omega : c ≠ parentIdx p)]
  have hbase : (h.arr (parentIdx (parentIdx p))).priority ≤ (h.arr (parentIdx p)).priority :=
    hoe (parentIdx p) hpp0 (by omega) (by omega)
  by_cases hcp2 : c = p
  · rw [if_pos hcp2]; exact hbase
  · rw [if_neg hcp2]
    have := hoe c hc0 hcs hcp2
    rw [hcp] at this
    exact le_trans hbase this

theorem bubbleUp_spec : ∀ (fuel : Nat) (h : MinHeap) (p : Nat), p ≤ fuel → HeapWF h →
    p < h.size → OrderedExceptAt h p → GrandOrdered h p → SiftResult h (bubbleUp fuel h p) := by
  intro fuel
  induction fuel with
  | zero =>
    intro h p hpf hw _ hoe _
    have hp : p = 0 := by omega
    subst hp
    exact ⟨hw, fun q hq0 hqs => hoe q hq0 hqs (by omega), rfl, rfl, fun _ => rfl⟩
  | succ fuel ih =>
    intro h p hpf hw hps hoe hgo
    unfold bubbleUp
    by_cases hp0 : p = 0
    · rw [if_pos hp0]
      subst hp0
      exact ⟨hw, fun q hq0 hqs => hoe q hq0 hqs (by omega), rfl, rfl, fun _ => rfl⟩
    · rw [if_neg hp0]
      have hp0' : 0 < p := Nat.pos_of_ne_zero hp0
      have hpp : parentIdx p < p := parentIdx_lt hp0'
      by_cases hlt : (h.arr p).priority < (h.arr (parentIdx p)).priority
      · rw [if_pos hlt]
        have hpps : parentIdx p < h.size := by omega
        apply SiftResult.of_swap hw hps hpps
        exact ih _ _ (by omega) (swapNodes_wf hw hps hpps) hpps
          (bubbleUp_swap_ordered hp0' hoe hgo hlt) (bubbleUp_swap_grand hp0' hoe hps)
      · rw [if_neg hlt]
        refine ⟨hw, ?_, rfl, rfl, fun _ => rfl⟩
        intro q hq0 hqs
        by_cases hqp : q = p
        · subst hqp; exact not_lt.1 hlt
        · exact hoe q hq0 hqs hqp

theorem bubbleDown_swap_ordered {h : MinHeap} {p c : Nat} (hoe : OrderedExceptBelow h p)
    (hgo : GrandOrdered h p) (hc0 : 0 < c) (hcs : c < h.size) (hcp : parentIdx c = p)
    (hmin : ∀ q, 0 < q → q < h.size → parentIdx q = p →
      (h.arr c).priority ≤ (h.arr q).priority)
    (hlt : (h.arr c).priority < (h.arr p).priority) :
    OrderedExceptBelow (swapNodes h p c) c := by
  intro q hq0 hqs hqne
  rw [swapNodes_size] at hqs
  have hpc : p < c := by rw [← hcp]; exact parentIdx_lt hc0
  have hqq : parentIdx q < q := parentIdx_lt hq0
  rw [swapNodes_arr, swapNodes_arr, if_neg hqne]
  by_cases hqc : q = c
  · subst hqc
    rw [if_pos rfl, if_pos hcp]
    exact le_of_lt hlt
  · rw [if_neg hqc]
    by_cases hqp : q = p
    · subst hqp
      rw [if_pos rfl, if_neg (by omega : parentIdx q ≠ q)]
      exact hgo hq0 c hc0 hcs hcp
    · rw [if_neg hqp]
      by_cases h1 : parentIdx q = p
      · rw [if_pos h1]
        exact hmin q hq0 hqs h1
      · rw [if_neg h1]
        exact hoe q hq0 hqs h1

theorem bubbleDown_swap_grand {h : MinHeap} {p c : Nat} (hoe : OrderedExceptBelow h p)
    (hc0 : 0 < c) (hcp : parentIdx c = p) :
    GrandOrdered (swapNodes h p c) c := by
  intro _ d hd0 hds hdc
  rw [swapNodes_size] at hds
  have hpc : p < c := by rw [← hcp]; exact parentIdx_lt hc0
  have hdd : c < d := by rw [← hdc]; exact parentIdx_lt hd0
  rw [swapNodes_arr, swapNodes_arr, hcp]
  rw [if_neg (by omega : p ≠ c), if_pos rfl, if_neg (by omega : d ≠ c),
    if_neg (by omega : d ≠ p)]
  have := hoe d hd0 hds (by omega)
  rw [hdc] at this
  exact this

theorem bubbleDown_spec : ∀ (fuel : Nat) (h : MinHeap) (p : Nat), h.size ≤ fuel + p →
    HeapWF h → OrderedExceptBelow h p → GrandOrdered h p →
    SiftResult h (bubbleDown fuel h p) := by
  intro fuel
  induction fuel with
  | zero =>
    intro h p hf hw hoe _
    show SiftResult h h
    refine ⟨hw, ?_, rfl, rfl, fun _ => rfl⟩
    intro q hq0 hqs
    exact hoe q hq0 hqs (by have := parentIdx_lt hq0; omega)
  | succ fuel ih =>
    intro h p hf hw hoe hgo
    unfold bubbleDown
    by_cases hl : 2 * p + 1 < h.size
    · rw [if_pos hl]
      -- the smaller child
      obtain ⟨c, hc, hc0, hcs, hcp, hmin⟩ : ∃ c,
          (if 2 * p + 2 < h.size ∧
            (h.arr (2 * p + 2)).priority < (h.arr (2 * p + 1)).priority
            then 2 * p + 2 else 2 * p + 1) = c ∧ 0 < c ∧ c < h.size ∧ parentIdx c = p ∧
          ∀ q, 0 < q → q < h.size → parentIdx q = p →
            (h.arr c).priority ≤ (h.arr q).priority := by
        by_cases hr : 2 * p + 2 < h.size ∧
            (h.arr (2 * p + 2)).priority < (h.arr (2 * p + 1)).priority
        · refine ⟨2 * p + 2, if_pos hr, by omega, hr.1,
            (parentIdx_eq_iff (by omega)).2 (Or.inr rfl), ?_⟩
          intro q hq0 _ hqp
          rcases (parentIdx_eq_iff hq0).1 hqp with h1 | h1
          · rw [h1]; exact le_of_lt hr.2
          · rw [h1]
        · refine ⟨2 * p + 1, if_neg hr, by omega, hl,
            (parentIdx_eq_iff (by omega)).2 (Or.inl rfl), ?_⟩
          intro q hq0 hqs hqp
          rcases (parentIdx_eq_iff hq0).1 hqp with h1 | h1
          · rw [h1]
          · rw [h1]
            rw [h1] at hqs
            by_contra hcon
            exact hr ⟨hqs, not_le.1 hcon⟩
      simp only [hc]
      have hpc : p < c := by rw [← hcp]; exact parentIdx_lt hc0
      by_cases hlt : (h.arr c).priority < (h.arr p).priority
      · rw [if_pos hlt]
        have hps : p < h.size := by omega
        apply SiftResult.of_swap hw hps hcs
        exact ih _ _ (by rw [swapNodes_size]; omega) (swapNodes_wf hw hps hcs)
          (bubbleDown_swap_ordered hoe hgo hc0 hcs hcp hmin hlt)
          (bubbleDown_swap_grand hoe hc0 hcp)
      · rw [if_neg hlt]
        refine ⟨hw, ?_, rfl, rfl, fun _ => rfl⟩
        intro q hq0 hqs
        by_cases hqp : parentIdx q = p
        · rw [hqp]
          exact le_trans (not_lt.1 hlt) (hmin q hq0 hqs hqp)
        · exact hoe q hq0 hqs hqp
    · rw [if_neg hl]
      refine ⟨hw, ?_, rfl, rfl, fun _ => rfl⟩
      intro q hq0 hqs
      apply hoe q hq0 hqs
      intro hqp
      rcases (parentIdx_eq_iff hq0).1 hqp with h1 | h1 <;> omega

/-- The root of an ordered heap carries the least priority. -/
theorem HeapOrdered.root_le {h : MinHeap} (ho : HeapOrdered h) :
    ∀ p, p < h.size → (h.arr 0).priority ≤ (h.arr p).priority := by
  intro p
  induction p using Nat.strong_induction_on with
  | _ p ih =>
    intro hp
    by_cases hp0 : p = 0
    · subst hp0; exact le_refl _
    · have hp0' : 0 < p := Nat.pos_of_ne_zero hp0
      have hpp := parentIdx_lt hp0'
      exact le_trans (ih _ hpp (by omega)) (ho p hp0' hp)

/-! ## Heap operations -/

theorem getPriority_eq_none_iff (h : MinHeap) (id : Nat) :
    getPriority h id = none ↔ h.indexMap id = none := by
  unfold getPriority
  cases h.indexMap id <;> simp

theorem getPriority_of_index {h : MinHeap} {id p : Nat} (hi : h.indexMap id = some p) :
    getPriority h id = some (h.arr p).priority := by
  unfold getPriority; rw [hi]

theorem newHeap_inv (capacity : Nat) : HeapInv (newHeap capacity) := by
  refine ⟨⟨Nat.zero_le _, ?_, ?_, ?_⟩, ?_⟩
  · intro p hp; exact absurd hp (Nat.not_lt_zero _)
  · intro p hp; exact absurd hp (Nat.not_lt_zero _)
  · intro id p hip; cases hip
  · intro p _ hp; exact absurd hp (Nat.not_lt_zero _)

theorem newHeap_getPriority (capacity id : Nat) : getPriority (newHeap capacity) id = none :=
  rfl

theorem insert_spec {h : MinHeap} (hinv : HeapInv h) (priority : Int) {id : Nat}
    (hsz : h.size < h.capacity) (hid : id < h.capacity) (hfresh : getPriority h id = none) :
    ∃ h', insert h priority id = some h' ∧ HeapInv h' ∧ h'.size = h.size + 1 ∧
      h'.capacity = h.capacity ∧ getPriority h' id = some priority ∧
      ∀ id', id' ≠ id → getPriority h' id' = getPriority h id' := by
  obtain ⟨hw, ho⟩ := hinv
  have hnone : h.indexMap id = none := (getPriority_eq_none_iff h id).1 hfresh
  have hne : ∀ p, p < h.size → (h.arr p).id ≠ id := by
    intro p hp he
    have := hw.index_arr p hp
    rw [he, hnone] at this
    cases this
  let h0 : MinHeap :=
    { h with
      size := h.size + 1
      arr := Function.update h.arr h.size { priority := priority, id := id }
      indexMap := Function.update h.indexMap id (some h.size) }
  have harr : ∀ q, h0.arr q = if q = h.size then { priority := priority, id := id }
      else h.arr q := fun q => by simp only [h0, Function.update_apply]
  have hidx : ∀ i, h0.indexMap i = if i = id then some h.size else h.indexMap i :=
    fun i => by simp only [h0, Function.update_apply]
  have hs0 : h0.size = h.size + 1 := rfl
  have hw0 : HeapWF h0 := by
    refine ⟨?_, ?_, ?_, ?_⟩
    · show h.size + 1 ≤ h.capacity
      omega
    · intro p hp
      rw [harr]
      show _ < h.capacity
      split_ifs with h1
      · exact hid
      · exact hw.id_lt p (by rw [hs0] at hp; omega)
    · intro p hp
      rw [harr, hidx]
      by_cases h1 : p = h.size
      · rw [if_pos h1, if_pos rfl, h1]
      · rw [if_neg h1]
        have hp' : p < h.size := by rw [hs0] at hp; omega
        rw [if_neg (hne p hp')]
        exact hw.index_arr p hp'
    · intro i p hip
      rw [hidx] at hip
      rw [harr, hs0]
      by_cases h1 : i = id
      · rw [if_pos h1] at hip
        have : h.size = p := Option.some.inj hip
        subst this
        rw [if_pos rfl]
        exact ⟨Nat.lt_succ_self _, h1.symm⟩
      · rw [if_neg h1] at hip
        obtain ⟨hp, hpid⟩ := hw.arr_index i p hip
        rw [if_neg (by omega : p ≠ h.size)]
        exact ⟨by omega, hpid⟩
  have hoe : OrderedExceptAt h0 h.size := by
    intro q hq0 hqs hqne
    rw [hs0] at hqs
    have hqq := parentIdx_lt hq0
    rw [harr, harr, if_neg (by omega : parentIdx q ≠ h.size), if_neg hqne]
    exact ho q hq0 (by omega)
  have hgo : GrandOrdered h0 h.size := by
    intro _ c hc0 hcs hcp
    rw [hs0] at hcs
    have := parentIdx_lt hc0
    omega
  have hres := bubbleUp_spec h.size h0 h.size (le_refl _) hw0 (by rw [hs0]; omega) hoe hgo
  refine ⟨bubbleUp h.size h0 h.size, ?_, ⟨hres.wf, hres.ordered⟩, hres.size_eq,
    hres.capacity_eq, ?_, ?_⟩
  · unfold insert
    rw [if_neg]
    rw [hnone]
    simp only [Option.isSome_none, Bool.false_eq_true, or_false, not_or, not_le]
    exact ⟨hsz, hid⟩
  · rw [hres.prio_eq]
    have : h0.indexMap id = some h.size := by rw [hidx, if_pos rfl]
    rw [getPriority_of_index this, harr, if_pos rfl]
  · intro id' hne'
    rw [hres.prio_eq]
    unfold getPriority
    rw [hidx, if_neg hne']
    cases hi : h.indexMap id' with
    | none => rfl
    | some p =>
      have := (hw.arr_index id' p hi).1
      show some (h0.arr p).priority = some (h.arr p).priority
      rw [harr, if_neg (by omega : p ≠ h.size)]

theorem getMin_eq {h : MinHeap} (hsz : 0 < h.size) : getMin h = some (h.arr 0) := by
  unfold getMin
  rw [if_neg (by omega)]

theorem root_min {h : MinHeap} (hinv : HeapInv h) {id : Nat} {k : Int}
    (hg : getPriority h id = some k) : (h.arr 0).priority ≤ k := by
  obtain ⟨p, hp, hn⟩ := (getPriority_some_iff hinv.1 id k).1 hg
  have := hinv.2.root_le p hp
  rw [hn] at this
  exact this

theorem extractMin_spec {h : MinHeap} (hinv : HeapInv h) (hsz : 0 < h.size) :
    ∃ h', extractMin h = some (h.arr 0, h') ∧ HeapInv h' ∧ h'.size = h.size - 1 ∧
      h'.capacity = h.capacity ∧ getPriority h' (h.arr 0).id = none ∧
      ∀ id, id ≠ (h.arr 0).id → getPriority h' id = getPriority h id := by
  obtain ⟨hw, ho⟩ := hinv
  let h0 : MinHeap :=
    { h with
      size := h.size - 1
      arr := Function.update h.arr 0 (h.arr (h.size - 1))
      indexMap := Function.update
        (Function.update h.indexMap (h.arr (h.size - 1)).id (some 0)) (h.arr 0).id none }
  have harr : ∀ q, h0.arr q = if q = 0 then h.arr (h.size - 1) else h.arr q :=
    fun q => by simp only [h0, Function.update_apply]
  have hidx : ∀ i, h0.indexMap i = if i = (h.arr 0).id then none
      else if i = (h.arr (h.size - 1)).id then some 0 else h.indexMap i :=
    fun i => by simp only [h0, Function.update_apply]
  have hs0 : h0.size = h.size - 1 := rfl
  have hlast : h.size - 1 < h.size := by omega
  have hw0 : HeapWF h0 := by
    refine ⟨?_, ?_, ?_, ?_⟩
    · show h.size - 1 ≤ h.capacity
      have := hw.size_le
      omega
    · intro p hp
      rw [harr]
      show _ < h.capacity
      split_ifs with h1
      · exact hw.id_lt _ hlast
      · exact hw.id_lt p (by rw [hs0] at hp; omega)
    · intro p hp
      rw [hs0] at hp
      rw [harr, hidx]
      by_cases h1 : p = 0
      · rw [if_pos h1]
        have : (h.arr (h.size - 1)).id ≠ (h.arr 0).id := by
          intro he
          have := hw.id_inj hlast hsz he
          omega
        rw [if_neg this, if_pos rfl, h1]
      · rw [if_neg h1]
        have ha : (h.arr p).id ≠ (h.arr 0).id := fun he => h1 (hw.id_inj (by omega) hsz he)
        have hb : (h.arr p).id ≠ (h.arr (h.size - 1)).id := by
          intro he
          have := hw.id_inj (by omega) hlast he
          omega
        rw [if_neg ha, if_neg hb]
        exact hw.index_arr p (by omega)
    · intro i p hip
      rw [hidx] at hip
      rw [harr, hs0]
      by_cases h1 : i = (h.arr 0).id
      · rw [if_pos h1] at hip; cases hip
      · rw [if_neg h1] at hip
        by_cases h2 : i = (h.arr (h.size - 1)).id
        · rw [if_pos h2] at hip
          have : 0 = p := Option.some.inj hip
          subst this
          rw [if_pos rfl]
          refine ⟨?_, h2.symm⟩
          by_contra hcon
          have : h.size - 1 = 0 := by omega
          rw [this] at h2
          exact h1 h2
        · rw [if_neg h2] at hip
          obtain ⟨hp, hpid⟩ := hw.arr_index i p hip
          have hp0 : p ≠ 0 := fun he => h1 (by rw [← hpid, he])
          have hpl : p ≠ h.size - 1 := fun he => h2 (by rw [← hpid, he])
          rw [if_neg hp0]
          exact ⟨by omega, hpid⟩
  have hoe : OrderedExceptBelow h0 0 := by
    intro q hq0 hqs hqne
    rw [hs0] at hqs
    rw [harr, harr, if_neg hqne, if_neg (by omega : q ≠ 0)]
    exact ho q hq0 (by omega)
  have hgo : GrandOrdered h0 0 := fun h00 => absurd h00 (lt_irrefl 0)
  have hres := bubbleDown_spec (h.size - 1) h0 0 (by rw [hs0]; omega) hw0 hoe hgo
  refine ⟨bubbleDown (h.size - 1) h0 0, ?_, ⟨hres.wf, hres.ordered⟩, hres.size_eq,
    hres.capacity_eq, ?_, ?_⟩
  · unfold extractMin
    rw [if_neg (by omega)]
  · rw [hres.prio_eq, getPriority_eq_none_iff, hidx, if_pos rfl]
  · intro id hne
    rw [hres.prio_eq]
    by_cases h2 : id = (h.arr (h.size - 1)).id
    · have : h0.indexMap id = some 0 := by rw [hidx, if_neg hne, if_pos h2]
      rw [getPriority_of_index this, harr, if_pos rfl, h2, getPriority_eq_some hw hlast]
    · unfold getPriority
      rw [hidx, if_neg hne, if_neg h2]
      cases hi : h.indexMap id with
      | none => rfl
      | some p =>
        have hpid := (hw.arr_index id p hi).2
        have hp0 : p ≠ 0 := fun he => hne (by rw [← hpid, he])
        show some (h0.arr p).priority = some (h.arr p).priority
        rw [harr, if_neg hp0]

theorem root_getPriority {h : MinHeap} (hinv : HeapInv h) (hsz : 0 < h.size) :
    getPriority h (h.arr 0).id = some (h.arr 0).priority :=
  getPriority_eq_some hinv.1 hsz

theorem decreasePriority_spec {h : MinHeap} (hinv : HeapInv h) {id : Nat} {k newPriority : Int}
    (hg : getPriority h id = some k) (hlt : newPriority < k) :
    ∃ h', decreasePriority h id newPriority = some h' ∧ HeapInv h' ∧ h'.size = h.size ∧
      h'.capacity = h.capacity ∧ getPriority h' id = some newPriority ∧
      ∀ id', id' ≠ id → getPriority h' id' = getPriority h id' := by
  obtain ⟨hw, ho⟩ := hinv
  cases hi : h.indexMap id with
  | none => rw [(getPriority_eq_none_iff h id).2 hi] at hg; cases hg
  | some p =>
    obtain ⟨hp, hpid⟩ := hw.arr_index id p hi
    have hk : (h.arr p).priority = k := by
      rw [getPriority_of_index hi] at hg
      exact Option.some.inj hg
    let h0 : MinHeap :=
      { h with arr := Function.update h.arr p { priority := newPriority, id := id } }
    have harr : ∀ q, h0.arr q = if q = p then { priority := newPriority, id := id }
        else h.arr q := fun q => by simp only [h0, Function.update_apply]
    have hidx : ∀ i, h0.indexMap i = h.indexMap i := fun _ => rfl
    have hs0 : h0.size = h.size := rfl
    have hid0 : ∀ q, (h0.arr q).id = (h.arr q).id := by
      intro q
      rw [harr]
      split_ifs with h1
      · rw [h1, hpid]
      · rfl
    have hw0 : HeapWF h0 := by
      refine ⟨hw.size_le, ?_, ?_, ?_⟩
      · intro q hq; rw [hid0]; exact hw.id_lt q hq
      · intro q hq; rw [hid0]; exact hw.index_arr q hq
      · intro i q hiq; rw [hid0]; exact hw.arr_index i q hiq
    have hoe : OrderedExceptAt h0 p := by
      intro q hq0 hqs hqne
      rw [harr, harr, if_neg hqne]
      have := ho q hq0 hqs
      by_cases h1 : parentIdx q = p
      · rw [if_pos h1]
        rw [h1, hk] at this
        exact le_trans (le_of_lt hlt) this
      · rw [if_neg h1]; exact this
    have hgo : GrandOrdered h0 p := by
      intro hp0 c hc0 hcs hcp
      have hpp := parentIdx_lt hp0
      have hcc := parentIdx_lt hc0
      rw [harr, harr, if_neg (by omega : parentIdx p ≠ p), if_neg (by omega : c ≠ p)]
      have h1 := ho p hp0 hp
      have h2 := ho c hc0 hcs
      rw [hcp] at h2
      exact le_trans h1 h2
    have hres := bubbleUp_spec p h0 p (le_refl _) hw0 hp hoe hgo
    refine ⟨bubbleUp p h0 p, ?_, ⟨hres.wf, hres.ordered⟩, hres.size_eq, hres.capacity_eq,
      ?_, ?_⟩
    · unfold decreasePriority
      rw [hi]
      simp only
      rw [if_pos (by rw [hk]; exact hlt)]
    · rw [hres.prio_eq]
      have : h0.indexMap id = some p := hi
      rw [getPriority_of_index this, harr, if_pos rfl]
    · intro id' hne
      rw [hres.prio_eq]
      unfold getPriority
      rw [hidx]
      cases hi' : h.indexMap id' with
      | none => rfl
      | some q =>
        have hqid := (hw.arr_index id' q hi').2
        have hqp : q ≠ p := fun he => hne (by rw [← hqid, he, hpid])
        show some (h0.arr q).priority = some (h.arr q).priority
        rw [harr, if_neg hqp]

/-! ## Prim and Dijkstra as instances of the shared loop -/

theorem primRelax_eq (u : Nat) (k : Int) : ∀ (adj : List Edge) (r : Records),
    primRelax u adj r = relaxWith (primCand k) u adj r := by
  intro adj
  induction adj with
  | nil => intro r; rfl
  | cons e rest ih =>
    intro r
    simp only [primRelax, relaxWith, primCand, ih]

theorem dijkstraRelax_eq (u : Nat) (k : Int) : ∀ (adj : List Edge) (r : Records),
    dijkstraRelax u k adj r = relaxWith (dijkstraCand k) u adj r := by
  intro adj
  induction adj with
  | nil => intro r; rfl
  | cons e rest ih =>
    intro r
    simp only [dijkstraRelax, relaxWith, dijkstraCand, ih]

theorem primStep_eq (g : Graph) (r : Records) : primStep g r = stepWith primCand g r := by
  unfold primStep stepWith getMin extractMin
  by_cases hs : r.heap.size = 0
  · simp only [hs, if_true]
  · simp only [hs, if_false]
    simp only [primRelax_eq _ (r.heap.arr 0).priority]

theorem dijkstraStep_eq (g : Graph) (r : Records) :
    dijkstraStep g r = stepWith dijkstraCand g r := by
  unfold dijkstraStep stepWith
  cases extractMin r.heap with
  | none => rfl
  | some x =>
    obtain ⟨node, heap⟩ := x
    simp only [dijkstraRelax_eq]

theorem primLoop_eq (g : Graph) : ∀ (fuel : Nat) (r : Records),
    primLoop g fuel r = loopWith primCand g fuel r := by
  intro fuel
  induction fuel with
  | zero => intro r; rfl
  | succ fuel ih =>
    intro r
    simp only [primLoop, loopWith, primStep_eq]
    have : primLoop g fuel = loopWith primCand g fuel := funext ih
    rw [this]

theorem dijkstraLoop_eq (g : Graph) : ∀ (fuel : Nat) (r : Records),
    dijkstraLoop g fuel r = loopWith dijkstraCand g fuel r := by
  intro fuel
  induction fuel with
  | zero => intro r; rfl
  | succ fuel ih =>
    intro r
    simp only [dijkstraLoop, loopWith, dijkstraStep_eq]
    have : dijkstraLoop g fuel = loopWith dijkstraCand g fuel := funext ih
    rw [this]

theorem RecInv.lt_of_prio {n : Nat} {r : Records} (hr : RecInv n r) {v : Nat} {k : Int}
    (hg : getPriority r.heap v = some k) : v < n := by
  have := getPriority_isSome_lt hr.heap.1 hg
  rw [hr.cap] at this
  exact this

theorem VertexRelax.nil_self (c : Edge → Int) (u : Nat) (p : Option Int) (pr : Int) (v : Nat) :
    VertexRelax c u [] p pr p pr v := by
  unfold VertexRelax
  cases p with
  | none => exact ⟨rfl, rfl⟩
  | some kv =>
    exact ⟨kv, rfl, le_refl _, fun e he => absurd he (List.not_mem_nil e), Or.inl ⟨rfl, rfl⟩⟩

/-! ## The relaxation loop -/

theorem SlotsPresent.adj {g : Graph} (hs : SlotsPresent g) {u : Nat} (hu : u < g.numVertices) :
    ∃ adj, adjListOf g u = some adj := by
  obtain ⟨vertex, hv⟩ := hs u hu
  refine ⟨vertex.adjList, ?_⟩
  unfold adjListOf
  rw [if_pos hu, hv]

theorem VertexRelax.cons {c : Edge → Int} {u : Nat} {rest : List Edge} {p : Option Int}
    {pr : Int} {p' : Option Int} {pr' : Int} {x : Nat} (e : Edge)
    (h : VertexRelax c u rest p pr p' pr' x)
    (he : e.toVertex = (x : Int) → ∀ kv, p = some kv → kv ≤ c e) :
    VertexRelax c u (e :: rest) p pr p' pr' x := by
  unfold VertexRelax at h ⊢
  cases p with
  | none => exact h
  | some kv =>
    obtain ⟨kv', h1, h2, h3, h4⟩ := h
    refine ⟨kv', h1, h2, ?_, ?_⟩
    · intro e' he' ht
      rcases List.mem_cons.1 he' with h5 | h5
      · subst h5
        exact le_trans h2 (he ht kv rfl)
      · exact h3 e' h5 ht
    · rcases h4 with h4 | ⟨h4, h5, e', h6, h7, h8⟩
      · exact Or.inl h4
      · exact Or.inr ⟨h4, h5, e', List.mem_cons_of_mem _ h6, h7, h8⟩

theorem relaxWith_spec (c : Edge → Int) (u n : Nat) : ∀ (adj : List Edge) (r : Records),
    RecInv n r → (∀ e, e ∈ adj → 0 ≤ e.toVertex ∧ e.toVertex < (n : Int)) →
    ∃ r', relaxWith c u adj r = some r' ∧ RelaxResult c u adj n r r' := by
  intro adj
  induction adj with
  | nil =>
    intro r hr _
    exact ⟨r, rfl, hr, rfl, rfl, rfl, rfl, fun v => VertexRelax.nil_self c u _ _ v⟩
  | cons e rest ih =>
    intro r hr hin
    obtain ⟨he0, hen⟩ := hin e (List.mem_cons_self _ _)
    have hrest : ∀ e', e' ∈ rest → 0 ≤ e'.toVertex ∧ e'.toVertex < (n : Int) :=
      fun e' he' => hin e' (List.mem_cons_of_mem _ he')
    have hv : ((e.toVertex.toNat : Nat) : Int) = e.toVertex := Int.toNat_of_nonneg he0
    have hvn : e.toVertex.toNat < n := by omega
    have hrange : ¬(e.toVertex < 0 ∨ (r.numVertices : Int) ≤ e.toVertex) := by
      rw [hr.nv]; omega
    unfold relaxWith
    rw [if_neg hrange]
    simp only
    by_cases hf : r.finished e.toVertex.toNat = true
    · rw [if_pos hf]
      obtain ⟨r', heq, hres⟩ := ih r hr hrest
      refine ⟨r', heq, hres.inv, hres.fin_eq, hres.tree_eq, hres.num_eq, hres.size_eq, ?_⟩
      intro x
      apply VertexRelax.cons e (hres.relax x)
      intro hx kv hkv
      have hxv : x = e.toVertex.toNat := by omega
      subst hxv
      rw [(hr.fin_heap _ hvn).1 hf] at hkv
      cases hkv
    · rw [if_neg hf]
      cases hp : getPriority r.heap e.toVertex.toNat with
      | none => exact absurd ((hr.fin_heap _ hvn).2 hp) hf
      | some pv =>
        simp only
        by_cases hlt : c e < pv
        · rw [if_pos hlt]
          obtain ⟨h', hdec, hinv', hsize', hcap', hnew, hother⟩ :=
            decreasePriority_spec hr.heap hp hlt
          rw [hdec]
          simp only
          have hr1 : RecInv n
              { r with
                heap := h'
                predecessors := Function.update r.predecessors e.toVertex.toNat (u : Int) } := by
            refine ⟨hr.nv, hinv', hcap'.trans hr.cap, ?_⟩
            intro x hx
            show r.finished x = true ↔ getPriority h' x = none
            by_cases hxv : x = e.toVertex.toNat
            · subst hxv
              rw [hnew]
              constructor
              · intro h1; exact absurd h1 hf
              · intro h1; cases h1
            · rw [hother x hxv]
              exact hr.fin_heap x hx
          obtain ⟨r', heq, hres⟩ := ih _ hr1 hrest
          refine ⟨r', heq, hres.inv, hres.fin_eq, hres.tree_eq, hres.num_eq,
            hres.size_eq.trans hsize', ?_⟩
          intro x
          have hrel := hres.relax x
          by_cases hxv : x = e.toVertex.toNat
          · subst hxv
            simp only [hnew, Function.update_same] at hrel
            rw [hp]
            unfold VertexRelax at hrel ⊢
            obtain ⟨kv', h1, h2, h3, h4⟩ := hrel
            refine ⟨kv', h1, le_trans h2 (le_of_lt hlt), ?_, Or.inr ⟨lt_of_le_of_lt h2 hlt, ?_, ?_⟩⟩
            · intro e' he' ht
              rcases List.mem_cons.1 he' with h5 | h5
              · subst h5; exact h2
              · exact h3 e' h5 ht
            · rcases h4 with h4 | h4
              · exact h4.2
              · exact h4.2.1
            · rcases h4 with h4 | ⟨_, _, e', h6, h7, h8⟩
              · exact ⟨e, List.mem_cons_self _ _, hv.symm, h4.1.symm⟩
              · exact ⟨e', List.mem_cons_of_mem _ h6, h7, h8⟩
          · simp only [hother x hxv, Function.update_noteq hxv] at hrel
            apply VertexRelax.cons e hrel
            intro hx
            exact absurd (by omega : x = e.toVertex.toNat) hxv
        · rw [if_neg hlt]
          obtain ⟨r', heq, hres⟩ := ih r hr hrest
          refine ⟨r', heq, hres.inv, hres.fin_eq, hres.tree_eq, hres.num_eq, hres.size_eq, ?_⟩
          intro x
          apply VertexRelax.cons e (hres.relax x)
          intro hx kv hkv
          have hxv : x = e.toVertex.toNat := by omega
          subst hxv
          rw [hp] at hkv
          have := Option.some.inj hkv
          omega

theorem treeEdges_append (r : Records) (e : Edge) :
    treeEdges { r with tree := Function.update r.tree r.numTreeEdges e,
                       numTreeEdges := r.numTreeEdges + 1 } = treeEdges r ++ [e] := by
  unfold treeEdges
  simp only [List.range_succ, List.map_append, List.map_cons, List.map_nil,
    Function.update_same]
  congr 1
  apply List.map_congr_left
  intro i hi
  have := List.mem_range.1 hi
  rw [Function.update_noteq (by omega)]

theorem treeEdges_length (r : Records) : (treeEdges r).length = r.numTreeEdges := by
  unfold treeEdges
  simp

theorem loopWith_spec (cand : Int → Edge → Int) (g : Graph) (P : Records → Prop)
    (hstep : ∀ r, P r → 0 < r.heap.size →
      ∃ r', stepWith cand g r = some r' ∧ P r' ∧ r'.heap.size + 1 = r.heap.size) :
    ∀ (fuel : Nat) (r : Records), r.heap.size ≤ fuel → P r →
      ∃ r', loopWith cand g fuel r = some r' ∧ P r' ∧ r'.heap.size = 0 := by
  intro fuel
  induction fuel with
  | zero =>
    intro r hsz hP
    exact ⟨r, rfl, hP, by omega⟩
  | succ fuel ih =>
    intro r hsz hP
    unfold loopWith
    by_cases h0 : r.heap.size = 0
    · refine ⟨r, ?_, hP, h0⟩
      simp [isEmpty, h0]
    · obtain ⟨r1, hs1, hP1, hsz1⟩ := hstep r hP (Nat.pos_of_ne_zero h0)
      obtain ⟨r', hl, hP', hsz'⟩ := ih r1 (by omega) hP1
      refine ⟨r', ?_, hP', hsz'⟩
      have : isEmpty (some r.heap) = false := by simp [isEmpty, h0]
      rw [this, hs1]
      simpa using hl

/-! ## One iteration, and initialisation -/

theorem stepWith_spec (cand : Int → Edge → Int) (g : Graph) (n : Nat) (r : Records)
    (hn : g.numVertices = n) (hr : RecInv n r) (hsz : 0 < r.heap.size)
    (hslots : SlotsPresent g) (hrange : TargetsInRange g)
    (hcap : (∀ v, r.predecessors v = NOTHING) ∨ r.numTreeEdges + r.heap.size ≤ n - 1) :
    ∃ r' u k adj, stepWith cand g r = some r' ∧ StepRel cand g n r r' u k adj := by
  obtain ⟨h', hex, hinv', hsize', hcap', hnone', hother'⟩ := extractMin_spec hr.heap hsz
  have hu : getPriority r.heap (r.heap.arr 0).id = some (r.heap.arr 0).priority :=
    root_getPriority hr.heap hsz
  have hun : (r.heap.arr 0).id < n := hr.lt_of_prio hu
  obtain ⟨adj, hadj⟩ := hslots.adj (by rw [hn]; exact hun)
  -- the records after extraction and after the tree edge is written
  obtain ⟨r2, hr2, hheap2, hfin2, hpred2, hnv2, hnum2, htree2⟩ : ∃ r2 : Records,
      (if r.predecessors (r.heap.arr 0).id ≠ NOTHING then
        (addTreeEdge
          { r with heap := h', finished := Function.update r.finished (r.heap.arr 0).id true }
          r.numTreeEdges (r.heap.arr 0).id (r.predecessors (r.heap.arr 0).id)
          (r.heap.arr 0).priority).map
          fun r => { r with numTreeEdges := r.numTreeEdges + 1 }
      else some
          { r with heap := h', finished := Function.update r.finished (r.heap.arr 0).id true })
        = some r2 ∧ r2.heap = h' ∧
      r2.finished = Function.update r.finished (r.heap.arr 0).id true ∧
      r2.predecessors = r.predecessors ∧ r2.numVertices = r.numVertices ∧
      r2.numTreeEdges = (if r.predecessors (r.heap.arr 0).id ≠ NOTHING then r.numTreeEdges + 1
        else r.numTreeEdges) ∧
      treeEdges r2 = (if r.predecessors (r.heap.arr 0).id ≠ NOTHING then
        treeEdges r ++ [{ fromVertex := ((r.heap.arr 0).id : Int),
                          toVertex := r.predecessors (r.heap.arr 0).id,
                          weight := (r.heap.arr 0).priority }]
        else treeEdges r) := by
    by_cases hp : r.predecessors (r.heap.arr 0).id ≠ NOTHING
    · simp only [if_pos hp]
      have hlt : r.numTreeEdges < r.numVertices - 1 := by
        rw [hr.nv]
        rcases hcap with h1 | h1
        · exact absurd (h1 _) hp
        · omega
      refine ⟨{ r with heap := h', finished := Function.update r.finished (r.heap.arr 0).id true,
                       tree := Function.update r.tree r.numTreeEdges
                          { fromVertex := ((r.heap.arr 0).id : Int),
                            toVertex := r.predecessors (r.heap.arr 0).id,
                            weight := (r.heap.arr 0).priority },
                       numTreeEdges := r.numTreeEdges + 1 }, ?_, rfl, rfl, rfl, rfl, rfl, ?_⟩
      · unfold addTreeEdge
        simp only [if_pos hlt, Option.map_some']
      · exact treeEdges_append r _
    · simp only [if_neg hp]
      exact ⟨_, rfl, rfl, rfl, rfl, rfl, rfl, rfl⟩
  have hrinv2 : RecInv n r2 := by
    refine ⟨hnv2.trans hr.nv, by rw [hheap2]; exact hinv', by rw [hheap2]; exact hcap'.trans hr.cap, ?_⟩
    intro x hx
    rw [hfin2, hheap2]
    by_cases hxu : x = (r.heap.arr 0).id
    · subst hxu
      simp only [Function.update_same, hnone']
    · rw [Function.update_noteq hxu, hother' x hxu]
      exact hr.fin_heap x hx
  have hadjr : ∀ e, e ∈ adj → 0 ≤ e.toVertex ∧ e.toVertex < (n : Int) := by
    intro e he
    have := hrange _ adj hadj e he
    rw [hn] at this
    exact this
  obtain ⟨r', hrel, hres⟩ := relaxWith_spec (cand (r.heap.arr 0).priority) (r.heap.arr 0).id n
    adj r2 hrinv2 hadjr
  refine ⟨r', (r.heap.arr 0).id, (r.heap.arr 0).priority, adj, ?_, ?_⟩
  · unfold stepWith
    rw [hex]
    simp only
    rw [hr2, hadj]
    simpa using hrel
  · have hrelu := hres.relax (r.heap.arr 0).id
    rw [hheap2, hnone'] at hrelu
    unfold VertexRelax at hrelu
    simp only at hrelu
    refine
      { inv := hres.inv
        u_lt := hun
        prio_u := hu
        min_u := fun v kv hv => root_min hr.heap hv
        adj_u := hadj
        size_eq := ?_
        fin_eq := hres.fin_eq.trans hfin2
        num_eq := hres.num_eq.trans hnum2
        tree_eq := ?_
        prio_u' := hrelu.1
        pred_u' := ?_
        relax := ?_ }
    · rw [hres.size_eq, hheap2, hsize']; omega
    · rw [← htree2]
      unfold treeEdges
      rw [hres.tree_eq, hres.num_eq]
    · rw [hrelu.2, hpred2]
    · intro v hv
      have := hres.relax v
      rw [hheap2, hother' v hv, hpred2] at this
      exact this

theorem initHeapLoop_spec (s : Int) (n : Nat) : ∀ (k i : Nat) (h : MinHeap), i + k = n →
    HeapInv h → h.capacity = n → h.size = i → (∀ v, getPriority h v = initPrio s i v) →
    ∃ h', initHeapLoop s k i h = some h' ∧ HeapInv h' ∧ h'.capacity = n ∧ h'.size = n ∧
      ∀ v, getPriority h' v = initPrio s n v := by
  intro k
  induction k with
  | zero =>
    intro i h hik hinv hcap hsz hp
    have : i = n := by omega
    subst this
    exact ⟨h, rfl, hinv, hcap, hsz, hp⟩
  | succ k ih =>
    intro i h hik hinv hcap hsz hp
    have hfresh : getPriority h i = none := by
      rw [hp]; unfold initPrio; rw [if_neg (lt_irrefl i)]
    obtain ⟨h1, hins, hinv1, hsz1, hcap1, hnew1, hoth1⟩ :=
      insert_spec hinv (if (i : Int) = s then 0 else INT_MAX) (by omega : h.size < h.capacity)
        (by omega : i < h.capacity) hfresh
    have hp1 : ∀ v, getPriority h1 v = initPrio s (i + 1) v := by
      intro v
      by_cases hvi : v = i
      · subst hvi
        rw [hnew1]; unfold initPrio; rw [if_pos (Nat.lt_succ_self _)]
      · rw [hoth1 v hvi, hp]
        unfold initPrio
        by_cases hvlt : v < i
        · rw [if_pos hvlt, if_pos (by omega : v < i + 1)]
        · rw [if_neg hvlt, if_neg (by omega : ¬v < i + 1)]
    obtain ⟨h', hl, hres⟩ := ih (i + 1) h1 (by omega) hinv1 (hcap1.trans hcap) (by omega) hp1
    refine ⟨h', ?_, hres⟩
    unfold initHeapLoop
    have : (if (i : Int) = s then insert h 0 i else insert h INT_MAX i) = some h1 := by
      rw [← hins]
      split_ifs <;> rfl
    rw [this]
    exact hl

theorem initRecords_spec (g : Graph) (s : Int) :
    ∃ r, initRecords g s = some r ∧ RecInv g.numVertices r ∧ r.heap.size = g.numVertices ∧
      (∀ v, getPriority r.heap v = initPrio s g.numVertices v) ∧
      (∀ v, r.finished v = false) ∧ (∀ v, r.predecessors v = NOTHING) ∧
      r.numTreeEdges = 0 := by
  obtain ⟨h', hl, hinv, hcap, hsz, hp⟩ := initHeapLoop_spec s g.numVertices g.numVertices 0
    (newHeap g.numVertices) (by omega) (newHeap_inv _) rfl rfl
    (fun v => by rw [newHeap_getPriority]; unfold initPrio; rw [if_neg (Nat.not_lt_zero _)])
  refine ⟨{ numVertices := g.numVertices, heap := h', finished := fun _ => false,
            predecessors := fun _ => NOTHING, tree := fun _ => default, numTreeEdges := 0 },
    ?_, ⟨rfl, hinv, hcap, ?_⟩, hsz, hp, fun _ => rfl, fun _ => rfl, rfl⟩
  · unfold initRecords initHeap
    rw [hl]
    rfl
  · intro v hv
    show false = true ↔ getPriority h' v = none
    rw [hp]
    unfold initPrio
    rw [if_pos hv]
    simp

/-! ## Every run: the start vertex is extracted first -/

theorem Links.lt_left {g : Graph} {a b : Nat} {w : Int} (h : Links g a b w) :
    a < g.numVertices := by
  obtain ⟨adj, e, hadj, _⟩ := h
  unfold adjListOf at hadj
  by_contra hcon
  rw [if_neg hcon] at hadj
  cases hadj

theorem Links.lt_right {g : Graph} (hrange : TargetsInRange g) {a b : Nat} {w : Int}
    (h : Links g a b w) : b < g.numVertices := by
  obtain ⟨adj, e, hadj, he, hto, _⟩ := h
  have := (hrange a adj hadj e he).2
  omega

theorem nat_ne_NOTHING (u : Nat) : (u : Int) ≠ NOTHING := by
  unfold NOTHING; omega

theorem Running.at_start {g : Graph} {s : Nat} {r : Records}
    (hinv : RecInv g.numVertices r) (hsz : r.heap.size = g.numVertices)
    (hp : ∀ v, getPriority r.heap v = initPrio s g.numVertices v)
    (hf : ∀ v, r.finished v = false) (hpred : ∀ v, r.predecessors v = NOTHING)
    (hnum : r.numTreeEdges = 0) : Running g s r :=
  { inv := hinv
    init := fun _ => ⟨hpred, hf, hp, hnum, hsz⟩
    count := fun h => by rw [hf s] at h; cases h
    pred_s := hpred s
    fin_lt := fun v h => by rw [hf v] at h; cases h }

/-- One iteration from a `Running` state: it is defined, is described by
`StepRel`, and extracts the start vertex exactly when it is the first one. -/
theorem Running.advance {g : Graph} {s : Nat} {r : Records} (cand : Int → Edge → Int)
    (hs : s < g.numVertices) (hslots : SlotsPresent g) (hrange : TargetsInRange g)
    (hrun : Running g s r) (hsz : 0 < r.heap.size) :
    ∃ r' u k adj, stepWith cand g r = some r' ∧ StepRel cand g g.numVertices r r' u k adj ∧
      Running g s r' ∧ r'.finished s = true ∧
      (r.finished s = false → u = s ∧ k = 0) ∧ (r.finished s = true → u ≠ s) := by
  have hcap : (∀ v, r.predecessors v = NOTHING) ∨
      r.numTreeEdges + r.heap.size ≤ g.numVertices - 1 := by
    cases hf : r.finished s with
    | false => exact Or.inl (hrun.init hf).1
    | true => exact Or.inr (hrun.count hf)
  obtain ⟨r', u, k, adj, hstep, hrel⟩ :=
    stepWith_spec cand g g.numVertices r rfl hrun.inv hsz hslots hrange hcap
  have hfirst : r.finished s = false → u = s ∧ k = 0 := by
    intro hf
    obtain ⟨_, _, hp, _, _⟩ := hrun.init hf
    have hps : getPriority r.heap s = some 0 := by
      rw [hp]; unfold initPrio; rw [if_pos hs, if_pos rfl]
    have hk0 := hrel.min_u s 0 hps
    have hpu := hrel.prio_u
    rw [hp] at hpu
    unfold initPrio at hpu
    rw [if_pos hrel.u_lt] at hpu
    have hk : (if (u : Int) = (s : Int) then (0 : Int) else INT_MAX) = k := Option.some.inj hpu
    by_cases hus : (u : Int) = (s : Int)
    · rw [if_pos hus] at hk
      exact ⟨by omega, hk.symm⟩
    · rw [if_neg hus] at hk
      unfold INT_MAX at hk
      omega
  have hlater : r.finished s = true → u ≠ s := by
    intro hf hus
    have := (hrun.inv.fin_heap s hs).1 hf
    rw [← hus, hrel.prio_u] at this
    cases this
  have hfs' : r'.finished s = true := by
    rw [hrel.fin_eq]
    cases hf : r.finished s with
    | false => rw [(hfirst hf).1]; exact Function.update_same _ _ _
    | true =>
      rw [Function.update_noteq (fun h => hlater hf h.symm), hf]
  refine ⟨r', u, k, adj, hstep, hrel, ?_, hfs', hfirst, hlater⟩
  refine
    { inv := hrel.inv
      init := fun h => by rw [hfs'] at h; cases h
      count := ?_
      pred_s := ?_
      fin_lt := ?_ }
  · intro _
    have hsize := hrel.size_eq
    have hnum := hrel.num_eq
    cases hf : r.finished s with
    | false =>
      obtain ⟨hpred, _, _, hnum0, hsz0⟩ := hrun.init hf
      rw [if_neg (by rw [hpred u]; exact fun h => h rfl)] at hnum
      omega
    | true =>
      have := hrun.count hf
      split_ifs at hnum <;> omega
  · cases hf : r.finished s with
    | false =>
      rw [← (hfirst hf).1, hrel.pred_u', (hfirst hf).1]
      exact hrun.pred_s
    | true =>
      have hne : s ≠ u := fun h => hlater hf h.symm
      have hrelax := hrel.relax s hne
      rw [(hrun.inv.fin_heap s hs).1 hf] at hrelax
      unfold VertexRelax at hrelax
      simp only at hrelax
      rw [hrelax.2]
      exact hrun.pred_s
  · intro v hv
    rw [hrel.fin_eq] at hv
    by_cases hvu : v = u
    · rw [hvu]; exact hrel.u_lt
    · rw [Function.update_noteq hvu] at hv
      exact hrun.fin_lt v hv

/-! ## Every run of Prim -/

theorem PrimInv.at_first {g : Graph} {s : Nat} {r : Records}
    (hf : ∀ v, r.finished v = false) (hpred : ∀ v, r.predecessors v = NOTHING)
    (hnum : r.numTreeEdges = 0)
    (hp : ∀ v, getPriority r.heap v = initPrio s g.numVertices v) : PrimInv g s r :=
  { prio_sentinel := fun v kv hv _ hvs => by
      rw [hp] at hv
      unfold initPrio at hv
      split_ifs at hv with h1 h2
      · omega
      · exact (Option.some.inj hv).symm
    reach_prio := fun x _ _ _ h => by rw [hf x] at h; cases h
    pred_edge := fun v _ _ h => absurd (hpred v) h
    pred_in := fun v h => absurd (hpred v) h
    pred_set := fun h => by rw [hf s] at h; cases h
    tree_edge := fun e he => by
      unfold treeEdges at he
      rw [hnum] at he
      simp at he }

/-- What `VertexRelax` says when the vertex is still in the heap afterwards. -/
theorem VertexRelax.of_some {c : Edge → Int} {u : Nat} {adj : List Edge} {p : Option Int}
    {pr : Int} {kv' : Int} {pr' : Int} {v : Nat}
    (h : VertexRelax c u adj p pr (some kv') pr' v) :
    ∃ kv, p = some kv ∧ kv' ≤ kv ∧ (∀ e, e ∈ adj → e.toVertex = (v : Int) → kv' ≤ c e) ∧
      ((kv' = kv ∧ pr' = pr) ∨
        (kv' < kv ∧ pr' = (u : Int) ∧ ∃ e, e ∈ adj ∧ e.toVertex = (v : Int) ∧ c e = kv')) := by
  unfold VertexRelax at h
  cases p with
  | none => exact absurd h.1 (by simp)
  | some kv =>
    obtain ⟨kv'', h1, h2, h3, h4⟩ := h
    have : kv' = kv'' := Option.some.inj h1
    subst this
    exact ⟨kv, rfl, h2, h3, h4⟩

/-- The predecessor of a vertex changes only to the extracted vertex. -/
theorem StepRel.pred_cases {cand : Int → Edge → Int} {g : Graph} {n : Nat} {r r' : Records}
    {u : Nat} {k : Int} {adj : List Edge} (hrel : StepRel cand g n r r' u k adj) (v : Nat) :
    r'.predecessors v = r.predecessors v ∨
      (r'.predecessors v = (u : Int) ∧ ∃ e, e ∈ adj ∧ e.toVertex = (v : Int)) := by
  by_cases hvu : v = u
  · subst hvu; exact Or.inl hrel.pred_u'
  · have h := hrel.relax v hvu
    unfold VertexRelax at h
    cases hp : getPriority r.heap v with
    | none => rw [hp] at h; exact Or.inl h.2
    | some kv =>
      rw [hp] at h
      obtain ⟨kv', _, _, _, h4⟩ := h
      rcases h4 with h4 | ⟨_, h5, e, h6, h7, _⟩
      · exact Or.inl h4.2
      · exact Or.inr ⟨h5, e, h6, h7⟩

theorem StepRel.fin_mono {cand : Int → Edge → Int} {g : Graph} {n : Nat} {r r' : Records}
    {u : Nat} {k : Int} {adj : List Edge} (hrel : StepRel cand g n r r' u k adj) {v : Nat}
    (hv : r.finished v = true) : r'.finished v = true := by
  rw [hrel.fin_eq]
  by_cases hvu : v = u
  · rw [hvu]; exact Function.update_same _ _ _
  · rw [Function.update_noteq hvu]; exact hv

theorem StepRel.fin_u {cand : Int → Edge → Int} {g : Graph} {n : Nat} {r r' : Records}
    {u : Nat} {k : Int} {adj : List Edge} (hrel : StepRel cand g n r r' u k adj) :
    r'.finished u = true := by
  rw [hrel.fin_eq]; exact Function.update_same _ _ _

theorem StepRel.fin_cases {cand : Int → Edge → Int} {g : Graph} {n : Nat} {r r' : Records}
    {u : Nat} {k : Int} {adj : List Edge} (hrel : StepRel cand g n r r' u k adj) {v : Nat}
    (hv : r'.finished v = true) : v = u ∨ r.finished v = true := by
  rw [hrel.fin_eq] at hv
  by_cases hvu : v = u
  · exact Or.inl hvu
  · rw [Function.update_noteq hvu] at hv; exact Or.inr hv

theorem StepRel.ne_u_of_prio {cand : Int → Edge → Int} {g : Graph} {n : Nat} {r r' : Records}
    {u : Nat} {k : Int} {adj : List Edge} (hrel : StepRel cand g n r r' u k adj) {v : Nat}
    {kv : Int} (hv : getPriority r'.heap v = some kv) : v ≠ u := by
  intro hvu
  rw [hvu, hrel.prio_u'] at hv
  cases hv

theorem StepRel.links_u {cand : Int → Edge → Int} {g : Graph} {n : Nat} {r r' : Records}
    {u : Nat} {k : Int} {adj : List Edge} (hrel : StepRel cand g n r r' u k adj) {y : Nat}
    {w : Int} (h : Links g u y w) : ∃ e, e ∈ adj ∧ e.toVertex = (y : Int) ∧ e.weight = w := by
  obtain ⟨adj', e, hadj, he, hto, hw⟩ := h
  rw [hrel.adj_u] at hadj
  have : adj = adj' := Option.some.inj hadj
  subst this
  exact ⟨e, he, hto, hw⟩

theorem PrimInv.keep {g : Graph} {s : Nat} {r r' : Records} {u : Nat} {k : Int}
    {adj : List Edge} (hrun : Running g s r) (hinv : PrimInv g s r)
    (hrel : StepRel primCand g g.numVertices r r' u k adj)
    (hfirst : r.finished s = false → u = s ∧ k = 0) : PrimInv g s r' := by
  refine
    { reach_prio := ?_
      pred_edge := ?_
      pred_in := ?_
      pred_set := ?_
      tree_edge := ?_
      prio_sentinel := ?_ }
  · intro x y w kv' hx hl hy
    have hyu := hrel.ne_u_of_prio hy
    have hrelax := hrel.relax y hyu
    rw [hy] at hrelax
    obtain ⟨kv, hkv, h2, h3, _⟩ := hrelax.of_some
    rcases hrel.fin_cases hx with hxu | hxf
    · subst hxu
      obtain ⟨e, he, hto, hw⟩ := hrel.links_u hl
      have := h3 e he hto
      unfold primCand at this
      omega
    · exact le_trans h2 (hinv.reach_prio x y w kv hxf hl hkv)
  · intro v kv' hv hpred
    have hvu := hrel.ne_u_of_prio hv
    have hrelax := hrel.relax v hvu
    rw [hv] at hrelax
    obtain ⟨kv, hkv, _, _, h4⟩ := hrelax.of_some
    rcases h4 with ⟨h5, h6⟩ | ⟨_, h6, e, he, hto, hc⟩
    · rw [h6] at hpred
      obtain ⟨p, hp1, hp2, hp3⟩ := hinv.pred_edge v kv hkv hpred
      exact ⟨p, by rw [h6, hp1], hrel.fin_mono hp2, by rw [h5]; exact hp3⟩
    · exact ⟨u, h6, hrel.fin_u, adj, e, hrel.adj_u, he, hto, hc⟩
  · intro v hpred
    rcases hrel.pred_cases v with h1 | ⟨h1, e, he, hto⟩
    · rw [h1] at hpred ⊢
      exact hinv.pred_in v hpred
    · exact ⟨u, e.weight, h1, adj, e, hrel.adj_u, he, hto, rfl⟩
  · intro _ v kv' hv hlt
    have hvu := hrel.ne_u_of_prio hv
    have hrelax := hrel.relax v hvu
    rw [hv] at hrelax
    obtain ⟨kv, hkv, _, _, h4⟩ := hrelax.of_some
    rcases h4 with ⟨h5, h6⟩ | ⟨_, h6, _⟩
    · rw [h6]
      cases hf : r.finished s with
      | true => exact hinv.pred_set hf v kv hkv (by omega)
      | false =>
        exfalso
        obtain ⟨_, _, hp, _, _⟩ := hrun.init hf
        rw [hp] at hkv
        unfold initPrio at hkv
        have hvs : v ≠ s := by rw [← (hfirst hf).1]; exact hvu
        split_ifs at hkv with h7 h8
        · omega
        · have := Option.some.inj hkv
          omega
    · rw [h6]; exact nat_ne_NOTHING u
  · intro e he
    rw [hrel.tree_eq] at he
    have hold : e ∈ treeEdges r → ∃ v p : Nat, e.fromVertex = (v : Int) ∧
        e.toVertex = (p : Int) ∧ r'.finished v = true ∧ r'.finished p = true ∧
        Links g p v e.weight := by
      intro he'
      obtain ⟨v, p, h1, h2, h3, h4, h5⟩ := hinv.tree_edge e he'
      exact ⟨v, p, h1, h2, hrel.fin_mono h3, hrel.fin_mono h4, h5⟩
    by_cases hpred : r.predecessors u ≠ NOTHING
    · rw [if_pos hpred] at he
      rcases List.mem_append.1 he with he' | he'
      · exact hold he'
      · rw [List.mem_singleton] at he'
        obtain ⟨p, hp1, hp2, hp3⟩ := hinv.pred_edge u k hrel.prio_u hpred
        subst he'
        exact ⟨u, p, rfl, hp1, hrel.fin_u, hrel.fin_mono hp2, hp3⟩
    · rw [if_neg hpred] at he
      exact hold he
  · intro v kv' hv hpred hvs
    have hvu := hrel.ne_u_of_prio hv
    have hrelax := hrel.relax v hvu
    rw [hv] at hrelax
    obtain ⟨kv, hkv, _, _, h4⟩ := hrelax.of_some
    rcases h4 with ⟨h5, h6⟩ | ⟨_, h6, _⟩
    · rw [h6] at hpred
      rw [h5]
      exact hinv.prio_sentinel v kv hkv hpred hvs
    · rw [h6] at hpred
      exact absurd hpred (nat_ne_NOTHING u)

/-! ## Exchange of an edge that leaves a vertex set -/

theorem Joins.flip {e : Edge} {a b : Int} (h : Joins e a b) : Joins e b a := by
  rcases h with h | h
  · exact Or.inr h
  · exact Or.inl h

theorem Joins.eq_or {e : Edge} {a b c d : Int} (h1 : Joins e a b) (h2 : Joins e c d) :
    (a = c ∧ b = d) ∨ (a = d ∧ b = c) := by
  rcases h1 with ⟨h1, h1'⟩ | ⟨h1, h1'⟩ <;> rcases h2 with ⟨h2, h2'⟩ | ⟨h2, h2'⟩
  · exact Or.inl ⟨h1.symm.trans h2, h1'.symm.trans h2'⟩
  · exact Or.inr ⟨h1.symm.trans h2, h1'.symm.trans h2'⟩
  · exact Or.inr ⟨h1'.symm.trans h2', h1.symm.trans h2⟩
  · exact Or.inl ⟨h1'.symm.trans h2', h1.symm.trans h2⟩

theorem UConn.here (E : List Edge) (a : Int) : UConn E a a := Relation.ReflTransGen.refl

theorem UConn.append {E : List Edge} {a b c : Int} (h1 : UConn E a b) (h2 : UConn E b c) :
    UConn E a c := Relation.ReflTransGen.trans h1 h2

theorem UConn.single {E : List Edge} {e : Edge} {a b : Int} (he : e ∈ E) (hj : Joins e a b) :
    UConn E a b := Relation.ReflTransGen.single ⟨e, he, hj⟩

theorem UConn.reverse {E : List Edge} {a b : Int} (h : UConn E a b) : UConn E b a := by
  induction h with
  | refl => exact UConn.here E a
  | tail _ hstep ih =>
    obtain ⟨e, he, hj⟩ := hstep
    exact (UConn.single he hj.flip).append ih

theorem UConn.mono {E E' : List Edge} (hsub : ∀ e, e ∈ E → e ∈ E') {a b : Int}
    (h : UConn E a b) : UConn E' a b := by
  induction h with
  | refl => exact UConn.here E' a
  | tail _ hstep ih =>
    obtain ⟨e, he, hj⟩ := hstep
    exact ih.append (UConn.single (hsub e he) hj)

/-- Removing one edge either keeps two vertices connected or splits the
connection at that edge. -/
theorem UConn.erase_split {E : List Edge} {s t : Int} (h : UConn E s t) (e0 : Edge)
    {a b : Int} (hj : Joins e0 a b) :
    UConn (E.erase e0) s t ∨
      (UConn (E.erase e0) s a ∧ UConn (E.erase e0) b t) ∨
      (UConn (E.erase e0) s b ∧ UConn (E.erase e0) a t) := by
  induction h with
  | refl => exact Or.inl (UConn.here _ _)
  | @tail m t _ hstep ih =>
    obtain ⟨e, he, hje⟩ := hstep
    by_cases hee : e = e0
    · subst hee
      have hsm : UConn (E.erase e) s m ∨ (UConn (E.erase e) s a ∧ UConn (E.erase e) b m) ∨
          (UConn (E.erase e) s b ∧ UConn (E.erase e) a m) := ih
      rcases hje.eq_or hj with ⟨h1, h2⟩ | ⟨h1, h2⟩
      · -- the step goes from `a` to `b`
        subst h1; subst h2
        rcases hsm with h3 | ⟨h3, _⟩ | ⟨h3, _⟩
        · exact Or.inr (Or.inl ⟨h3, UConn.here _ _⟩)
        · exact Or.inr (Or.inl ⟨h3, UConn.here _ _⟩)
        · exact Or.inl h3
      · -- the step goes from `b` to `a`
        subst h1; subst h2
        rcases hsm with h3 | ⟨h3, _⟩ | ⟨h3, _⟩
        · exact Or.inr (Or.inr ⟨h3, UConn.here _ _⟩)
        · exact Or.inl h3
        · exact Or.inr (Or.inr ⟨h3, UConn.here _ _⟩)
    · have hstep' : UConn (E.erase e0) m t :=
        UConn.single ((List.mem_erase_of_ne hee).2 he) hje
      rcases ih with h3 | ⟨h3, h4⟩ | ⟨h3, h4⟩
      · exact Or.inl (h3.append hstep')
      · exact Or.inr (Or.inl ⟨h3, h4.append hstep'⟩)
      · exact Or.inr (Or.inr ⟨h3, h4.append hstep'⟩)

/-- A connection from inside a vertex set to outside has a first edge leaving the
set; the part before it avoids that edge. -/
theorem UConn.first_crossing {E : List Edge} (S : Int → Prop) {x y : Int}
    (h : UConn E x y) (hx : S x) (hy : ¬S y) :
    ∃ e0, e0 ∈ E ∧ ∃ a b, Joins e0 a b ∧ S a ∧ ¬S b ∧ UConn (E.erase e0) x a ∧
      UConn E b y := by
  induction h using Relation.ReflTransGen.head_induction_on with
  | refl => exact absurd hx hy
  | @head x x' hstep hrest ih =>
    obtain ⟨e1, he1, hj1⟩ := hstep
    by_cases hx' : S x'
    · obtain ⟨e0, he0, a, b, hj0, ha, hb, hxa, hby⟩ := ih hx'
      refine ⟨e0, he0, a, b, hj0, ha, hb, ?_, hby⟩
      have hne : e1 ≠ e0 := by
        intro hee
        subst hee
        rcases hj1.eq_or hj0 with ⟨_, h2⟩ | ⟨h1, _⟩
        · exact hb (h2 ▸ hx')
        · exact hb (h1 ▸ hx)
      exact (UConn.single ((List.mem_erase_of_ne hne).2 he1) hj1).append hxa
    · exact ⟨e1, he1, x, x', hj1, hx, hx', UConn.here _ _, hrest⟩

/-- The exchange step: a connection from inside a vertex set to outside can be
cut at an edge that leaves the set, such that both halves avoid that edge. -/
theorem UConn.exchange (S : Int → Prop) : ∀ (n : Nat) (E : List Edge), E.length = n →
    ∀ x y : Int, S x → ¬S y → UConn E x y →
    ∃ e', e' ∈ E ∧ ∃ a b, Joins e' a b ∧ S a ∧ ¬S b ∧ UConn (E.erase e') x a ∧
      UConn (E.erase e') b y := by
  intro n
  induction n using Nat.strong_induction_on with
  | _ n ih =>
    intro E hlen x y hx hy hxy
    obtain ⟨e0, he0, a, b, hj0, ha, hb, hxa, hby⟩ := hxy.first_crossing S hx hy
    rcases hby.erase_split e0 hj0 with h1 | ⟨_, h1⟩ | ⟨_, h1⟩
    · exact ⟨e0, he0, a, b, hj0, ha, hb, hxa, h1⟩
    · exact ⟨e0, he0, a, b, hj0, ha, hb, hxa, h1⟩
    · have hlen' : (E.erase e0).length = n - 1 := by
        rw [List.length_erase_of_mem he0, hlen]
      have hpos : 0 < n := by
        rw [← hlen]; exact List.length_pos_of_mem he0
      obtain ⟨e', he', a', b', hj', ha', hb', hxa', hby'⟩ :=
        ih (n - 1) (by omega) (E.erase e0) hlen' x y hx hy (hxa.append h1)
      have hsub : ∀ e, e ∈ (E.erase e0).erase e' → e ∈ E.erase e' := by
        intro e he
        rw [List.erase_comm] at he
        exact List.mem_of_mem_erase he
      exact ⟨e', List.mem_of_mem_erase he', a', b', hj', ha', hb', hxa'.mono hsub,
        hby'.mono hsub⟩

/-- After the exchange every connection survives. -/
theorem UConn.exchange_keeps {E : List Edge} {e' enew : Edge} {a b p u : Int}
    (hj' : Joins e' a b) (hjn : Joins enew p u) (hpa : UConn (E.erase e') p a)
    (hbu : UConn (E.erase e') b u) {x y : Int} (h : UConn E x y) :
    UConn (enew :: E.erase e') x y := by
  have hsub : ∀ e, e ∈ E.erase e' → e ∈ enew :: E.erase e' :=
    fun e he => List.mem_cons_of_mem _ he
  have hab : UConn (enew :: E.erase e') a b :=
    ((hpa.mono hsub).reverse.append (UConn.single (List.mem_cons_self _ _) hjn)).append
      (hbu.mono hsub).reverse
  induction h with
  | refl => exact UConn.here _ _
  | @tail m t _ hstep ih =>
    obtain ⟨e, he, hje⟩ := hstep
    by_cases hee : e = e'
    · subst hee
      rcases hje.eq_or hj' with ⟨h1, h2⟩ | ⟨h1, h2⟩
      · subst h1; subst h2; exact ih.append hab
      · subst h1; subst h2; exact ih.append hab.reverse
    · exact ih.append (UConn.single (hsub e ((List.mem_erase_of_ne hee).2 he)) hje)

theorem totalWeight_append (A B : List Edge) :
    totalWeight (A ++ B) = totalWeight A + totalWeight B := by
  unfold totalWeight; simp

theorem totalWeight_cons (e : Edge) (A : List Edge) :
    totalWeight (e :: A) = e.weight + totalWeight A := by
  unfold totalWeight; simp

theorem totalWeight_erase {A : List Edge} {e : Edge} (he : e ∈ A) :
    totalWeight (A.erase e) + e.weight = totalWeight A := by
  induction A with
  | nil => cases he
  | cons a A ih =>
    by_cases hae : a = e
    · subst hae
      rw [List.erase_cons_head, totalWeight_cons]; ring
    · have hmem : e ∈ A := by
        rcases List.mem_cons.1 he with h | h
        · exact absurd h.symm hae
        · exact h
      rw [List.erase_cons_tail (by simpa using hae), totalWeight_cons, totalWeight_cons,
        ← ih hmem]
      ring

/-! ## Prim on a connected graph -/

theorem PathW.crossing {g : Graph} {F : Nat → Bool} {a b : Nat} {W : Int}
    (h : PathW g a b W) (ha : F a = true) (hb : F b = false) :
    ∃ x y w, F x = true ∧ F y = false ∧ Links g x y w := by
  induction h with
  | nil => rw [ha] at hb; cases hb
  | @snoc m c w w' _ hl ih =>
    cases hm : F m with
    | true => exact ⟨m, c, w', hm, hb, hl⟩
    | false => exact ih hm

theorem RecInv.prio_of_unfinished {n : Nat} {r : Records} (hr : RecInv n r) {v : Nat}
    (hv : v < n) (hf : r.finished v = false) : ∃ kv, getPriority r.heap v = some kv := by
  cases hp : getPriority r.heap v with
  | some kv => exact ⟨kv, rfl⟩
  | none =>
    rw [(hr.fin_heap v hv).2 hp] at hf
    cases hf

theorem RecInv.unfinished_of_prio {n : Nat} {r : Records} (hr : RecInv n r) {v : Nat}
    {kv : Int} (hp : getPriority r.heap v = some kv) : r.finished v = false := by
  cases hf : r.finished v with
  | false => rfl
  | true =>
    rw [(hr.fin_heap v (hr.lt_of_prio hp)).1 hf] at hp
    cases hp

/-- In a graph all of whose vertices are reachable from the start and whose
weights are below the sentinel, every vertex extracted after the start already
has a predecessor. -/
theorem prim_pred_u {g : Graph} {s : Nat} {r : Records} {u : Nat} {k : Int}
    (hrange : TargetsInRange g) (hreach : ∀ v, v < g.numVertices → Reach g s v)
    (hw : WeightsBelowMax g) (hrun : Running g s r) (hinv : PrimInv g s r)
    (hfs : r.finished s = true) (hpu : getPriority r.heap u = some k)
    (hmin : ∀ v kv, getPriority r.heap v = some kv → k ≤ kv) :
    r.predecessors u ≠ NOTHING := by
  have hun := hrun.inv.lt_of_prio hpu
  obtain ⟨W, hpath⟩ := hreach u hun
  obtain ⟨x, y, w, hx, hy, hl⟩ := hpath.crossing hfs (hrun.inv.unfinished_of_prio hpu)
  obtain ⟨ky, hky⟩ := hrun.inv.prio_of_unfinished (hl.lt_right hrange) hy
  have h1 := hinv.reach_prio x y w ky hx hl hky
  have h2 := hmin y ky hky
  have h3 := hw x y w hl
  exact hinv.pred_set hfs u k hpu (by omega)

theorem PrimState.next {g : Graph} {s : Nat} {r : Records} (hs : s < g.numVertices)
    (hslots : SlotsPresent g) (hrange : TargetsInRange g) (hst : PrimState g s r)
    (hsz : 0 < r.heap.size) :
    ∃ r' u k adj, stepWith primCand g r = some r' ∧
      StepRel primCand g g.numVertices r r' u k adj ∧ PrimState g s r' ∧
      r'.finished s = true ∧ (r.finished s = false → u = s ∧ k = 0) := by
  obtain ⟨r', u, k, adj, hstep, hrel, hrun', hfs', hfirst, _⟩ :=
    hst.run.advance primCand hs hslots hrange hsz
  exact ⟨r', u, k, adj, hstep, hrel, ⟨hrun', hst.inv.keep hst.run hrel hfirst⟩, hfs', hfirst⟩

theorem PrimConnState.next_conn {g : Graph} {s : Nat} {r : Records} (hs : s < g.numVertices)
    (hslots : SlotsPresent g) (hrange : TargetsInRange g)
    (hreach : ∀ v, v < g.numVertices → Reach g s v) (hw : WeightsBelowMax g)
    (hst : PrimConnState g s r) (hsz : 0 < r.heap.size) :
    ∃ r' u k adj, stepWith primCand g r = some r' ∧
      StepRel primCand g g.numVertices r r' u k adj ∧ PrimConnState g s r' ∧
      (r.finished s = true → r.predecessors u ≠ NOTHING) := by
  obtain ⟨r', u, k, adj, hstep, hrel, hst', hfs', hfirst⟩ :=
    hst.st.next hs hslots hrange hsz
  have hpred : r.finished s = true → r.predecessors u ≠ NOTHING := fun hfs =>
    prim_pred_u hrange hreach hw hst.st.run hst.st.inv hfs hrel.prio_u hrel.min_u
  refine ⟨r', u, k, adj, hstep, hrel, ⟨hst', ?_, ?_⟩, hpred⟩
  · intro _
    have hsize := hrel.size_eq
    have hnum := hrel.num_eq
    cases hf : r.finished s with
    | false =>
      obtain ⟨hp, _, _, hnum0, hsz0⟩ := hst.st.run.init hf
      rw [if_neg (by rw [hp u]; exact fun h => h rfl)] at hnum
      omega
    | true =>
      have := hst.count_eq hf
      rw [if_pos (hpred hf)] at hnum
      omega
  · intro v hv
    have hsub : ∀ e, e ∈ treeEdges r → e ∈ treeEdges r' := by
      intro e he
      rw [hrel.tree_eq]
      split_ifs
      · exact List.mem_append_left _ he
      · exact he
    rcases hrel.fin_cases hv with hvu | hvf
    · subst hvu
      cases hf : r.finished s with
      | false => rw [(hfirst hf).1]; exact UConn.here _ _
      | true =>
        have hp := hpred hf
        obtain ⟨p, hp1, hp2, _⟩ := hst.st.inv.pred_edge v k hrel.prio_u hp
        have h1 : UConn (treeEdges r') (s : Int) (p : Int) := (hst.conn p hp2).mono hsub
        have hmem : ({ fromVertex := (v : Int), toVertex := r.predecessors v, weight := k } :
            Edge) ∈ treeEdges r' := by
          rw [hrel.tree_eq, if_pos hp]
          exact List.mem_append_right _ (List.mem_singleton_self _)
        exact h1.append (UConn.single hmem (Or.inr ⟨rfl, hp1⟩))
    · exact (hst.conn v hvf).mono hsub

theorem PrimInv.isEdgeOf {g : Graph} {s : Nat} {r : Records} (hinv : PrimInv g s r)
    {e : Edge} (he : e ∈ treeEdges r) : IsEdgeOf g e := by
  obtain ⟨v, p, h1, h2, _, _, h5⟩ := hinv.tree_edge e he
  exact ⟨v, p, h1, h2, Or.inr h5⟩

/-- The exchange invariant survives an iteration. -/
theorem PrimExch.carry {g : Graph} {s : Nat} {r r' : Records} {u : Nat} {k : Int}
    {adj : List Edge} {T0 : List Edge} (hrange : TargetsInRange g)
    (hsym : SymmetricEdges g) (hst : PrimState g s r)
    (hrel : StepRel primCand g g.numVertices r r' u k adj)
    (hex : PrimExch g r T0) : PrimExch g r' T0 := by
  obtain ⟨R, ⟨hedges, hlen, hconn⟩, hwt⟩ := hex
  by_cases hpred : r.predecessors u ≠ NOTHING
  · obtain ⟨p, hp1, hp2, hp3⟩ := hst.inv.pred_edge u k hrel.prio_u hpred
    have hun : u < g.numVertices := hrel.u_lt
    have hpn : p < g.numVertices := hp3.lt_left
    have hfu : r.finished u = false := hst.run.inv.unfinished_of_prio hrel.prio_u
    -- the set of finished vertices
    let S : Int → Prop := fun a => ∃ v : Nat, a = (v : Int) ∧ r.finished v = true
    have hSp : S (p : Int) := ⟨p, rfl, hp2⟩
    have hSu : ¬S (u : Int) := by
      rintro ⟨v, hv1, hv2⟩
      have : u = v := by omega
      subst this
      rw [hfu] at hv2; cases hv2
    obtain ⟨e', he', a, b, hj', ha, hb, hpa, hbu⟩ :=
      UConn.exchange S _ (treeEdges r ++ R) rfl (p : Int) (u : Int) hSp hSu (hconn p u hpn hun)
    -- the edge removed is not a tree edge
    have hnotT : e' ∉ treeEdges r := by
      intro hmem
      obtain ⟨v, q, h1, h2, h3, h4, _⟩ := hst.inv.tree_edge e' hmem
      have hjv : Joins e' (v : Int) (q : Int) := Or.inl ⟨h1, h2⟩
      rcases hj'.eq_or hjv with ⟨_, h6⟩ | ⟨_, h6⟩
      · exact hb ⟨q, h6, h4⟩
      · exact hb ⟨v, h6, h3⟩
    have hR : e' ∈ R := by
      rcases List.mem_append.1 he' with h | h
      · exact absurd h hnotT
      · exact h
    -- it weighs at least as much as the new tree edge
    have hkle : k ≤ e'.weight := by
      obtain ⟨a', b', h1, h2, h3⟩ := hedges e' (List.mem_append_right _ hR)
      have hboth : Links g a' b' e'.weight ∧ Links g b' a' e'.weight := by
        rcases h3 with h3 | h3
        · exact ⟨h3, hsym _ _ _ h3⟩
        · exact ⟨hsym _ _ _ h3, h3⟩
      obtain ⟨x, hx1, hx2⟩ := ha
      have hjv : Joins e' (a' : Int) (b' : Int) := Or.inl ⟨h1, h2⟩
      have key : ∀ y : Nat, b = (y : Int) → Links g x y e'.weight → k ≤ e'.weight := by
        intro y hby hl
        have hyf : r.finished y = false := by
          cases hf : r.finished y with
          | false => rfl
          | true => exact absurd ⟨y, hby, hf⟩ hb
        obtain ⟨ky, hky⟩ := hst.run.inv.prio_of_unfinished (hl.lt_right hrange) hyf
        exact le_trans (hrel.min_u y ky hky) (hst.inv.reach_prio x y _ ky hx2 hl hky)
      rcases hj'.eq_or hjv with ⟨h5, h6⟩ | ⟨h5, h6⟩
      · have : x = a' := by omega
        subst this
        exact key b' h6 hboth.1
      · have : x = b' := by omega
        subst this
        exact key a' h6 hboth.2
    have hjn : Joins { fromVertex := (u : Int), toVertex := r.predecessors u, weight := k }
        (p : Int) (u : Int) := Or.inr ⟨rfl, hp1⟩
    refine ⟨R.erase e', ⟨?_, ?_, ?_⟩, ?_⟩
    · intro e he
      rw [hrel.tree_eq, if_pos hpred] at he
      rcases List.mem_append.1 he with h | h
      · rcases List.mem_append.1 h with h | h
        · exact hedges e (List.mem_append_left _ h)
        · rw [List.mem_singleton] at h
          subst h
          exact ⟨u, p, rfl, hp1, Or.inr hp3⟩
      · exact hedges e (List.mem_append_right _ (List.mem_of_mem_erase h))
    · rw [hrel.tree_eq, if_pos hpred]
      have h1 := List.length_erase_of_mem hR
      have h2 := List.length_pos_of_mem hR
      simp only [List.length_append, List.length_singleton] at hlen ⊢
      omega
    · intro x y hx hy
      have h1 := UConn.exchange_keeps hj' hjn hpa hbu (hconn x y hx hy)
      rw [List.erase_append_right _ hnotT] at h1
      apply h1.mono
      intro e he
      rw [hrel.tree_eq, if_pos hpred]
      simp only [List.mem_cons, List.mem_append, List.mem_singleton] at he ⊢
      tauto
    · rw [hrel.tree_eq, if_pos hpred]
      have h1 := totalWeight_erase hR
      simp only [totalWeight_append, totalWeight_cons] at hwt ⊢
      have h2 : totalWeight ([] : List Edge) = 0 := rfl
      rw [h2]
      omega
  · refine ⟨R, ?_, ?_⟩
    · rw [hrel.tree_eq, if_neg hpred]; exact ⟨hedges, hlen, hconn⟩
    · rw [hrel.tree_eq, if_neg hpred]; exact hwt

/-! ## Whole runs of Prim -/

theorem loopWith_preserves (cand : Int → Edge → Int) (g : Graph) (P : Records → Prop)
    (hstep : ∀ r r', P r → 0 < r.heap.size → stepWith cand g r = some r' → P r') :
    ∀ (fuel : Nat) (r r' : Records), P r → loopWith cand g fuel r = some r' → P r' := by
  intro fuel
  induction fuel with
  | zero =>
    intro r r' hP hl
    have : r = r' := Option.some.inj hl
    rw [← this]; exact hP
  | succ fuel ih =>
    intro r r' hP hl
    unfold loopWith at hl
    by_cases h0 : r.heap.size = 0
    · have hemp : isEmpty (some r.heap) = true := by simp [isEmpty, h0]
      rw [hemp] at hl
      have : r = r' := Option.some.inj hl
      rw [← this]; exact hP
    · have hemp : isEmpty (some r.heap) = false := by simp [isEmpty, h0]
      rw [hemp] at hl
      cases hs : stepWith cand g r with
      | none => rw [hs] at hl; cases hl
      | some r1 =>
        rw [hs] at hl
        exact ih r1 r' (hstep r r1 hP (Nat.pos_of_ne_zero h0) hs) hl

theorem treeEdges_of_zero {r : Records} (h : r.numTreeEdges = 0) : treeEdges r = [] := by
  unfold treeEdges; rw [h]; rfl

theorem valid_start {n : Nat} {startVertex : Int} (h0 : 0 ≤ startVertex)
    (h1 : startVertex < (n : Int)) : ∃ s : Nat, startVertex = (s : Int) ∧ s < n :=
  ⟨startVertex.toNat, (Int.toNat_of_nonneg h0).symm, by omega⟩

theorem getMSTprim_eq_of_loop {g : Graph} {s : Nat} (hs : s < g.numVertices)
    {r0 r : Records} (hinit : initRecords g (s : Int) = some r0)
    (hloop : loopWith primCand g g.numVertices r0 = some r) :
    getMSTprim (some g) (s : Int) = some (TreeResult.edges (treeEdges r)) := by
  unfold getMSTprim
  simp only
  rw [if_neg (by omega), hinit]
  simp only [Option.some_bind, primLoop_eq, hloop, Option.map_some']

theorem getDistanceTreeDijkstra_eq_of_loop {g : Graph} {s : Nat} (hs : s < g.numVertices)
    {r0 r : Records} (hinit : initRecords g (s : Int) = some r0)
    (hloop : loopWith dijkstraCand g g.numVertices r0 = some r) :
    getDistanceTreeDijkstra (some g) (s : Int) = some (TreeResult.edges (treeEdges r)) := by
  unfold getDistanceTreeDijkstra
  simp only
  rw [if_neg (by omega), hinit]
  simp only [Option.some_bind, dijkstraLoop_eq, hloop, Option.map_some']

theorem RecInv.all_finished {n : Nat} {r : Records} (hr : RecInv n r)
    (hsz : r.heap.size = 0) : ∀ v, v < n → r.finished v = true := by
  intro v hv
  apply (hr.fin_heap v hv).2
  cases hp : getPriority r.heap v with
  | none => rfl
  | some k =>
    obtain ⟨p, hp', _⟩ := (getPriority_some_iff hr.heap.1 v k).1 hp
    omega

/-- The initial records of a run. -/
theorem initial_state (g : Graph) (s : Nat) :
    ∃ r0, initRecords g (s : Int) = some r0 ∧ Running g s r0 ∧ PrimInv g s r0 ∧
      r0.heap.size = g.numVertices ∧ r0.numTreeEdges = 0 ∧ (∀ v, r0.finished v = false) ∧
      (∀ v, r0.predecessors v = NOTHING) ∧
      ∀ v, getPriority r0.heap v = initPrio s g.numVertices v := by
  obtain ⟨r0, hinit, hinv, hsz, hp, hf, hpred, hnum⟩ := initRecords_spec g (s : Int)
  exact ⟨r0, hinit, Running.at_start hinv hsz hp hf hpred hnum,
    PrimInv.at_first hf hpred hnum hp, hsz, hnum, hf, hpred, hp⟩

/-- A run of Prim's loop on a well-formed graph is defined, drains the heap and
ends in a state that satisfies the invariants. -/
theorem prim_run {g : Graph} {s : Nat} (hs : s < g.numVertices) (hslots : SlotsPresent g)
    (hrange : TargetsInRange g) :
    ∃ r0 r, initRecords g (s : Int) = some r0 ∧
      loopWith primCand g g.numVertices r0 = some r ∧ PrimState g s r0 ∧ PrimState g s r ∧
      r.heap.size = 0 := by
  obtain ⟨r0, hinit, hrun0, hinv0, hsz0, _⟩ := initial_state g s
  obtain ⟨r, hloop, hst, hsz⟩ := loopWith_spec primCand g (PrimState g s)
    (fun r hP hpos => by
      obtain ⟨r', u, k, adj, hstep, hrel, hst', _⟩ := hP.next hs hslots hrange hpos
      exact ⟨r', hstep, hst', hrel.size_eq⟩)
    g.numVertices r0 (by omega) ⟨hrun0, hinv0⟩
  exact ⟨r0, r, hinit, hloop, ⟨hrun0, hinv0⟩, hst, hsz⟩

/-- A run of Prim's loop on a connected graph with weights below the sentinel
appends one tree edge per vertex other than the start, and the tree it builds
weighs no more than any given spanning tree. -/
theorem prim_run_conn {g : Graph} {s : Nat} (hs : s < g.numVertices)
    (hslots : SlotsPresent g) (hrange : TargetsInRange g) (hsym : SymmetricEdges g)
    (hreach : ∀ v, v < g.numVertices → Reach g s v) (hw : WeightsBelowMax g)
    (T0 : List Edge) (hT0 : SpanningTree g T0) :
    ∃ r0 r, initRecords g (s : Int) = some r0 ∧
      loopWith primCand g g.numVertices r0 = some r ∧ PrimConnState g s r ∧
      PrimExch g r T0 ∧ r.heap.size = 0 := by
  obtain ⟨r0, hinit, hrun0, hinv0, hsz0, hnum0, hf0, _⟩ := initial_state g s
  have hc0 : PrimConnState g s r0 :=
    ⟨⟨hrun0, hinv0⟩, fun h => (by rw [hf0 s] at h; cases h),
      fun v h => (by rw [hf0 v] at h; cases h)⟩
  have he0 : PrimExch g r0 T0 := by
    refine ⟨T0, ?_, ?_⟩ <;> rw [treeEdges_of_zero hnum0, List.nil_append]
    · exact hT0
  obtain ⟨r, hloop, ⟨hst, hex⟩, hsz⟩ := loopWith_spec primCand g
    (fun r => PrimConnState g s r ∧ PrimExch g r T0)
    (fun r hP hpos => by
      obtain ⟨r', u, k, adj, hstep, hrel, hst', _⟩ :=
        hP.1.next_conn hs hslots hrange hreach hw hpos
      exact ⟨r', hstep, ⟨hst', hP.2.carry hrange hsym hP.1.st hrel⟩, hrel.size_eq⟩)
    g.numVertices r0 (by omega) ⟨hc0, he0⟩
  exact ⟨r0, r, hinit, hloop, hst, hex, hsz⟩

/-- On a connected graph with weights below the sentinel the tree has
`numVertices - 1` edges. -/
theorem prim_count {g : Graph} {s : Nat} (hs : s < g.numVertices)
    (hslots : SlotsPresent g) (hrange : TargetsInRange g)
    (hreach : ∀ v, v < g.numVertices → Reach g s v) (hw : WeightsBelowMax g) :
    ∃ r0 r, initRecords g (s : Int) = some r0 ∧
      loopWith primCand g g.numVertices r0 = some r ∧ PrimConnState g s r ∧
      r.heap.size = 0 ∧ (treeEdges r).length = g.numVertices - 1 := by
  obtain ⟨r0, hinit, hrun0, hinv0, hsz0, hnum0, hf0, _⟩ := initial_state g s
  have hc0 : PrimConnState g s r0 :=
    ⟨⟨hrun0, hinv0⟩, fun h => (by rw [hf0 s] at h; cases h),
      fun v h => (by rw [hf0 v] at h; cases h)⟩
  obtain ⟨r, hloop, hst, hsz⟩ := loopWith_spec primCand g (PrimConnState g s)
    (fun r hP hpos => by
      obtain ⟨r', u, k, adj, hstep, hrel, hst', _⟩ :=
        hP.next_conn hs hslots hrange hreach hw hpos
      exact ⟨r', hstep, hst', hrel.size_eq⟩)
    g.numVertices r0 (by omega) hc0
  refine ⟨r0, r, hinit, hloop, hst, hsz, ?_⟩
  have hfin := hst.st.run.inv.all_finished hsz s hs
  have := hst.count_eq hfin
  rw [treeEdges_length]
  omega

/-! ## Dijkstra: the extracted key is the true distance -/

theorem PathW.nonneg {g : Graph} (hnn : NonNegWeights g) {a b : Nat} {W : Int}
    (h : PathW g a b W) : 0 ≤ W := by
  induction h with
  | nil => exact le_refl _
  | @snoc m c w w' _ hl ih =>
    have := hnn m c w' hl
    omega

theorem PathW.crossing_weight {g : Graph} (hnn : NonNegWeights g) {F : Nat → Bool}
    {a b : Nat} {W : Int} (h : PathW g a b W) (ha : F a = true) (hb : F b = false) :
    ∃ x y w W1, F x = true ∧ F y = false ∧ Links g x y w ∧ PathW g a x W1 ∧ W1 + w ≤ W := by
  induction h with
  | nil => rw [ha] at hb; cases hb
  | @snoc m c w w' hp hl ih =>
    cases hm : F m with
    | true => exact ⟨m, c, w', w, hm, hb, hl, hp, le_refl _⟩
    | false =>
      obtain ⟨x, y, w0, W1, h1, h2, h3, h4, h5⟩ := ih hm
      have := hnn m c w' hl
      exact ⟨x, y, w0, W1, h1, h2, h3, h4, by omega⟩

theorem IsDist.unique {g : Graph} {s v : Nat} {d d' : Int} (h : IsDist g s v d)
    (h' : IsDist g s v d') : d = d' :=
  le_antisymm (h.2 d' h'.1) (h'.2 d h.1)

theorem IsDist.start {g : Graph} (hnn : NonNegWeights g) (s : Nat) : IsDist g s s 0 :=
  ⟨PathW.nil s, fun _ h => h.nonneg hnn⟩

theorem addInt_eq {a b : Int} (ha : 0 ≤ a) (hb : 0 ≤ b) (hlt : a + b < INT_MAX) :
    addInt a b = a + b := by
  unfold addInt
  unfold INT_MAX at hlt
  omega

theorem DijkInv.at_begin {g : Graph} {s : Nat} {r : Records}
    (hf : ∀ v, r.finished v = false) (hnum : r.numTreeEdges = 0) : DijkInv g s r :=
  { fin_dist := fun x h => by rw [hf x] at h; cases h
    prio_path := fun h => by rw [hf s] at h; cases h
    tree_edge := fun e he => by rw [treeEdges_of_zero hnum] at he; cases he
    tree_all := fun v h => by rw [hf v] at h; cases h
    tree_order := by rw [treeEdges_of_zero hnum]; exact TreeOrdered.nil }

/-- The key of the extracted vertex is its true distance, and unless it is the
start it has a finished predecessor that realises this distance. -/
theorem dijkstra_extracted {g : Graph} {s : Nat} {r : Records} {u : Nat} {k : Int}
    (hrange : TargetsInRange g) (hnn : NonNegWeights g)
    (hreach : ∀ v, v < g.numVertices → Reach g s v) (hover : NoOverflow g s)
    (hrun : Running g s r) (hinv : DijkInv g s r)
    (hfs : r.finished s = true) (hpu : getPriority r.heap u = some k)
    (hmin : ∀ v kv, getPriority r.heap v = some kv → k ≤ kv) :
    (∀ y W, r.finished y = false → PathW g s y W → k ≤ W) ∧
    IsDist g s u k ∧ ∃ p : Nat, r.predecessors u = (p : Int) ∧ r.finished p = true ∧
      ∃ dp w, IsDist g s p dp ∧ Links g p u w ∧ k = dp + w := by
  have hun := hrun.inv.lt_of_prio hpu
  have hfu := hrun.inv.unfinished_of_prio hpu
  -- every path to an unfinished vertex weighs at least `k`, and the key of the
  -- first unfinished vertex on it is finite
  have hbound : ∀ y W, r.finished y = false → PathW g s y W → k ≤ W ∧ k < INT_MAX := by
    intro z W hz hpath
    obtain ⟨x, y, w, W1, hx, hy, hl, hp1, hle⟩ := hpath.crossing_weight hnn hfs hz
    obtain ⟨ky, hky⟩ := hrun.inv.prio_of_unfinished (hl.lt_right hrange) hy
    obtain ⟨dx, hdx, hrelaxed, hfar⟩ := hinv.fin_dist x hx
    have h1 := hrelaxed y w ky hl hky
    have h2 := hmin y ky hky
    have h3 := hdx.2 W1 hp1
    have h4 := hover x dx hdx y w hl (fun W' hW' => hfar y W' hy hW')
    exact ⟨by omega, by omega⟩
  obtain ⟨W, hpath⟩ := hreach u hun
  obtain ⟨p, hp1, hp2, dp, w, hdp, hl, hk⟩ :=
    hinv.prio_path hfs u k hpu (hbound u W hfu hpath).2
  refine ⟨fun y W' hy h' => (hbound y W' hy h').1,
    ⟨?_, fun W' h' => (hbound u W' hfu h').1⟩, p, hp1, hp2, dp, w, hdp, hl, hk⟩
  rw [hk]
  exact PathW.snoc hdp.1 hl

theorem DijkInv.hold {g : Graph} {s : Nat} {r r' : Records} {u : Nat} {k : Int}
    {adj : List Edge} (hrange : TargetsInRange g) (hnn : NonNegWeights g)
    (hreach : ∀ v, v < g.numVertices → Reach g s v) (hover : NoOverflow g s)
    (hrun : Running g s r) (hinv : DijkInv g s r)
    (hrel : StepRel dijkstraCand g g.numVertices r r' u k adj)
    (hrun' : RecInv g.numVertices r')
    (hfirst : r.finished s = false → u = s ∧ k = 0) (hlater : r.finished s = true → u ≠ s) :
    DijkInv g s r' ∧ (r.finished s = true → r.predecessors u ≠ NOTHING) := by
  -- the extracted key is the true distance, and no unfinished vertex is closer
  have hdist : IsDist g s u k := by
    cases hf : r.finished s with
    | false =>
      obtain ⟨h1, h2⟩ := hfirst hf
      rw [h1, h2]; exact IsDist.start hnn s
    | true =>
      exact (dijkstra_extracted hrange hnn hreach hover hrun hinv hf hrel.prio_u
        hrel.min_u).2.1
  have hfar : ∀ y W, r.finished y = false → PathW g s y W → k ≤ W := by
    cases hf : r.finished s with
    | false =>
      intro y W _ hW
      rw [(hfirst hf).2]; exact hW.nonneg hnn
    | true =>
      exact (dijkstra_extracted hrange hnn hreach hover hrun hinv hf hrel.prio_u
        hrel.min_u).1
  have hpredu : r.finished s = true → ∃ p : Nat, r.predecessors u = (p : Int) ∧
      r.finished p = true ∧ ∃ dp w, IsDist g s p dp ∧ Links g p u w ∧ k = dp + w := fun hf =>
    (dijkstra_extracted hrange hnn hreach hover hrun hinv hf hrel.prio_u hrel.min_u).2.2
  have hprednn : r.finished s = true → r.predecessors u ≠ NOTHING := by
    intro hf
    obtain ⟨p, hp1, _⟩ := hpredu hf
    rw [hp1]; exact nat_ne_NOTHING p
  have hk0 : 0 ≤ k := hdist.1.nonneg hnn
  -- the candidate keys do not overflow
  have hcand : ∀ e, e ∈ adj → ∀ (y : Nat) (ky : Int), e.toVertex = (y : Int) →
      getPriority r'.heap y = some ky → dijkstraCand k e = k + e.weight := by
    intro e he y ky hy hky
    have hl : Links g u y e.weight := ⟨adj, e, hrel.adj_u, he, hy, rfl⟩
    have hyf : r.finished y = false := by
      have := hrun'.unfinished_of_prio hky
      cases hf : r.finished y with
      | false => rfl
      | true => rw [hrel.fin_mono hf] at this; cases this
    unfold dijkstraCand
    exact addInt_eq hk0 (hnn u y _ hl)
      (hover u k hdist y _ hl (fun W hW => hfar y W hyf hW))
  have htree : treeEdges r' = if r.finished s = true then
      treeEdges r ++ [{ fromVertex := (u : Int), toVertex := r.predecessors u, weight := k }]
      else treeEdges r := by
    rw [hrel.tree_eq]
    cases hf : r.finished s with
    | false =>
      obtain ⟨hp, _⟩ := hrun.init hf
      rw [if_neg (by rw [hp u]; exact fun h => h rfl)]
      simp
    | true => rw [if_pos (hprednn hf)]; simp
  refine ⟨?_, hprednn⟩
  refine
    { fin_dist := ?_
      prio_path := ?_
      tree_edge := ?_
      tree_all := ?_
      tree_order := ?_ }
  · intro x hx
    rcases hrel.fin_cases hx with hxu | hxf
    · subst hxu
      refine ⟨k, hdist, ?_, ?_⟩
      · intro y w ky' hl hy
        have hyu := hrel.ne_u_of_prio hy
        have hrelax := hrel.relax y hyu
        rw [hy] at hrelax
        obtain ⟨_, _, _, h3, _⟩ := hrelax.of_some
        obtain ⟨e, he, hto, hw⟩ := hrel.links_u hl
        have := h3 e he hto
        rw [hcand e he y ky' hto hy, hw] at this
        exact this
      · intro y W hy hW
        apply hfar y W _ hW
        cases hf : r.finished y with
        | false => rfl
        | true => rw [hrel.fin_mono hf] at hy; cases hy
    · obtain ⟨dx, hdx, hrelaxed, hfarx⟩ := hinv.fin_dist x hxf
      refine ⟨dx, hdx, ?_, ?_⟩
      · intro y w ky' hl hy
        have hyu := hrel.ne_u_of_prio hy
        have hrelax := hrel.relax y hyu
        rw [hy] at hrelax
        obtain ⟨ky, hky, h2, _, _⟩ := hrelax.of_some
        exact le_trans h2 (hrelaxed y w ky hl hky)
      · intro y W hy hW
        apply hfarx y W _ hW
        cases hf : r.finished y with
        | false => rfl
        | true => rw [hrel.fin_mono hf] at hy; cases hy
  · intro _ v kv' hv hlt
    have hvu := hrel.ne_u_of_prio hv
    have hrelax := hrel.relax v hvu
    rw [hv] at hrelax
    obtain ⟨kv, hkv, _, _, h4⟩ := hrelax.of_some
    rcases h4 with ⟨h5, h6⟩ | ⟨_, h6, e, he, hto, hc⟩
    · cases hf : r.finished s with
      | true =>
        obtain ⟨p, hp1, hp2, hp3⟩ := hinv.prio_path hf v kv hkv (by omega)
        exact ⟨p, by rw [h6, hp1], hrel.fin_mono hp2, by rw [h5]; exact hp3⟩
      | false =>
        exfalso
        obtain ⟨_, _, hp, _, _⟩ := hrun.init hf
        rw [hp] at hkv
        unfold initPrio at hkv
        have hvs : v ≠ s := by rw [← (hfirst hf).1]; exact hvu
        split_ifs at hkv with h7 h8
        · omega
        · have := Option.some.inj hkv
          omega
    · refine ⟨u, h6, hrel.fin_u, k, e.weight, hdist, ⟨adj, e, hrel.adj_u, he, hto, rfl⟩, ?_⟩
      rw [← hc, hcand e he v kv' hto hv]
  · intro e he
    rw [htree] at he
    have hold : e ∈ treeEdges r → ∃ v p : Nat, e.fromVertex = (v : Int) ∧
        e.toVertex = (p : Int) ∧ r'.finished v = true ∧ r'.finished p = true ∧ v ≠ s ∧
        IsDist g s v e.weight ∧
        ∃ dp w, IsDist g s p dp ∧ Links g p v w ∧ e.weight = dp + w := by
      intro he'
      obtain ⟨v, p, h1, h2, h3, h4, h5⟩ := hinv.tree_edge e he'
      exact ⟨v, p, h1, h2, hrel.fin_mono h3, hrel.fin_mono h4, h5⟩
    cases hf : r.finished s with
    | false => rw [hf] at he; exact hold (by simpa using he)
    | true =>
      rw [hf, if_pos rfl] at he
      rcases List.mem_append.1 he with he' | he'
      · exact hold he'
      · rw [List.mem_singleton] at he'
        obtain ⟨p, hp1, hp2, hp3⟩ := hpredu hf
        subst he'
        exact ⟨u, p, rfl, hp1, hrel.fin_u, hrel.fin_mono hp2, hlater hf, hdist, hp3⟩
  · intro v hv hvs
    rcases hrel.fin_cases hv with hvu | hvf
    · subst hvu
      cases hf : r.finished s with
      | false => exact absurd (hfirst hf).1 hvs
      | true =>
        rw [htree, hf, if_pos rfl]
        exact ⟨_, List.mem_append_right _ (List.mem_singleton_self _), rfl⟩
    · obtain ⟨e, he, hfrom⟩ := hinv.tree_all v hvf hvs
      refine ⟨e, ?_, hfrom⟩
      rw [htree]
      split_ifs
      · exact List.mem_append_left _ he
      · exact he
  · rw [htree]
    cases hf : r.finished s with
    | false => simpa using hinv.tree_order
    | true =>
      rw [if_pos rfl]
      obtain ⟨p, hp1, hp2, _⟩ := hpredu hf
      have hfu := hrun.inv.unfinished_of_prio hrel.prio_u
      refine TreeOrdered.snoc hinv.tree_order ?_ ?_ ?_
      · show r.predecessors u = (s : Int) ∨ _
        by_cases hps : p = s
        · exact Or.inl (by rw [hp1, hps])
        · obtain ⟨e', he', hfrom⟩ := hinv.tree_all p hp2 hps
          exact Or.inr ⟨e', he', by rw [hfrom, hp1]⟩
      · intro e' he' hfrom
        obtain ⟨v, _, h1, _, h3, _⟩ := hinv.tree_edge e' he'
        have : (v : Int) = (u : Int) := by rw [← h1]; exact hfrom
        have hvu : v = u := by omega
        rw [hvu, hfu] at h3
        cases h3
      · show (u : Int) ≠ (s : Int)
        have := hlater hf
        omega

/-! ## Whole runs of Dijkstra, and predecessor walks -/

theorem dijkstra_run {g : Graph} {s : Nat} (hs : s < g.numVertices)
    (hslots : SlotsPresent g) (hrange : TargetsInRange g) (hnn : NonNegWeights g)
    (hreach : ∀ v, v < g.numVertices → Reach g s v) (hover : NoOverflow g s) :
    ∃ r0 r, initRecords g (s : Int) = some r0 ∧
      loopWith dijkstraCand g g.numVertices r0 = some r ∧ DijkState g s r ∧
      r.heap.size = 0 := by
  obtain ⟨r0, hinit, hrun0, _, hsz0, hnum0, hf0, _⟩ := initial_state g s
  obtain ⟨r, hloop, hst, hsz⟩ := loopWith_spec dijkstraCand g (DijkState g s)
    (fun r hP hpos => by
      obtain ⟨r', u, k, adj, hstep, hrel, hrun', _, hfirst, hlater⟩ :=
        hP.run.advance dijkstraCand hs hslots hrange hpos
      exact ⟨r', hstep,
        ⟨hrun', (hP.inv.hold hrange hnn hreach hover hP.run hrel hrel.inv hfirst hlater).1⟩,
        hrel.size_eq⟩)
    g.numVertices r0 (by omega) ⟨hrun0, DijkInv.at_begin hf0 hnum0⟩
  exact ⟨r0, r, hinit, hloop, hst, hsz⟩

theorem TreeOrdered.countP_le_one {s : Int} {T : List Edge} (h : TreeOrdered s T) (v : Int) :
    T.countP (fun e => decide (e.fromVertex = v)) ≤ 1 := by
  induction h with
  | nil => simp
  | @snoc T e _ _ hfresh _ ih =>
    rw [List.countP_append]
    by_cases hev : e.fromVertex = v
    · have : T.countP (fun e => decide (e.fromVertex = v)) = 0 := by
        rw [List.countP_eq_zero]
        intro e' he'
        have := hfresh e' he'
        simp only [decide_eq_true_eq]
        rw [← hev]; exact this
      rw [this]
      simp [List.countP_cons, hev]
    · have : [e].countP (fun e => decide (e.fromVertex = v)) = 0 := by
        rw [List.countP_eq_zero]
        intro e' he'
        rw [List.mem_singleton] at he'
        subst he'
        simpa using hev
      rw [this]
      exact ih

theorem predecessorPath_start (tree : List Edge) (s : Int) (fuel : Nat) :
    predecessorPath tree s fuel s = some [] := by
  cases fuel <;> simp [predecessorPath]

theorem predecessorPath_mono (tree : List Edge) (s : Int) : ∀ (fuel : Nat) (v : Int)
    (p : List Edge), predecessorPath tree s fuel v = some p →
    predecessorPath tree s (fuel + 1) v = some p := by
  intro fuel
  induction fuel with
  | zero =>
    intro v p h
    unfold predecessorPath at h
    by_cases hv : v = s
    · rw [if_pos hv] at h
      rw [hv, predecessorPath_start]; exact h
    · rw [if_neg hv] at h; cases h
  | succ fuel ih =>
    intro v p h
    rw [predecessorPath] at h ⊢
    by_cases hv : v = s
    · rw [if_pos hv] at h ⊢; exact h
    · rw [if_neg hv] at h ⊢
      cases hf : findTreeEdge tree v with
      | none => rw [hf] at h; cases h
      | some e =>
        rw [hf] at h
        simp only at h ⊢
        cases hr : predecessorPath tree s fuel e.toVertex with
        | none => rw [hr] at h; cases h
        | some rest =>
          rw [hr] at h
          rw [ih e.toVertex rest hr]
          exact h

theorem findTreeEdge_append_left {T : List Edge} {v : Int} {e : Edge} (e0 : Edge)
    (h : findTreeEdge T v = some e) : findTreeEdge (T ++ [e0]) v = some e := by
  unfold findTreeEdge at h ⊢
  rw [List.find?_append, h]
  rfl

theorem predecessorPath_append (T : List Edge) (s : Int) (e0 : Edge) : ∀ (fuel : Nat)
    (v : Int) (p : List Edge), predecessorPath T s fuel v = some p →
    predecessorPath (T ++ [e0]) s fuel v = some p := by
  intro fuel
  induction fuel with
  | zero =>
    intro v p h
    unfold predecessorPath at h ⊢
    exact h
  | succ fuel ih =>
    intro v p h
    rw [predecessorPath] at h ⊢
    by_cases hv : v = s
    · rw [if_pos hv] at h ⊢; exact h
    · rw [if_neg hv] at h ⊢
      cases hf : findTreeEdge T v with
      | none => rw [hf] at h; cases h
      | some e =>
        rw [hf] at h
        rw [findTreeEdge_append_left e0 hf]
        simp only at h ⊢
        cases hr : predecessorPath T s fuel e.toVertex with
        | none => rw [hr] at h; cases h
        | some rest =>
          rw [hr] at h
          rw [ih e.toVertex rest hr]
          exact h

/-- In a tree array listed in extraction order the predecessor walk from every
vertex that has a tree edge reaches the root, within as many steps as there are
edges, and passes tree edges only. -/
theorem TreeOrdered.path {s : Int} {T : List Edge} (h : TreeOrdered s T) :
    ∀ v, (∃ e, e ∈ T ∧ e.fromVertex = v) →
    ∃ e rest, predecessorPath T s T.length v = some (e :: rest) ∧ e.fromVertex = v ∧
      ∀ e', e' ∈ e :: rest → e' ∈ T := by
  induction h with
  | nil => rintro v ⟨e, he, _⟩; cases he
  | @snoc T e0 _ hto hfresh hne ih =>
    intro v hv
    have hlen : (T ++ [e0]).length = T.length + 1 := by simp
    rw [hlen]
    by_cases hold : ∃ e, e ∈ T ∧ e.fromVertex = v
    · obtain ⟨e, rest, hp, hfrom, hmem⟩ := ih v hold
      refine ⟨e, rest, ?_, hfrom, fun e' he' => List.mem_append_left _ (hmem e' he')⟩
      exact predecessorPath_append T s e0 _ v _ (predecessorPath_mono T s _ v _ hp)
    · have hv0 : e0.fromVertex = v := by
        obtain ⟨e, he, hfrom⟩ := hv
        rcases List.mem_append.1 he with h1 | h1
        · exact absurd ⟨e, h1, hfrom⟩ hold
        · rw [List.mem_singleton] at h1
          rw [← h1]; exact hfrom
      have hfind : findTreeEdge (T ++ [e0]) v = some e0 := by
        unfold findTreeEdge
        rw [List.find?_append]
        have h1 : T.find? (fun e => decide (e.fromVertex = v)) = none := by
          rw [List.find?_eq_none]
          intro x hx hpx
          exact hold ⟨x, hx, by simpa using hpx⟩
        rw [h1]
        simp [hv0]
      have hvs : v ≠ s := by rw [← hv0]; exact hne
      rw [predecessorPath, if_neg hvs, hfind]
      simp only
      rcases hto with hto | hto
      · rw [hto, predecessorPath_start]
        refine ⟨e0, [], rfl, hv0, ?_⟩
        intro e' he'
        rw [List.mem_singleton] at he'
        rw [he']; exact List.mem_append_right _ (List.mem_singleton_self _)
      · obtain ⟨e, rest, hp, _, hmem⟩ := ih e0.toVertex hto
        rw [predecessorPath_append T s e0 _ _ _ hp]
        refine ⟨e0, e :: rest, rfl, hv0, ?_⟩
        intro e' he'
        rcases List.mem_cons.1 he' with h1 | h1
        · rw [h1]; exact List.mem_append_right _ (List.mem_singleton_self _)
        · exact List.mem_append_left _ (hmem e' h1)

theorem predecessorPath_mono_le (tree : List Edge) (s : Int) {fuel fuel' : Nat}
    (hle : fuel ≤ fuel') {v : Int} {p : List Edge}
    (h : predecessorPath tree s fuel v = some p) :
    predecessorPath tree s fuel' v = some p := by
  induction hle with
  | refl => exact h
  | step _ ih => exact predecessorPath_mono tree s _ v p ih

/-! ## Concrete graphs -/

theorem links_iff_mem (g : Graph) (a b : Nat) (w : Int) :
    Links g a b w ↔ (a, (b : Int), w) ∈ edgeTriples g := by
  unfold Links edgeTriples
  rw [List.mem_flatMap]
  constructor
  · rintro ⟨adj, e, hadj, he, hto, hw⟩
    have ha : a < g.numVertices := Links.lt_left ⟨adj, e, hadj, he, hto, hw⟩
    refine ⟨a, List.mem_range.2 ha, ?_⟩
    rw [hadj]
    simp only [List.mem_map]
    exact ⟨e, he, by rw [hto, hw]⟩
  · rintro ⟨u, _, hmem⟩
    cases hadj : adjListOf g u with
    | none => rw [hadj] at hmem; cases hmem
    | some adj =>
      rw [hadj] at hmem
      simp only [List.mem_map] at hmem
      obtain ⟨e, he, heq⟩ := hmem
      have h1 : u = a := congrArg Prod.fst heq
      have h2 : e.toVertex = (b : Int) := congrArg (fun t => t.2.1) heq
      have h3 : e.weight = w := congrArg (fun t => t.2.2) heq
      subst h1
      exact ⟨adj, e, hadj, he, h2, h3⟩

theorem slotsPresent_of_all {g : Graph}
    (h : ∀ u, u ∈ List.range g.numVertices → (adjListOf g u).isSome = true) :
    SlotsPresent g := by
  intro u hu
  have := h u (List.mem_range.2 hu)
  unfold adjListOf at this
  rw [if_pos hu] at this
  cases hv : g.vertices[u]? with
  | none => rw [hv] at this; cases this
  | some slot =>
    cases slot with
    | none => rw [hv] at this; cases this
    | some vertex => exact ⟨vertex, rfl⟩

theorem targetsInRange_of_all {g : Graph}
    (h : ∀ t, t ∈ edgeTriples g → 0 ≤ t.2.1 ∧ t.2.1 < (g.numVertices : Int)) :
    TargetsInRange g := by
  intro u adj hadj e he
  have hu : u < g.numVertices := by
    unfold adjListOf at hadj
    by_contra hcon
    rw [if_neg hcon] at hadj
    cases hadj
  have hmem : (u, e.toVertex, e.weight) ∈ edgeTriples g := by
    unfold edgeTriples
    rw [List.mem_flatMap]
    refine ⟨u, List.mem_range.2 hu, ?_⟩
    rw [hadj]
    exact List.mem_map.2 ⟨e, he, rfl⟩
  exact h _ hmem

theorem symmetricEdges_of_all {g : Graph}
    (h : ∀ t, t ∈ edgeTriples g → 0 ≤ t.2.1 ∧ (t.2.1.toNat, (t.1 : Int), t.2.2) ∈ edgeTriples g) :
    SymmetricEdges g := by
  intro a b w hl
  rw [links_iff_mem] at hl ⊢
  have := (h _ hl).2
  simpa using this

theorem weightsBelowMax_of_all {g : Graph}
    (h : ∀ t, t ∈ edgeTriples g → t.2.2 < INT_MAX) : WeightsBelowMax g := by
  intro a b w hl
  rw [links_iff_mem] at hl
  exact h _ hl

theorem nonNegWeights_of_all {g : Graph}
    (h : ∀ t, t ∈ edgeTriples g → 0 ≤ t.2.2) : NonNegWeights g := by
  intro a b w hl
  rw [links_iff_mem] at hl
  exact h _ hl

theorem Reach.self (g : Graph) (a : Nat) : Reach g a a := ⟨0, PathW.nil a⟩

theorem Reach.tail {g : Graph} {a b c : Nat} {w : Int} (h : Reach g a b) (hl : Links g b c w) :
    Reach g a c := by
  obtain ⟨W, hW⟩ := h
  exact ⟨W + w, PathW.snoc hW hl⟩

theorem Reach.join {g : Graph} {a b c : Nat} (h1 : Reach g a b) (h2 : Reach g b c) :
    Reach g a c := by
  obtain ⟨W, hW⟩ := h2
  induction hW with
  | nil => exact h1
  | snoc _ hl ih => exact ih.tail hl

theorem exampleGraph_triples : edgeTriples exampleGraph =
    [(0, 1, 1), (0, 2, 4), (1, 0, 1), (1, 2, 2), (1, 3, 5), (2, 0, 4), (2, 1, 2), (2, 3, 1),
      (3, 1, 5), (3, 2, 1)] := by
  decide

theorem exampleGraph_slots : SlotsPresent exampleGraph :=
  slotsPresent_of_all (by decide)

theorem exampleGraph_targets : TargetsInRange exampleGraph :=
  targetsInRange_of_all (by rw [exampleGraph_triples]; decide)

theorem exampleGraph_symmetric : SymmetricEdges exampleGraph :=
  symmetricEdges_of_all (by rw [exampleGraph_triples]; decide)

theorem exampleGraph_below : WeightsBelowMax exampleGraph :=
  weightsBelowMax_of_all (by rw [exampleGraph_triples]; decide)

theorem exampleGraph_nonneg : NonNegWeights exampleGraph :=
  nonNegWeights_of_all (by rw [exampleGraph_triples]; decide)

theorem exampleGraph_link {a b : Nat} {w : Int}
    (h : (a, (b : Int), w) ∈ edgeTriples exampleGraph) : Links exampleGraph a b w :=
  (links_iff_mem _ _ _ _).2 h

theorem exampleGraph_paths : ∀ v, v < 4 → ∃ W, PathW exampleGraph 0 v W ∧ W ≤ 6 := by
  have h0 : PathW exampleGraph 0 0 0 := PathW.nil 0
  have h1 : PathW exampleGraph 0 1 (0 + 1) := PathW.snoc h0 (exampleGraph_link (by decide))
  have h2 : PathW exampleGraph 0 2 (0 + 4) := PathW.snoc h0 (exampleGraph_link (by decide))
  have h3 : PathW exampleGraph 0 3 (0 + 1 + 5) := PathW.snoc h1 (exampleGraph_link (by decide))
  intro v hv
  interval_cases v
  · exact ⟨_, h0, by decide⟩
  · exact ⟨_, h1, by decide⟩
  · exact ⟨_, h2, by decide⟩
  · exact ⟨_, h3, by decide⟩

theorem exampleGraph_reach : ∀ v, v < exampleGraph.numVertices → Reach exampleGraph 0 v := by
  intro v hv
  obtain ⟨W, hW, _⟩ := exampleGraph_paths v hv
  exact ⟨W, hW⟩

theorem exampleGraph_connected : Connected exampleGraph := by
  intro u v hu hv
  have hback : Reach exampleGraph u 0 := by
    have hu' : u < 4 := hu
    have l10 : Links exampleGraph 1 0 1 := exampleGraph_link (by decide)
    have l20 : Links exampleGraph 2 0 4 := exampleGraph_link (by decide)
    have l31 : Links exampleGraph 3 1 5 := exampleGraph_link (by decide)
    interval_cases u
    · exact Reach.self _ _
    · exact (Reach.self _ _).tail l10
    · exact (Reach.self _ _).tail l20
    · exact ((Reach.self _ _).tail l31).tail l10
  exact hback.join (exampleGraph_reach v hv)

theorem exampleGraph_noOverflow : NoOverflow exampleGraph 0 := by
  intro u d hd v w hl _
  have hu : u < 4 := hl.lt_left
  obtain ⟨W, hW, hle⟩ := exampleGraph_paths u hu
  have h1 := hd.2 W hW
  rw [links_iff_mem, exampleGraph_triples] at hl
  have hw : w ≤ 5 := by
    simp only [List.mem_cons, Prod.mk.injEq, List.mem_singleton, List.not_mem_nil,
      or_false] at hl
    omega
  unfold INT_MAX
  omega

/-! ## Results shared by the statements below -/

/-- Prim on a connected graph with weights below the sentinel returns a spanning
tree of minimum total weight. -/
theorem prim_minimum {g : Graph} {s : Nat} (hs : s < g.numVertices)
    (hslots : SlotsPresent g) (hrange : TargetsInRange g) (hsym : SymmetricEdges g)
    (hconn : Connected g) (hw : WeightsBelowMax g) :
    ∃ T, getMSTprim (some g) (s : Int) = some (TreeResult.edges T) ∧ SpanningTree g T ∧
      ∀ T0, SpanningTree g T0 → totalWeight T ≤ totalWeight T0 := by
  have hreach : ∀ v, v < g.numVertices → Reach g s v := fun v hv => hconn s v hs hv
  obtain ⟨r0, r, hinit, hloop, hst, hsz, hlen⟩ := prim_count hs hslots hrange hreach hw
  have hn : (treeEdges r).length + 1 = g.numVertices := by omega
  refine ⟨treeEdges r, getMSTprim_eq_of_loop hs hinit hloop, ⟨?_, hn, ?_⟩, ?_⟩
  · intro e he
    exact hst.st.inv.isEdgeOf he
  · intro u v hu hv
    have hfin := hst.st.run.inv.all_finished hsz
    exact (hst.conn u (hfin u hu)).reverse.append (hst.conn v (hfin v hv))
  · intro T0 hT0
    obtain ⟨r0', r', hinit', hloop', _, hex, _⟩ :=
      prim_run_conn hs hslots hrange hsym hreach hw T0 hT0
    have h0 : r0' = r0 := Option.some.inj (hinit'.symm.trans hinit)
    subst h0
    have h1 : r' = r := Option.some.inj (hloop'.symm.trans hloop)
    subst h1
    obtain ⟨R, ⟨_, hlenR, _⟩, hwt⟩ := hex
    have hR : R = [] := by
      apply List.eq_nil_of_length_eq_zero
      rw [List.length_append] at hlenR
      omega
    rw [hR, List.append_nil] at hwt
    exact hwt

/-- Dijkstra on a graph with non-negative weights, all vertices reachable and no
overflowing relaxation sum: the tree is listed in extraction order, holds an
edge for every vertex but the start, and the weight field of every edge is the
true distance of its `fromVertex`. -/
theorem dijkstra_tree {g : Graph} {s : Nat} (hs : s < g.numVertices)
    (hslots : SlotsPresent g) (hrange : TargetsInRange g) (hnn : NonNegWeights g)
    (hreach : ∀ v, v < g.numVertices → Reach g s v) (hover : NoOverflow g s) :
    ∃ T, getDistanceTreeDijkstra (some g) (s : Int) = some (TreeResult.edges T) ∧
      TreeOrdered (s : Int) T ∧
      (∀ v, v < g.numVertices → v ≠ s → ∃ e, e ∈ T ∧ e.fromVertex = (v : Int)) ∧
      (∀ e, e ∈ T → ∃ x p : Nat, e.fromVertex = (x : Int) ∧ e.toVertex = (p : Int) ∧
        IsDist g s x e.weight ∧ ∃ dp w, IsDist g s p dp ∧ Links g p x w ∧
          e.weight = dp + w) ∧
      T.length < g.numVertices := by
  obtain ⟨r0, r, hinit, hloop, hst, hsz⟩ := dijkstra_run hs hslots hrange hnn hreach hover
  have hfin := hst.run.inv.all_finished hsz
  refine ⟨treeEdges r, getDistanceTreeDijkstra_eq_of_loop hs hinit hloop, hst.inv.tree_order,
    fun v hv hvs => hst.inv.tree_all v (hfin v hv) hvs, ?_, ?_⟩
  · intro e he
    obtain ⟨v, p, h1, h2, _, _, _, h6, h7⟩ := hst.inv.tree_edge e he
    exact ⟨v, p, h1, h2, h6, h7⟩
  · have := hst.run.count (hfin s hs)
    rw [treeEdges_length]
    omega

theorem sentinelGraph_triples :
    edgeTriples sentinelGraph = [(0, 1, 2147483647), (1, 0, 2147483647)] := by
  decide

theorem sentinelGraph_connected : Connected sentinelGraph := by
  have l01 : Links sentinelGraph 0 1 2147483647 :=
    (links_iff_mem _ _ _ _).2 (by rw [sentinelGraph_triples]; decide)
  have l10 : Links sentinelGraph 1 0 2147483647 :=
    (links_iff_mem _ _ _ _).2 (by rw [sentinelGraph_triples]; decide)
  intro u v hu hv
  have hu' : u < 2 := hu
  have hv' : v < 2 := hv
  interval_cases u <;> interval_cases v
  · exact Reach.self _ _
  · exact (Reach.self _ _).tail l01
  · exact (Reach.self _ _).tail l10
  · exact Reach.self _ _

/-- C1. On a connected graph with `n ≥ 1` vertices whose connections are stored
as two directed edges of equal weight, with every vertex slot present, every
adjacency target in `[0, n)` and every weight strictly below `INT_MAX`, and for
every valid start vertex, `getMSTprim` returns a tree whose weight fields sum to
the minimum total weight over all spanning trees of the graph. -/
theorem getMSTprim_minimum_weight (g : Graph) (s : Nat) (hs : s < g.numVertices)
    (hslots : SlotsPresent g) (hrange : TargetsInRange g) (hsym : SymmetricEdges g)
    (hconn : Connected g) (hw : WeightsBelowMax g) :
    ∃ T, getMSTprim (some g) (s : Int) = some (TreeResult.edges T) ∧
      IsLeast {w | ∃ T0, SpanningTree g T0 ∧ totalWeight T0 = w} (totalWeight T) := by
  obtain ⟨T, hT, hsp, hmin⟩ := prim_minimum hs hslots hrange hsym hconn hw
  refine ⟨T, hT, ⟨T, hsp, rfl⟩, ?_⟩
  rintro w ⟨T0, hT0, rfl⟩
  exact hmin T0 hT0

/-- C1, instance: the example graph from start vertex 0. -/
theorem getMSTprim_minimum_weight_witness :
    (0 < exampleGraph.numVertices ∧ SlotsPresent exampleGraph ∧
      TargetsInRange exampleGraph ∧ SymmetricEdges exampleGraph ∧
      Connected exampleGraph ∧ WeightsBelowMax exampleGraph) ∧
    ∃ T, getMSTprim (some exampleGraph) ((0 : Nat) : Int) = some (TreeResult.edges T) ∧
      IsLeast {w | ∃ T0, SpanningTree exampleGraph T0 ∧ totalWeight T0 = w}
        (totalWeight T) :=
  ⟨⟨by decide, exampleGraph_slots, exampleGraph_targets, exampleGraph_symmetric,
      exampleGraph_connected, exampleGraph_below⟩,
    getMSTprim_minimum_weight exampleGraph 0 (by decide) exampleGraph_slots
      exampleGraph_targets exampleGraph_symmetric exampleGraph_connected exampleGraph_below⟩

/-- C2, as stated, fails: the two-vertex graph whose only connection has the
representable non-negative weight `INT_MAX` is connected, yet `getMSTprim` from
vertex 0 appends no tree edge instead of `n - 1 = 1`. -/
theorem getMSTprim_sentinel_weight_counterexample :
    SlotsPresent sentinelGraph ∧ TargetsInRange sentinelGraph ∧
    SymmetricEdges sentinelGraph ∧ Connected sentinelGraph ∧ NonNegWeights sentinelGraph ∧
    (∀ a b w, Links sentinelGraph a b w → INT_MIN ≤ w ∧ w ≤ INT_MAX) ∧
    getMSTprim (some sentinelGraph) 0 = some (TreeResult.edges []) ∧
    ([] : List Edge).length ≠ sentinelGraph.numVertices - 1 := by
  refine ⟨slotsPresent_of_all (by decide),
    targetsInRange_of_all (by rw [sentinelGraph_triples]; decide),
    symmetricEdges_of_all (by rw [sentinelGraph_triples]; decide),
    sentinelGraph_connected,
    nonNegWeights_of_all (by rw [sentinelGraph_triples]; decide), ?_, by decide, by decide⟩
  intro a b w hl
  rw [links_iff_mem, sentinelGraph_triples] at hl
  have hw : w = 2147483647 := by
    simp only [List.mem_cons, Prod.mk.injEq, List.mem_singleton, List.not_mem_nil,
      or_false] at hl
    omega
  rw [hw]
  decide

/-- C2, amended. On a connected graph with `n` vertices, every vertex slot
present, every adjacency target in range, every connection stored as two
directed edges, and non-negative weights strictly below `INT_MAX`, `getMSTprim`
from a valid start vertex appends exactly `n - 1` tree edges. -/
theorem getMSTprim_edge_count (g : Graph) (s : Nat) (hs : s < g.numVertices)
    (hslots : SlotsPresent g) (hrange : TargetsInRange g) (_hsym : SymmetricEdges g)
    (hconn : Connected g) (_hnn : NonNegWeights g) (hw : WeightsBelowMax g) :
    ∃ T, getMSTprim (some g) (s : Int) = some (TreeResult.edges T) ∧
      T.length = g.numVertices - 1 := by
  obtain ⟨r0, r, hinit, hloop, _, _, hlen⟩ :=
    prim_count hs hslots hrange (fun v hv => hconn s v hs hv) hw
  exact ⟨treeEdges r, getMSTprim_eq_of_loop hs hinit hloop, hlen⟩

/-- C2, instance: the example graph from start vertex 0. -/
theorem getMSTprim_edge_count_witness :
    (0 < exampleGraph.numVertices ∧ SlotsPresent exampleGraph ∧
      TargetsInRange exampleGraph ∧ SymmetricEdges exampleGraph ∧
      Connected exampleGraph ∧ NonNegWeights exampleGraph ∧
      WeightsBelowMax exampleGraph) ∧
    ∃ T, getMSTprim (some exampleGraph) ((0 : Nat) : Int) = some (TreeResult.edges T) ∧
      T.length = exampleGraph.numVertices - 1 :=
  ⟨⟨by decide, exampleGraph_slots, exampleGraph_targets, exampleGraph_symmetric,
      exampleGraph_connected, exampleGraph_nonneg, exampleGraph_below⟩,
    getMSTprim_edge_count exampleGraph 0 (by decide) exampleGraph_slots exampleGraph_targets
      exampleGraph_symmetric exampleGraph_connected exampleGraph_nonneg exampleGraph_below⟩

/-- C3. On a connected graph with non-negative weights whose relaxation sums (the
true distance of a vertex plus the weight of one of its edges) all stay below
`INT_MAX`, and for every valid start vertex, the tree built by
`getDistanceTreeDijkstra` holds, for every vertex `v` other than the start,
exactly one edge with `fromVertex = v`, and the weight field of that edge is the
true shortest-path distance from the start to `v`. -/
theorem getDistanceTreeDijkstra_distances (g : Graph) (s : Nat) (hs : s < g.numVertices)
    (hslots : SlotsPresent g) (hrange : TargetsInRange g) (hconn : Connected g)
    (hnn : NonNegWeights g) (hover : NoOverflow g s) :
    ∃ T, getDistanceTreeDijkstra (some g) (s : Int) = some (TreeResult.edges T) ∧
      ∀ v : Nat, v < g.numVertices → v ≠ s →
        T.countP (fun e => decide (e.fromVertex = (v : Int))) = 1 ∧
        ∀ e, e ∈ T → e.fromVertex = (v : Int) → IsDist g s v e.weight := by
  obtain ⟨T, hT, hord, hall, hedge, _⟩ :=
    dijkstra_tree hs hslots hrange hnn (fun v hv => hconn s v hs hv) hover
  refine ⟨T, hT, ?_⟩
  intro v hv hvs
  constructor
  · apply le_antisymm (hord.countP_le_one (v : Int))
    obtain ⟨e, he, hfrom⟩ := hall v hv hvs
    exact List.countP_pos_iff.2 ⟨e, he, by simpa using hfrom⟩
  · intro e he hfrom
    obtain ⟨x, _, h1, _, h3, _⟩ := hedge e he
    have : x = v := by omega
    rw [← this]; exact h3

/-- C3, instance: the example graph from start vertex 0. -/
theorem getDistanceTreeDijkstra_distances_witness :
    (0 < exampleGraph.numVertices ∧ SlotsPresent exampleGraph ∧
      TargetsInRange exampleGraph ∧ Connected exampleGraph ∧ NonNegWeights exampleGraph ∧
      NoOverflow exampleGraph 0) ∧
    ∃ T, getDistanceTreeDijkstra (some exampleGraph) ((0 : Nat) : Int) =
        some (TreeResult.edges T) ∧
      ∀ v : Nat, v < exampleGraph.numVertices → v ≠ 0 →
        T.countP (fun e => decide (e.fromVertex = (v : Int))) = 1 ∧
        ∀ e, e ∈ T → e.fromVertex = (v : Int) → IsDist exampleGraph 0 v e.weight :=
  ⟨⟨by decide, exampleGraph_slots, exampleGraph_targets, exampleGraph_connected,
      exampleGraph_nonneg, exampleGraph_noOverflow⟩,
    getDistanceTreeDijkstra_distances exampleGraph 0 (by decide) exampleGraph_slots
      exampleGraph_targets exampleGraph_connected exampleGraph_nonneg
      exampleGraph_noOverflow⟩

/-- C4, as stated, fails: on the example graph from vertex 0 the predecessor path
of vertex 3 is `[(3,2,4), (2,1,3), (1,0,1)]`; its weight fields sum to 8 while
the true distance to vertex 3 is 4. -/
theorem getDistanceTreeDijkstra_path_sum_counterexample :
    ∃ T path, getDistanceTreeDijkstra (some exampleGraph) 0 = some (TreeResult.edges T) ∧
      predecessorPath T 0 exampleGraph.numVertices 3 = some path ∧
      totalWeight path = 8 ∧ IsDist exampleGraph 0 3 4 := by
  obtain ⟨T, hT, _, _, hedge, _⟩ := dijkstra_tree (g := exampleGraph) (s := 0) (by decide)
    exampleGraph_slots exampleGraph_targets exampleGraph_nonneg exampleGraph_reach
    exampleGraph_noOverflow
  have hval : getDistanceTreeDijkstra (some exampleGraph) 0 =
      some (TreeResult.edges
        [{ fromVertex := 1, toVertex := 0, weight := 1 },
         { fromVertex := 2, toVertex := 1, weight := 3 },
         { fromVertex := 3, toVertex := 2, weight := 4 }]) := by decide
  have hTe : T = [{ fromVertex := 1, toVertex := 0, weight := 1 },
      { fromVertex := 2, toVertex := 1, weight := 3 },
      { fromVertex := 3, toVertex := 2, weight := 4 }] := by
    have h := hT.symm.trans hval
    simp only [Nat.cast_zero, Option.some.injEq, TreeResult.edges.injEq] at h
    exact h
  subst hTe
  refine ⟨_, [{ fromVertex := 3, toVertex := 2, weight := 4 },
      { fromVertex := 2, toVertex := 1, weight := 3 },
      { fromVertex := 1, toVertex := 0, weight := 1 }], hval, by decide, by decide, ?_⟩
  obtain ⟨x, _, h1, _, h3, _⟩ := hedge { fromVertex := 3, toVertex := 2, weight := 4 }
    (by decide)
  have hx : x = 3 := by
    simp only at h1
    omega
  rw [hx] at h3
  exact h3

/-- C4, amended. On a connected graph with non-negative weights whose relaxation
sums stay below `INT_MAX`, for every valid start vertex and every vertex `v`,
the predecessor path from `v` back to the start through the tree returned by
`getDistanceTreeDijkstra` exists; every tree edge `(x, p, k)` on it carries the
cumulative distance, `k` = true distance of `x` = true distance of `p` plus the
weight of a graph edge from `p` to `x`; so the weight field of the first edge
(not the sum of the fields) is the true distance to `v`. -/
theorem getDistanceTreeDijkstra_predecessor_path (g : Graph) (s : Nat)
    (hs : s < g.numVertices) (hslots : SlotsPresent g) (hrange : TargetsInRange g)
    (hconn : Connected g) (hnn : NonNegWeights g) (hover : NoOverflow g s) :
    ∃ T, getDistanceTreeDijkstra (some g) (s : Int) = some (TreeResult.edges T) ∧
      ∀ v : Nat, v < g.numVertices →
        ∃ path, predecessorPath T (s : Int) g.numVertices (v : Int) = some path ∧
          (∀ e, e ∈ path → ∃ x p : Nat, e.fromVertex = (x : Int) ∧
            e.toVertex = (p : Int) ∧ IsDist g s x e.weight ∧
            ∃ dp w, IsDist g s p dp ∧ Links g p x w ∧ e.weight = dp + w) ∧
          (v = s → path = []) ∧
          (v ≠ s → ∃ e rest, path = e :: rest ∧ e.fromVertex = (v : Int) ∧
            IsDist g s v e.weight) := by
  obtain ⟨T, hT, hord, hall, hedge, hlen⟩ :=
    dijkstra_tree hs hslots hrange hnn (fun v hv => hconn s v hs hv) hover
  refine ⟨T, hT, ?_⟩
  intro v hv
  by_cases hvs : v = s
  · subst hvs
    refine ⟨[], predecessorPath_start _ _ _, ?_, fun _ => rfl, fun h => absurd rfl h⟩
    intro e he; cases he
  · obtain ⟨e, rest, hp, hfrom, hmem⟩ := hord.path (v : Int) (hall v hv hvs)
    refine ⟨e :: rest, predecessorPath_mono_le T _ (le_of_lt hlen) hp, ?_,
      fun h => absurd h hvs, fun _ => ⟨e, rest, rfl, hfrom, ?_⟩⟩
    · intro e' he'
      exact hedge e' (hmem e' he')
    · obtain ⟨x, _, h1, _, h3, _⟩ := hedge e (hmem e (List.mem_cons_self _ _))
      have : x = v := by omega
      rw [← this]; exact h3

/-- C4, instance: the example graph from start vertex 0. -/
theorem getDistanceTreeDijkstra_predecessor_path_witness :
    (0 < exampleGraph.numVertices ∧ SlotsPresent exampleGraph ∧
      TargetsInRange exampleGraph ∧ Connected exampleGraph ∧ NonNegWeights exampleGraph ∧
      NoOverflow exampleGraph 0) ∧
    ∃ T, getDistanceTreeDijkstra (some exampleGraph) ((0 : Nat) : Int) =
        some (TreeResult.edges T) ∧
      ∀ v : Nat, v < exampleGraph.numVertices →
        ∃ path, predecessorPath T ((0 : Nat) : Int) exampleGraph.numVertices (v : Int) =
            some path ∧
          (∀ e, e ∈ path → ∃ x p : Nat, e.fromVertex = (x : Int) ∧
            e.toVertex = (p : Int) ∧ IsDist exampleGraph 0 x e.weight ∧
            ∃ dp w, IsDist exampleGraph 0 p dp ∧ Links exampleGraph p x w ∧
              e.weight = dp + w) ∧
          (v = 0 → path = []) ∧
          (v ≠ 0 → ∃ e rest, path = e :: rest ∧ e.fromVertex = (v : Int) ∧
            IsDist exampleGraph 0 v e.weight) :=
  ⟨⟨by decide, exampleGraph_slots, exampleGraph_targets, exampleGraph_connected,
      exampleGraph_nonneg, exampleGraph_noOverflow⟩,
    getDistanceTreeDijkstra_predecessor_path exampleGraph 0 (by decide) exampleGraph_slots
      exampleGraph_targets exampleGraph_connected exampleGraph_nonneg
      exampleGraph_noOverflow⟩

/-! ## Invalid input, unreachable vertices, the worked example, path reconstruction -/

/-- C5. For every graph, whatever its slots hold, and every start vertex that is
negative or at least `numVertices` (so every start vertex when `numVertices` is
0), and for a null graph with any start vertex, `getMSTprim` and
`getDistanceTreeDijkstra` return `NULL`; the result is produced by the guard
alone, before records or heap exist. -/
theorem invalid_start_returns_null (g : Graph) (startVertex : Int)
    (h : startVertex < 0 ∨ (g.numVertices : Int) ≤ startVertex) :
    getMSTprim (some g) startVertex = some TreeResult.null ∧
    getDistanceTreeDijkstra (some g) startVertex = some TreeResult.null ∧
    (∀ anyStart, getMSTprim none anyStart = some TreeResult.null) ∧
    (∀ anyStart, getDistanceTreeDijkstra none anyStart = some TreeResult.null) ∧
    (g.numVertices = 0 → ∀ anyStart,
      getMSTprim (some g) anyStart = some TreeResult.null ∧
      getDistanceTreeDijkstra (some g) anyStart = some TreeResult.null) := by
  refine ⟨?_, ?_, fun _ => rfl, fun _ => rfl, ?_⟩
  · unfold getMSTprim
    simp only [if_pos h]
  · unfold getDistanceTreeDijkstra
    simp only [if_pos h]
  · intro h0 anyStart
    have h' : anyStart < 0 ∨ (g.numVertices : Int) ≤ anyStart := by
      rw [h0]
      by_cases hneg : anyStart < 0
      · exact Or.inl hneg
      · exact Or.inr (by simpa using not_lt.1 hneg)
    constructor
    · unfold getMSTprim
      simp only [if_pos h']
    · unfold getDistanceTreeDijkstra
      simp only [if_pos h']

/-- C5, instance: start vertex 4 on the four-vertex example graph. -/
theorem invalid_start_returns_null_witness :
    ((4 : Int) < 0 ∨ (exampleGraph.numVertices : Int) ≤ 4) ∧
    getMSTprim (some exampleGraph) 4 = some TreeResult.null ∧
    getDistanceTreeDijkstra (some exampleGraph) 4 = some TreeResult.null :=
  ⟨by decide,
    (invalid_start_returns_null exampleGraph 4 (by decide)).1,
    (invalid_start_returns_null exampleGraph 4 (by decide)).2.1⟩

/-- C8. On the example graph, in whatever order the adjacency lists hold their
entries, `getMSTprim` from vertex 0 returns exactly three tree edges, `(1,0,1)`,
`(2,1,2)` and `(3,2,1)`: they join the pairs {0,1}, {1,2}, {2,3} with weights
1, 2, 1, which total 4. -/
theorem getMSTprim_example (l0 l1 l2 l3 : List Edge)
    (h0 : l0 ∈ orders2 (newEdge 0 1 1) (newEdge 0 2 4))
    (h1 : l1 ∈ orders3 (newEdge 1 0 1) (newEdge 1 2 2) (newEdge 1 3 5))
    (h2 : l2 ∈ orders3 (newEdge 2 0 4) (newEdge 2 1 2) (newEdge 2 3 1))
    (h3 : l3 ∈ orders2 (newEdge 3 1 5) (newEdge 3 2 1)) :
    getMSTprim (some (exampleGraphOf l0 l1 l2 l3)) 0 =
      some (TreeResult.edges
        [{ fromVertex := 1, toVertex := 0, weight := 1 },
         { fromVertex := 2, toVertex := 1, weight := 2 },
         { fromVertex := 3, toVertex := 2, weight := 1 }]) ∧
    totalWeight
        [{ fromVertex := 1, toVertex := 0, weight := 1 },
         { fromVertex := 2, toVertex := 1, weight := 2 },
         { fromVertex := 3, toVertex := 2, weight := 1 }] = 4 := by
  have key : ∀ l0 ∈ orders2 (newEdge 0 1 1) (newEdge 0 2 4),
      ∀ l1 ∈ orders3 (newEdge 1 0 1) (newEdge 1 2 2) (newEdge 1 3 5),
      ∀ l2 ∈ orders3 (newEdge 2 0 4) (newEdge 2 1 2) (newEdge 2 3 1),
      ∀ l3 ∈ orders2 (newEdge 3 1 5) (newEdge 3 2 1),
      getMSTprim (some (exampleGraphOf l0 l1 l2 l3)) 0 =
        some (TreeResult.edges
          [{ fromVertex := 1, toVertex := 0, weight := 1 },
           { fromVertex := 2, toVertex := 1, weight := 2 },
           { fromVertex := 3, toVertex := 2, weight := 1 }]) := by
    decide
  exact ⟨key l0 h0 l1 h1 l2 h2 l3 h3, by decide⟩

/-- C8, instance: the adjacency lists in the order of `exampleGraph`. -/
theorem getMSTprim_example_witness :
    getMSTprim (some exampleGraph) 0 =
      some (TreeResult.edges
        [{ fromVertex := 1, toVertex := 0, weight := 1 },
         { fromVertex := 2, toVertex := 1, weight := 2 },
         { fromVertex := 3, toVertex := 2, weight := 1 }]) ∧
    totalWeight
        [{ fromVertex := 1, toVertex := 0, weight := 1 },
         { fromVertex := 2, toVertex := 1, weight := 2 },
         { fromVertex := 3, toVertex := 2, weight := 1 }] = 4 :=
  getMSTprim_example [newEdge 0 1 1, newEdge 0 2 4]
    [newEdge 1 0 1, newEdge 1 2 2, newEdge 1 3 5]
    [newEdge 2 0 4, newEdge 2 1 2, newEdge 2 3 1] [newEdge 3 1 5, newEdge 3 2 1]
    (by decide) (by decide) (by decide) (by decide)

/-- C9. On the example graph, in whatever order the adjacency lists hold their
entries, `getDistanceTreeDijkstra` from vertex 0 returns the tree
`[(1,0,1), (2,1,3), (3,2,4)]`: distances 1, 3, 4 for vertices 1, 2, 3 and no
tree edge for vertex 0, which is at distance 0. -/
theorem getDistanceTreeDijkstra_example (l0 l1 l2 l3 : List Edge)
    (h0 : l0 ∈ orders2 (newEdge 0 1 1) (newEdge 0 2 4))
    (h1 : l1 ∈ orders3 (newEdge 1 0 1) (newEdge 1 2 2) (newEdge 1 3 5))
    (h2 : l2 ∈ orders3 (newEdge 2 0 4) (newEdge 2 1 2) (newEdge 2 3 1))
    (h3 : l3 ∈ orders2 (newEdge 3 1 5) (newEdge 3 2 1)) :
    getDistanceTreeDijkstra (some (exampleGraphOf l0 l1 l2 l3)) 0 =
      some (TreeResult.edges
        [{ fromVertex := 1, toVertex := 0, weight := 1 },
         { fromVertex := 2, toVertex := 1, weight := 3 },
         { fromVertex := 3, toVertex := 2, weight := 4 }]) := by
  have key : ∀ l0 ∈ orders2 (newEdge 0 1 1) (newEdge 0 2 4),
      ∀ l1 ∈ orders3 (newEdge 1 0 1) (newEdge 1 2 2) (newEdge 1 3 5),
      ∀ l2 ∈ orders3 (newEdge 2 0 4) (newEdge 2 1 2) (newEdge 2 3 1),
      ∀ l3 ∈ orders2 (newEdge 3 1 5) (newEdge 3 2 1),
      getDistanceTreeDijkstra (some (exampleGraphOf l0 l1 l2 l3)) 0 =
        some (TreeResult.edges
          [{ fromVertex := 1, toVertex := 0, weight := 1 },
           { fromVertex := 2, toVertex := 1, weight := 3 },
           { fromVertex := 3, toVertex := 2, weight := 4 }]) := by
    decide
  exact key l0 h0 l1 h1 l2 h2 l3 h3

/-- C9, instance: the adjacency lists in the order of `exampleGraph`. -/
theorem getDistanceTreeDijkstra_example_witness :
    getDistanceTreeDijkstra (some exampleGraph) 0 =
      some (TreeResult.edges
        [{ fromVertex := 1, toVertex := 0, weight := 1 },
         { fromVertex := 2, toVertex := 1, weight := 3 },
         { fromVertex := 3, toVertex := 2, weight := 4 }]) :=
  getDistanceTreeDijkstra_example [newEdge 0 1 1, newEdge 0 2 4]
    [newEdge 1 0 1, newEdge 1 2 2, newEdge 1 3 5]
    [newEdge 2 0 4, newEdge 2 1 2, newEdge 2 3 1] [newEdge 3 1 5, newEdge 3 2 1]
    (by decide) (by decide) (by decide) (by decide)

/-- C10, the code at the failing input: for the distance tree of the example
graph from vertex 0, `getShortestPaths` writes the cell of the start vertex only
and leaves the cells of vertices 1, 2, 3 unwritten, whereas the contract asks
for the predecessor walks `[(1,0,1)]`, `[(2,1,3), (1,0,1)]` and
`[(3,2,4), (2,1,3), (1,0,1)]`. -/
theorem getShortestPaths_stub_example :
    ∃ T, getDistanceTreeDijkstra (some exampleGraph) 0 = some (TreeResult.edges T) ∧
      getShortestPaths (some T) 4 0 = PathsResult.paths [some [], none, none, none] ∧
      specShortestPaths T 4 0 =
        [some [],
         some [{ fromVertex := 1, toVertex := 0, weight := 1 }],
         some [{ fromVertex := 2, toVertex := 1, weight := 3 },
               { fromVertex := 1, toVertex := 0, weight := 1 }],
         some [{ fromVertex := 3, toVertex := 2, weight := 4 },
               { fromVertex := 2, toVertex := 1, weight := 3 },
               { fromVertex := 1, toVertex := 0, weight := 1 }]] :=
  ⟨[{ fromVertex := 1, toVertex := 0, weight := 1 },
    { fromVertex := 2, toVertex := 1, weight := 3 },
    { fromVertex := 3, toVertex := 2, weight := 4 }], by decide, by decide, by decide⟩

/-! ## Path reconstruction: the result array -/

theorem castList_length (l : List Nat) :
    ((do let a ← l; pure (a : Int)) : List Int).length = l.length := by
  induction l with
  | nil => rfl
  | cons a l ih =>
    simp only [List.bind_eq_flatMap, List.pure_def, List.flatMap_cons, List.singleton_append,
      List.length_cons] at ih ⊢
    rw [ih]

/-- C11. `getShortestPaths` returns `NULL` exactly when `distTree` is `NULL`,
`startVertex < 0` or `startVertex >= numVertices`; for every other input it
returns an array of `numVertices` cells. -/
theorem getShortestPaths_null_or_array (distTree : Option (List Edge))
    (numVertices startVertex : Int) :
    (distTree = none ∨ startVertex < 0 ∨ numVertices ≤ startVertex →
      getShortestPaths distTree numVertices startVertex = PathsResult.null) ∧
    (¬(distTree = none ∨ startVertex < 0 ∨ numVertices ≤ startVertex) →
      ∃ paths, getShortestPaths distTree numVertices startVertex = PathsResult.paths paths ∧
        (paths.length : Int) = numVertices) := by
  constructor
  · intro h
    cases distTree with
    | none => rfl
    | some t =>
      rcases h with h | h
      · cases h
      · unfold getShortestPaths
        simp only
        rw [if_pos h]
  · intro h
    cases distTree with
    | none => exact absurd (Or.inl rfl) h
    | some t =>
      have h2 : ¬(startVertex < 0 ∨ numVertices ≤ startVertex) := fun h3 => h (Or.inr h3)
      unfold getShortestPaths
      simp only
      rw [if_neg h2]
      refine ⟨_, rfl, ?_⟩
      rw [List.length_map]
      have hlen := castList_length (List.range numVertices.toNat)
      rw [List.length_range] at hlen
      have hcast : ((do let a ← List.range numVertices.toNat; pure (a : Int)) : List Int).length
          = numVertices.toNat := hlen
      omega

theorem getShortestPaths_null_or_array_witness :
    (getShortestPaths none 4 0 = PathsResult.null ∧
      getShortestPaths (some []) 4 (-1) = PathsResult.null ∧
      getShortestPaths (some []) 4 4 = PathsResult.null) ∧
    ∃ paths, getShortestPaths (some [newEdge 1 0 1]) 2 0 = PathsResult.paths paths ∧
      (paths.length : Int) = 2 :=
  ⟨⟨(getShortestPaths_null_or_array none 4 0).1 (Or.inl rfl),
    (getShortestPaths_null_or_array (some []) 4 (-1)).1 (Or.inr (Or.inl (by decide))),
    (getShortestPaths_null_or_array (some []) 4 4).1 (Or.inr (Or.inr (by decide)))⟩,
   (getShortestPaths_null_or_array (some [newEdge 1 0 1]) 2 0).2 (by decide)⟩

/-! ## The records built by `initRecords` -/

/-- C17. For a valid start vertex `initRecords` is defined (its `n` inserts
never exceed the capacity `n` and never insert an id twice) and returns records
whose heap holds every id in `[0, n)` in exactly one cell, with priority 0 for
the start vertex and `INT_MAX` for every other id, and no other id; every
`finished` flag is false, every predecessor is `NOTHING`, `numVertices = n` and
`numTreeEdges = 0`. -/
theorem initRecords_contents (g : Graph) (s : Nat) (hs : s < g.numVertices) :
    ∃ r, initRecords g (s : Int) = some r ∧
      r.numVertices = g.numVertices ∧ r.numTreeEdges = 0 ∧
      (∀ i, r.finished i = false) ∧ (∀ i, r.predecessors i = NOTHING) ∧
      r.heap.capacity = g.numVertices ∧ r.heap.size = g.numVertices ∧
      (∀ id, id < g.numVertices → ∃ p, p < r.heap.size ∧
        r.heap.arr p = { priority := if id = s then 0 else INT_MAX, id := id } ∧
        r.heap.indexMap id = some p ∧
        ∀ q, q < r.heap.size → (r.heap.arr q).id = id → q = p) ∧
      (∀ p, p < r.heap.size → (r.heap.arr p).id < g.numVertices) ∧
      getPriority r.heap s = some 0 := by
  obtain ⟨r, hinit, hinv, hsz, hp, hf, hpred, hnum⟩ := initRecords_spec g (s : Int)
  have hw := hinv.heap.1
  have hprio : ∀ id, id < g.numVertices →
      getPriority r.heap id = some (if id = s then 0 else INT_MAX) := by
    intro id hid
    rw [hp]
    unfold initPrio
    rw [if_pos hid]
    by_cases h : id = s
    · rw [if_pos h, if_pos (by rw [h])]
    · rw [if_neg h, if_neg (by omega)]
  refine ⟨r, hinit, hinv.nv, hnum, hf, hpred, hinv.cap, hsz, ?_, ?_, ?_⟩
  · intro id hid
    obtain ⟨p, hplt, harr⟩ := (getPriority_some_iff hw id _).1 (hprio id hid)
    have hidp : (r.heap.arr p).id = id := by rw [harr]
    refine ⟨p, hplt, harr, ?_, ?_⟩
    · rw [← hidp]; exact hw.index_arr p hplt
    · intro q hq hqid
      exact hw.id_inj hq hplt (hqid.trans hidp.symm)
  · intro p hplt
    have := hw.id_lt p hplt
    rw [hinv.cap] at this
    exact this
  · have := hprio s hs
    rw [if_pos rfl] at this
    exact this

theorem initRecords_contents_witness :
    0 < exampleGraph.numVertices ∧
    ∃ r, initRecords exampleGraph ((0 : Nat) : Int) = some r ∧
      r.numVertices = exampleGraph.numVertices ∧ r.numTreeEdges = 0 ∧
      (∀ i, r.finished i = false) ∧ (∀ i, r.predecessors i = NOTHING) ∧
      r.heap.capacity = exampleGraph.numVertices ∧ r.heap.size = exampleGraph.numVertices ∧
      (∀ id, id < exampleGraph.numVertices → ∃ p, p < r.heap.size ∧
        r.heap.arr p = { priority := if id = 0 then 0 else INT_MAX, id := id } ∧
        r.heap.indexMap id = some p ∧
        ∀ q, q < r.heap.size → (r.heap.arr q).id = id → q = p) ∧
      (∀ p, p < r.heap.size → (r.heap.arr p).id < exampleGraph.numVertices) ∧
      getPriority r.heap 0 = some 0 :=
  ⟨by decide, initRecords_contents exampleGraph 0 (by decide)⟩

/-! ## Heap invariants under sequences of operations -/

theorem applyOp_spec {h : MinHeap} (hinv : HeapInv h) {op : HeapOp} (hpre : OpPre h op) :
    ∃ h', applyOp h op = some h' ∧ HeapInv h' := by
  cases op with
  | insert priority id =>
    obtain ⟨hsz, hid, hfresh⟩ := hpre
    have hnone : getPriority h id = none := by
      rw [getPriority_eq_none_iff]
      cases hi : h.indexMap id with
      | none => rfl
      | some p =>
        obtain ⟨hp, hpid⟩ := hinv.1.arr_index id p hi
        exact absurd hpid (hfresh p hp)
    obtain ⟨h', hins, hinv', _⟩ := insert_spec hinv priority hsz hid hnone
    exact ⟨h', hins, hinv'⟩
  | extractMin =>
    obtain ⟨h', hex, hinv', _⟩ := extractMin_spec hinv hpre
    refine ⟨h', ?_, hinv'⟩
    show (extractMin h).map Prod.snd = some h'
    rw [hex]
    rfl
  | decreasePriority id newPriority =>
    obtain ⟨p, hp, hpid, hlt⟩ := hpre
    have hg : getPriority h id = some (h.arr p).priority := by
      rw [← hpid]
      exact getPriority_eq_some hinv.1 hp
    obtain ⟨h', hdec, hinv', _⟩ := decreasePriority_spec hinv hg hlt
    exact ⟨h', hdec, hinv'⟩

theorem applyOps_spec : ∀ (ops : List HeapOp) (h : MinHeap), HeapInv h → PreOk ops h →
    ∃ h', applyOps ops h = some h' ∧ HeapInv h' := by
  intro ops
  induction ops with
  | nil => intro h hinv _; exact ⟨h, rfl, hinv⟩
  | cons op ops ih =>
    intro h hinv hpre
    obtain ⟨h1, h1eq, hinv1⟩ := applyOp_spec hinv hpre.1
    have hrest : PreOk ops h1 := by
      have := hpre.2
      rw [h1eq] at this
      exact this
    obtain ⟨h', heq, hinv'⟩ := ih h1 hinv1 hrest
    refine ⟨h', ?_, hinv'⟩
    show (applyOp h op).bind (applyOps ops) = some h'
    rw [h1eq]
    exact heq

/-- C13. Starting from the empty heap `create(capacity)`, every sequence of
`insert`, `extractMin` and `decreasePriority` calls that meet their
preconditions is defined and leaves a heap in which both invariants hold: every
live position `p > 0` has `heap[parent(p)].priority <= heap[p].priority`, and
the position index maps every id in the heap to the unique live position that
holds it (and maps no other id). -/
theorem heap_invariants_after_operations (capacity : Nat) (ops : List HeapOp)
    (hpre : PreOk ops (newHeap capacity)) :
    ∃ h, applyOps ops (newHeap capacity) = some h ∧
      (∀ p, 0 < p → p < h.size → (h.arr (parentIdx p)).priority ≤ (h.arr p).priority) ∧
      (∀ p, p < h.size → h.indexMap (h.arr p).id = some p) ∧
      (∀ p q, p < h.size → q < h.size → (h.arr p).id = (h.arr q).id → p = q) ∧
      (∀ id p, h.indexMap id = some p → p < h.size ∧ (h.arr p).id = id) ∧
      h.size ≤ h.capacity := by
  obtain ⟨h, heq, hinv⟩ := applyOps_spec ops (newHeap capacity) (newHeap_inv capacity) hpre
  exact ⟨h, heq, hinv.2, hinv.1.index_arr, fun p q hp hq hpq => hinv.1.id_inj hp hq hpq,
    hinv.1.arr_index, hinv.1.size_le⟩

theorem heap_invariants_after_operations_witness :
    PreOk [HeapOp.insert 5 0, HeapOp.insert 3 1, HeapOp.insert 4 2,
        HeapOp.decreasePriority 0 1, HeapOp.extractMin, HeapOp.insert 9 0] (newHeap 3) ∧
    ∃ h, applyOps [HeapOp.insert 5 0, HeapOp.insert 3 1, HeapOp.insert 4 2,
        HeapOp.decreasePriority 0 1, HeapOp.extractMin, HeapOp.insert 9 0] (newHeap 3) = some h ∧
      (∀ p, 0 < p → p < h.size → (h.arr (parentIdx p)).priority ≤ (h.arr p).priority) ∧
      (∀ p, p < h.size → h.indexMap (h.arr p).id = some p) ∧
      (∀ p q, p < h.size → q < h.size → (h.arr p).id = (h.arr q).id → p = q) ∧
      (∀ id p, h.indexMap id = some p → p < h.size ∧ (h.arr p).id = id) ∧
      h.size ≤ h.capacity :=
  ⟨by decide, heap_invariants_after_operations 3 _ (by decide)⟩

theorem insert_some_pre {h h' : MinHeap} {priority : Int} {id : Nat}
    (hins : insert h priority id = some h') :
    h.size < h.capacity ∧ id < h.capacity ∧ getPriority h id = none := by
  unfold insert at hins
  by_cases hc : h.capacity ≤ h.size ∨ h.capacity ≤ id ∨ (h.indexMap id).isSome = true
  · rw [if_pos hc] at hins; cases hins
  · refine ⟨by omega, by omega, ?_⟩
    rw [getPriority_eq_none_iff]
    cases hi : h.indexMap id with
    | none => rfl
    | some p => exact absurd (Or.inr (Or.inr (by rw [hi]; rfl))) hc

theorem insertAll_spec : ∀ (es : List HeapNode) (h h' : MinHeap), HeapInv h →
    insertAll es h = some h' →
    HeapInv h' ∧ h'.size = h.size + es.length ∧
      ∀ id k, getPriority h' id = some k ↔
        (getPriority h id = some k ∨ ({ priority := k, id := id } : HeapNode) ∈ es) := by
  intro es
  induction es with
  | nil =>
    intro h h' hinv hl
    cases hl
    exact ⟨hinv, rfl, fun id k => by simp⟩
  | cons e es ih =>
    intro h h' hinv hl
    have hl' : (insert h e.priority e.id).bind (insertAll es) = some h' := hl
    cases hins : insert h e.priority e.id with
    | none => rw [hins] at hl'; cases hl'
    | some h1 =>
      rw [hins] at hl'
      obtain ⟨hsz, hid, hfresh⟩ := insert_some_pre hins
      obtain ⟨h1', hins', hinv1, hsz1, _, hnew, hoth⟩ := insert_spec hinv e.priority hsz hid hfresh
      rw [hins] at hins'
      cases hins'
      obtain ⟨hinv', hsz', hp'⟩ := ih h1 h' hinv1 hl'
      refine ⟨hinv', by rw [hsz', hsz1, List.length_cons]; omega, ?_⟩
      intro id k
      rw [hp' id k, List.mem_cons]
      by_cases hide : id = e.id
      · subst hide
        rw [hnew, hfresh]
        constructor
        · rintro (h1 | h1)
          · right; left
            cases e
            simp only [Option.some.injEq] at h1
            simp only [HeapNode.mk.injEq]
            exact ⟨h1.symm, trivial⟩
          · exact Or.inr (Or.inr h1)
        · rintro (h1 | h1 | h1)
          · cases h1
          · left
            rw [← h1]
          · exact Or.inr h1
      · rw [hoth id hide]
        constructor
        · rintro (h1 | h1)
          · exact Or.inl h1
          · exact Or.inr (Or.inr h1)
        · rintro (h1 | h1 | h1)
          · exact Or.inl h1
          · exact absurd (by rw [← h1]) hide
          · exact Or.inr h1

theorem extractAll_spec : ∀ (n : Nat) (h : MinHeap), HeapInv h → h.size = n →
    ∃ out : List HeapNode, out.length = n ∧
      List.Pairwise (fun a b : Int => a ≤ b) (out.map HeapNode.priority) ∧
      (∀ node : HeapNode, node ∈ out → getPriority h node.id = some node.priority) ∧
      (out.map HeapNode.id).Nodup ∧
      ∀ k, k ≤ n → ∃ hk, extractAll k h = some (out.take k, hk) ∧ hk.size = n - k := by
  intro n
  induction n with
  | zero =>
    intro h _ hsz
    refine ⟨[], rfl, List.Pairwise.nil, fun node hn => absurd hn (List.not_mem_nil _),
      List.nodup_nil, ?_⟩
    intro k hk
    have hk0 : k = 0 := by omega
    subst hk0
    exact ⟨h, rfl, by omega⟩
  | succ n ih =>
    intro h hinv hsz
    obtain ⟨h', hex, hinv', hsz', _, hnone, hoth⟩ := extractMin_spec hinv (by omega)
    obtain ⟨out, hlen, hsorted, hmem, hnodup, hpre⟩ := ih h' hinv' (by omega)
    have hne : ∀ node, node ∈ out → node.id ≠ (h.arr 0).id := by
      intro node hn heq
      have := hmem node hn
      rw [heq, hnone] at this
      cases this
    have hmem' : ∀ node, node ∈ out → getPriority h node.id = some node.priority := by
      intro node hn
      rw [← hoth node.id (hne node hn)]
      exact hmem node hn
    refine ⟨h.arr 0 :: out, by rw [List.length_cons, hlen], ?_, ?_, ?_, ?_⟩
    · rw [List.map_cons, List.pairwise_cons]
      refine ⟨?_, hsorted⟩
      intro b hb
      obtain ⟨node, hn, hnb⟩ := List.mem_map.1 hb
      rw [← hnb]
      exact root_min hinv (hmem' node hn)
    · intro node hn
      rcases List.mem_cons.1 hn with h1 | h1
      · rw [h1]; exact root_getPriority hinv (by omega)
      · exact hmem' node h1
    · rw [List.map_cons, List.nodup_cons]
      refine ⟨?_, hnodup⟩
      intro hin
      obtain ⟨node, hn, hnid⟩ := List.mem_map.1 hin
      exact hne node hn hnid
    · intro k hk
      cases k with
      | zero => exact ⟨h, rfl, by omega⟩
      | succ k =>
        obtain ⟨hk', heq, hksz⟩ := hpre k (by omega)
        refine ⟨hk', ?_, by omega⟩
        unfold extractAll
        rw [hex]
        simp only [heq, Option.map_some', List.take_succ_cons]

/-- C14. For every heap loaded by `insert` with `n` entries (of distinct
priorities or not), `n` successive `extractMin` calls are defined, return the
entries, each once, in non-decreasing priority order, and `isEmpty` is true
after the `n`-th call and after no earlier one. -/
theorem extractMin_yields_sorted_entries (capacity : Nat) (entries : List HeapNode)
    (h : MinHeap) (hload : insertAll entries (newHeap capacity) = some h) :
    ∃ out : List HeapNode, out.length = entries.length ∧ out.Perm entries ∧
      List.Pairwise (fun a b : Int => a ≤ b) (out.map HeapNode.priority) ∧
      ∀ k, k ≤ entries.length → ∃ hk, extractAll k h = some (out.take k, hk) ∧
        (isEmpty (some hk) = true ↔ k = entries.length) := by
  obtain ⟨hinv, hsz, hp⟩ := insertAll_spec entries (newHeap capacity) h (newHeap_inv capacity) hload
  have hsz' : h.size = entries.length := by
    rw [hsz]
    show 0 + entries.length = entries.length
    omega
  obtain ⟨out, hlen, hsorted, hmem, hnodup, hpre⟩ := extractAll_spec entries.length h hinv hsz'
  refine ⟨out, hlen, ?_, hsorted, ?_⟩
  · apply List.Subperm.perm_of_length_le
    · apply List.subperm_of_subset (List.Nodup.of_map _ hnodup)
      intro node hn
      have := (hp node.id node.priority).1 (hmem node hn)
      rw [newHeap_getPriority] at this
      rcases this with h1 | h1
      · cases h1
      · exact h1
    · omega
  · intro k hk
    obtain ⟨hk', heq, hksz⟩ := hpre k hk
    refine ⟨hk', heq, ?_⟩
    unfold isEmpty
    simp only [decide_eq_true_eq]
    omega

theorem extractMin_yields_sorted_entries_witness :
    ∃ h, insertAll [⟨7, 0⟩, ⟨2, 1⟩, ⟨9, 2⟩, ⟨4, 3⟩] (newHeap 4) = some h ∧
    ∃ out : List HeapNode, out.length = 4 ∧ out.Perm [⟨7, 0⟩, ⟨2, 1⟩, ⟨9, 2⟩, ⟨4, 3⟩] ∧
      List.Pairwise (fun a b : Int => a ≤ b) (out.map HeapNode.priority) ∧
      ∀ k, k ≤ 4 → ∃ hk, extractAll k h = some (out.take k, hk) ∧
        (isEmpty (some hk) = true ↔ k = 4) :=
  ⟨_, rfl, extractMin_yields_sorted_entries 4 [⟨7, 0⟩, ⟨2, 1⟩, ⟨9, 2⟩, ⟨4, 3⟩] _ rfl⟩

/-! ## The nodes extracted by a run -/

theorem primExtracted_eq (g : Graph) : ∀ (fuel : Nat) (r : Records),
    primExtracted g fuel r = extractedWith primCand g fuel r := by
  intro fuel
  induction fuel with
  | zero => intro r; rfl
  | succ fuel ih =>
    intro r
    simp only [primExtracted, extractedWith, primStep_eq, ih]

theorem dijkstraExtracted_eq (g : Graph) : ∀ (fuel : Nat) (r : Records),
    dijkstraExtracted g fuel r = extractedWith dijkstraCand g fuel r := by
  intro fuel
  induction fuel with
  | zero => intro r; rfl
  | succ fuel ih =>
    intro r
    simp only [dijkstraExtracted, extractedWith, dijkstraStep_eq, ih]

theorem relaxWith_finished (c : Edge → Int) (u : Nat) : ∀ (adj : List Edge) (r r' : Records),
    relaxWith c u adj r = some r' → r'.finished = r.finished := by
  intro adj
  induction adj with
  | nil => intro r r' h; cases h; rfl
  | cons e rest ih =>
    intro r r' h
    unfold relaxWith at h
    by_cases hrange : e.toVertex < 0 ∨ (r.numVertices : Int) ≤ e.toVertex
    · rw [if_pos hrange] at h; cases h
    · rw [if_neg hrange] at h
      simp only at h
      by_cases hf : r.finished e.toVertex.toNat = true
      · rw [if_pos hf] at h; exact ih r r' h
      · rw [if_neg hf] at h
        cases hp : getPriority r.heap e.toVertex.toNat with
        | none => rw [hp] at h; cases h
        | some pv =>
          rw [hp] at h
          simp only at h
          by_cases hlt : c e < pv
          · rw [if_pos hlt] at h
            cases hd : decreasePriority r.heap e.toVertex.toNat (c e) with
            | none => rw [hd] at h; cases h
            | some h' =>
              rw [hd] at h
              simp only at h
              have h2 := ih _ r' h
              exact h2
          · rw [if_neg hlt] at h; exact ih r r' h

theorem stepWith_finished {cand : Int → Edge → Int} {g : Graph} {r r' : Records}
    {node : HeapNode} {h : MinHeap} (hex : extractMin r.heap = some (node, h))
    (hstep : stepWith cand g r = some r') :
    r'.finished = Function.update r.finished node.id true := by
  unfold stepWith at hstep
  rw [hex] at hstep
  simp only at hstep
  split_ifs at hstep with hp
  · cases ha : addTreeEdge { r with heap := h, finished := Function.update r.finished node.id true }
        r.numTreeEdges node.id (r.predecessors node.id) node.priority with
    | none => rw [ha] at hstep; cases hstep
    | some r1 =>
      rw [ha] at hstep
      simp only [Option.map_some', Option.some_bind] at hstep
      cases hadj : adjListOf g node.id with
      | none => rw [hadj] at hstep; cases hstep
      | some adj =>
        rw [hadj] at hstep
        simp only [Option.some_bind] at hstep
        rw [relaxWith_finished _ _ _ _ _ hstep]
        unfold addTreeEdge at ha
        split_ifs at ha
        cases ha
        rfl
  · simp only [Option.some_bind] at hstep
    cases hadj : adjListOf g node.id with
    | none => rw [hadj] at hstep; cases hstep
    | some adj =>
      rw [hadj] at hstep
      simp only [Option.some_bind] at hstep
      rw [relaxWith_finished _ _ _ _ _ hstep]

theorem StepRel.root {cand : Int → Edge → Int} {g : Graph} {n : Nat} {r r' : Records}
    {u : Nat} {k : Int} {adj : List Edge} (hr : RecInv n r) (hsz : 0 < r.heap.size)
    (hstep : stepWith cand g r = some r') (hrel : StepRel cand g n r r' u k adj) :
    ∃ h, extractMin r.heap = some (⟨k, u⟩, h) := by
  obtain ⟨h', hex, _⟩ := extractMin_spec hr.heap hsz
  have hfin := stepWith_finished hex hstep
  have hu : u = (r.heap.arr 0).id := by
    by_contra hne
    have h1 : r'.finished u = true := by rw [hrel.fin_eq]; exact Function.update_same _ _ _
    rw [hfin, Function.update_noteq hne] at h1
    have := (hr.fin_heap u hrel.u_lt).1 h1
    rw [hrel.prio_u] at this
    cases this
  have hk : k = (r.heap.arr 0).priority := by
    have h1 := root_getPriority hr.heap hsz
    rw [← hu, hrel.prio_u] at h1
    exact Option.some.inj h1
  refine ⟨h', ?_⟩
  rw [hex, hu, hk]

theorem extractedWith_induct (cand : Int → Edge → Int) (g : Graph)
    (P : List HeapNode → Records → Prop)
    (hstep : ∀ L r r' node h, P L r → 0 < r.heap.size → extractMin r.heap = some (node, h) →
      stepWith cand g r = some r' → P (L ++ [node]) r') :
    ∀ (fuel : Nat) (L : List HeapNode) (r r' : Records), P L r →
      loopWith cand g fuel r = some r' → P (L ++ extractedWith cand g fuel r) r' := by
  intro fuel
  induction fuel with
  | zero =>
    intro L r r' hP hl
    cases hl
    simpa [extractedWith] using hP
  | succ fuel ih =>
    intro L r r' hP hl
    unfold loopWith at hl
    unfold extractedWith
    by_cases h0 : r.heap.size = 0
    · have he : isEmpty (some r.heap) = true := by simp [isEmpty, h0]
      rw [he] at hl
      simp only [if_true] at hl
      cases hl
      rw [he]
      simpa using hP
    · have he : isEmpty (some r.heap) = false := by simp [isEmpty, h0]
      rw [he] at hl ⊢
      simp only [Bool.false_eq_true, if_false] at hl ⊢
      cases hs : stepWith cand g r with
      | none => rw [hs] at hl; cases hl
      | some r1 =>
        rw [hs] at hl
        simp only [Option.some_bind] at hl
        cases hex : extractMin r.heap with
        | none =>
          unfold stepWith at hs
          rw [hex] at hs
          cases hs
        | some x =>
          obtain ⟨node, h⟩ := x
          simp only
          have h1 := hstep L r r1 node h hP (Nat.pos_of_ne_zero h0) hex hs
          have h2 := ih (L ++ [node]) r1 r' h1 hl
          simpa using h2

theorem extractedWith_take (cand : Int → Edge → Int) (g : Graph) : ∀ (j fuel : Nat) (r : Records),
    j ≤ fuel → extractedWith cand g j r = (extractedWith cand g fuel r).take j := by
  intro j
  induction j with
  | zero => intro fuel r _; simp [extractedWith]
  | succ j ih =>
    intro fuel r hj
    cases fuel with
    | zero => omega
    | succ fuel =>
      unfold extractedWith
      by_cases he : isEmpty (some r.heap) = true
      · rw [if_pos he, if_pos he]; rfl
      · rw [if_neg he, if_neg he]
        cases hex : extractMin r.heap with
        | none => rfl
        | some x =>
          obtain ⟨node, h⟩ := x
          cases hs : stepWith cand g r with
          | none => rfl
          | some r1 =>
            simp only [List.take_succ_cons]
            rw [ih fuel r1 (by omega)]

theorem loopWith_steps (cand : Int → Edge → Int) (g : Graph) (P : Records → Prop)
    (hstep : ∀ r, P r → 0 < r.heap.size →
      ∃ r', stepWith cand g r = some r' ∧ P r' ∧ r'.heap.size + 1 = r.heap.size) :
    ∀ (j : Nat) (r : Records), j ≤ r.heap.size → P r →
      ∃ r', loopWith cand g j r = some r' ∧ P r' ∧ r'.heap.size + j = r.heap.size := by
  intro j
  induction j with
  | zero => intro r _ hP; exact ⟨r, rfl, hP, rfl⟩
  | succ j ih =>
    intro r hj hP
    obtain ⟨r1, hs1, hP1, hsz1⟩ := hstep r hP (by omega)
    obtain ⟨r', hl, hP', hsz'⟩ := ih r1 (by omega) hP1
    refine ⟨r', ?_, hP', by omega⟩
    unfold loopWith
    have : isEmpty (some r.heap) = false := by
      simp only [isEmpty, decide_eq_false_iff_not]
      omega
    rw [this, hs1]
    simpa using hl

theorem Logged.extend {g : Graph} {s : Nat} (cand : Int → Edge → Int)
    (hs : s < g.numVertices) (hslots : SlotsPresent g) (hrange : TargetsInRange g)
    {L : List HeapNode} {r r' : Records} {node : HeapNode} {h : MinHeap}
    (hlog : Logged g s L r) (hsz : 0 < r.heap.size)
    (hex : extractMin r.heap = some (node, h)) (hstep : stepWith cand g r = some r') :
    Logged g s (L ++ [node]) r' ∧
      ∃ adj, StepRel cand g g.numVertices r r' node.id node.priority adj ∧
        (r.finished s = false → node.id = s ∧ node.priority = 0) ∧
        (r.finished s = true → node.id ≠ s) := by
  obtain ⟨r'', u, k, adj, hstep', hrel, hrun', _, hfirst, hlater⟩ :=
    Running.advance cand hs hslots hrange hlog.run hsz
  rw [hstep] at hstep'
  cases hstep'
  obtain ⟨h2, hex2⟩ := hrel.root hlog.run.inv hsz hstep
  rw [hex] at hex2
  cases hex2
  refine ⟨⟨hrun', ?_, ?_, ?_⟩, adj, hrel, hfirst, hlater⟩
  · intro v
    rw [hrel.fin_eq, List.map_append, List.mem_append, List.map_cons, List.map_nil,
      List.mem_singleton, ← hlog.fin_log v]
    by_cases hv : v = u
    · subst hv
      simp
    · rw [Function.update_noteq hv]
      simp [hv]
  · rw [List.map_append, List.map_cons, List.map_nil]
    apply List.Nodup.append hlog.nodup (List.nodup_singleton _)
    intro x hx1 hx2
    rw [List.mem_singleton] at hx2
    subst hx2
    have h1 := (hlog.fin_log x).2 hx1
    have h2 := (hlog.run.inv.fin_heap x hrel.u_lt).1 h1
    rw [hrel.prio_u] at h2
    cases h2
  · have h1 := hlog.count
    have h2 := hrel.size_eq
    rw [List.length_append, List.length_singleton]
    omega

theorem run_logged (cand : Int → Edge → Int) {g : Graph} {s : Nat} (hs : s < g.numVertices)
    (hslots : SlotsPresent g) (hrange : TargetsInRange g) :
    ∃ r0, initRecords g (s : Int) = some r0 ∧ Logged g s [] r0 ∧
      ∀ j, j ≤ g.numVertices → ∃ r, loopWith cand g j r0 = some r ∧
        Logged g s (extractedWith cand g j r0) r ∧ r.heap.size + j = g.numVertices := by
  obtain ⟨r0, hinit, hrun0, _, hsz0, _, hf0, _, _⟩ := initial_state g s
  have hlog0 : Logged g s [] r0 :=
    ⟨hrun0, fun v => by simp [hf0 v], List.nodup_nil, by simpa using hsz0⟩
  refine ⟨r0, hinit, hlog0, ?_⟩
  intro j hj
  obtain ⟨r, hl, _, hsz⟩ := loopWith_steps cand g (Running g s)
    (fun r hr hsz => by
      obtain ⟨r', u, k, adj, hstep, hrel, hrun', _⟩ :=
        Running.advance cand hs hslots hrange hr hsz
      exact ⟨r', hstep, hrun', hrel.size_eq⟩)
    j r0 (by omega) hrun0
  refine ⟨r, hl, ?_, by omega⟩
  have := extractedWith_induct cand g (Logged g s)
    (fun L r r' node h hP hsz hex hstep =>
      (Logged.extend cand hs hslots hrange hP hsz hex hstep).1)
    j [] r0 r hlog0 hl
  simpa using this

theorem run_extractsEachOnce (cand : Int → Edge → Int) {g : Graph} {s : Nat}
    (hs : s < g.numVertices) (hslots : SlotsPresent g) (hrange : TargetsInRange g) :
    ∃ r0, initRecords g (s : Int) = some r0 ∧
      ExtractsEachOnce (loopWith cand g) (extractedWith cand g) g.numVertices r0 := by
  obtain ⟨r0, hinit, _, hall⟩ := run_logged cand hs hslots hrange
  obtain ⟨rn, _, hlogn, hszn⟩ := hall g.numVertices (le_refl _)
  have hlen : (extractedWith cand g g.numVertices r0).length = g.numVertices := by
    have := hlogn.count
    omega
  refine ⟨r0, hinit, hlen, ?_, ?_⟩
  · apply List.Subperm.perm_of_length_le
    · apply List.subperm_of_subset hlogn.nodup
      intro v hv
      exact List.mem_range.2 (hlogn.run.fin_lt v ((hlogn.fin_log v).2 hv))
    · rw [List.length_range, List.length_map, hlen]
  · intro j hj
    obtain ⟨r, hl, hlog, hsz⟩ := hall j hj
    have htake := extractedWith_take cand g j g.numVertices r0 hj
    refine ⟨r, hl, ?_, htake, ?_, ?_⟩
    · unfold isEmpty
      simp only [decide_eq_true_eq]
      omega
    · intro v
      rw [← htake]
      exact hlog.fin_log v
    · intro hjn v hv
      exact hlog.run.inv.all_finished (by omega) v hv

/-! ## The heap calls of the relaxation loop -/

theorem stepWith_eq_extractStep (cand : Int → Edge → Int) (g : Graph) (r : Records) :
    stepWith cand g r = (extractStep r).bind fun x =>
      (adjListOf g x.1.id).bind fun adj => relaxWith (cand x.1.priority) x.1.id adj x.2 := by
  unfold stepWith extractStep
  cases extractMin r.heap with
  | none => rfl
  | some x =>
    obtain ⟨node, heap⟩ := x
    simp only
    split_ifs with hp
    · cases addTreeEdge { r with heap := heap, finished := Function.update r.finished node.id true }
          r.numTreeEdges node.id (r.predecessors node.id) node.priority with
      | none => rfl
      | some r1 => rfl
    · rfl

theorem fillSlots_get (g : Graph) {u : Nat} (hu : u < g.numVertices) :
    (fillSlots g).vertices[u]? = some (match g.vertices[u]? with
      | some (some vertex) => some vertex
      | _ => some (newVertex (Int.ofNat u) [])) := by
  unfold fillSlots
  simp only [List.getElem?_map]
  rw [List.getElem?_range hu]
  rfl

theorem fillSlots_adj {g : Graph} {u : Nat} {adj : List Edge}
    (h : adjListOf g u = some adj) : adjListOf (fillSlots g) u = some adj := by
  unfold adjListOf at h ⊢
  have hu : u < g.numVertices := by
    by_contra hcon
    rw [if_neg hcon] at h
    cases h
  rw [if_pos hu] at h
  rw [if_pos (show u < (fillSlots g).numVertices from hu), fillSlots_get g hu]
  cases hv : g.vertices[u]? with
  | none => rw [hv] at h; cases h
  | some slot =>
    cases slot with
    | none => rw [hv] at h; cases h
    | some vertex =>
      rw [hv] at h
      exact h

theorem fillSlots_adj_cases (g : Graph) {u : Nat} (hu : u < g.numVertices) :
    adjListOf (fillSlots g) u = adjListOf g u ∨ adjListOf (fillSlots g) u = some [] := by
  cases h : adjListOf g u with
  | some adj => left; exact fillSlots_adj h
  | none =>
    right
    unfold adjListOf at h ⊢
    rw [if_pos hu] at h
    rw [if_pos (show u < (fillSlots g).numVertices from hu), fillSlots_get g hu]
    cases hv : g.vertices[u]? with
    | none => rfl
    | some slot =>
      cases slot with
      | none => rfl
      | some vertex => rw [hv] at h; cases h

theorem fillSlots_slots (g : Graph) : SlotsPresent (fillSlots g) := by
  intro u hu
  have hu' : u < g.numVertices := hu
  rw [fillSlots_get g hu']
  cases hv : g.vertices[u]? with
  | none => exact ⟨_, rfl⟩
  | some slot =>
    cases slot with
    | none => exact ⟨_, rfl⟩
    | some vertex => exact ⟨_, rfl⟩

theorem fillSlots_targets {g : Graph} (h : TargetsInRange g) : TargetsInRange (fillSlots g) := by
  intro u adj hadj e he
  have hu : u < g.numVertices := by
    unfold adjListOf at hadj
    by_contra hcon
    rw [if_neg (show ¬u < (fillSlots g).numVertices from hcon)] at hadj
    cases hadj
  rcases fillSlots_adj_cases g hu with h1 | h1
  · rw [h1] at hadj
    exact h u adj hadj e he
  · rw [h1] at hadj
    cases hadj
    cases he

theorem stepWith_fillSlots {cand : Int → Edge → Int} {g : Graph} {r r' : Records}
    (h : stepWith cand g r = some r') : stepWith cand (fillSlots g) r = some r' := by
  rw [stepWith_eq_extractStep] at h ⊢
  cases hx : extractStep r with
  | none => rw [hx] at h; cases h
  | some x =>
    rw [hx] at h
    simp only [Option.some_bind] at h ⊢
    cases hadj : adjListOf g x.1.id with
    | none => rw [hadj] at h; cases h
    | some adj =>
      rw [hadj] at h
      rw [fillSlots_adj hadj]
      exact h

theorem loopWith_fillSlots {cand : Int → Edge → Int} {g : Graph} : ∀ (fuel : Nat)
    (r r' : Records), loopWith cand g fuel r = some r' →
    loopWith cand (fillSlots g) fuel r = some r' := by
  intro fuel
  induction fuel with
  | zero => intro r r' h; exact h
  | succ fuel ih =>
    intro r r' h
    unfold loopWith at h ⊢
    by_cases he : isEmpty (some r.heap) = true
    · rw [if_pos he] at h ⊢; exact h
    · rw [if_neg he] at h ⊢
      cases hs : stepWith cand g r with
      | none => rw [hs] at h; cases h
      | some r1 =>
        rw [hs] at h
        rw [stepWith_fillSlots hs]
        exact ih r1 r' h

theorem reached_running (cand : Int → Edge → Int) {g : Graph} {s : Nat}
    (hs : s < g.numVertices) (hrange : TargetsInRange g) {r0 r : Records} {j : Nat}
    (hinit : initRecords g (s : Int) = some r0) (hl : loopWith cand g j r0 = some r) :
    Running (fillSlots g) s r := by
  obtain ⟨r0', hinit', hrun0, _⟩ := initial_state (fillSlots g) s
  have : initRecords (fillSlots g) (s : Int) = initRecords g (s : Int) := rfl
  rw [this, hinit] at hinit'
  cases hinit'
  exact loopWith_preserves cand (fillSlots g) (Running (fillSlots g) s)
    (fun r r' hr hsz hstep => by
      obtain ⟨r'', _, _, _, hstep', _, hrun', _⟩ :=
        Running.advance cand (show s < (fillSlots g).numVertices from hs) (fillSlots_slots g)
          (fillSlots_targets hrange) hr hsz
      rw [hstep] at hstep'
      cases hstep'
      exact hrun')
    j r0 r hrun0 (loopWith_fillSlots j r0 r hl)

theorem extractStep_spec {n : Nat} {r : Records} (hr : RecInv n r) (hsz : 0 < r.heap.size)
    (hcap : (∀ v, r.predecessors v = NOTHING) ∨ r.numTreeEdges + r.heap.size ≤ n - 1) :
    ∃ r1, extractStep r = some (r.heap.arr 0, r1) ∧ RecInv n r1 := by
  obtain ⟨h', hex, hinv', hsize', hcap', hnone', hother'⟩ := extractMin_spec hr.heap hsz
  have hfin : ∀ x, x < n →
      (Function.update r.finished (r.heap.arr 0).id true x = true ↔ getPriority h' x = none) := by
    intro x hx
    by_cases hxu : x = (r.heap.arr 0).id
    · subst hxu
      simp only [Function.update_same, hnone']
    · rw [Function.update_noteq hxu, hother' x hxu]
      exact hr.fin_heap x hx
  unfold extractStep
  rw [hex]
  simp only
  by_cases hp : r.predecessors (r.heap.arr 0).id ≠ NOTHING
  · rw [if_pos hp]
    have hlt : r.numTreeEdges < r.numVertices - 1 := by
      rw [hr.nv]
      rcases hcap with h1 | h1
      · exact absurd (h1 _) hp
      · omega
    unfold addTreeEdge
    simp only [if_pos hlt, Option.map_some']
    exact ⟨_, rfl, hr.nv, hinv', hcap'.trans hr.cap, hfin⟩
  · rw [if_neg hp]
    simp only [Option.map_some']
    exact ⟨_, rfl, hr.nv, hinv', hcap'.trans hr.cap, hfin⟩

theorem relaxWith_single (c : Edge → Int) (u : Nat) (e : Edge) (r : Records) :
    relaxWith c u [e] r =
      if e.toVertex < 0 ∨ (r.numVertices : Int) ≤ e.toVertex then none
      else if r.finished e.toVertex.toNat = true then some r
      else
        match getPriority r.heap e.toVertex.toNat with
        | none => none
        | some prio =>
          if c e < prio then
            match decreasePriority r.heap e.toVertex.toNat (c e) with
            | none => none
            | some heap =>
              some { r with
                heap := heap
                predecessors := Function.update r.predecessors e.toVertex.toNat (u : Int) }
          else some r := by
  unfold relaxWith
  split_ifs with h1 h2
  · rfl
  · simp only [if_pos h2]
    rfl
  · simp only [if_neg h2]
    cases getPriority r.heap e.toVertex.toNat with
    | none => rfl
    | some prio =>
      simp only
      split_ifs with h3
      · cases decreasePriority r.heap e.toVertex.toNat (c e) with
        | none => rfl
        | some heap => rfl
      · rfl

theorem innerIterationOk_of_inv (c : Edge → Int) (u : Nat) {n : Nat} {r : Records}
    (hr : RecInv n r) {e : Edge} (he : 0 ≤ e.toVertex ∧ e.toVertex < (n : Int)) :
    InnerIterationOk (relaxWith c u) u (c e) r e := by
  have hrange : ¬(e.toVertex < 0 ∨ (r.numVertices : Int) ≤ e.toVertex) := by
    rw [hr.nv]; omega
  have hvn : e.toVertex.toNat < n := by omega
  refine ⟨by rw [hr.nv]; exact he, ?_, ?_, ?_⟩
  · intro x hx
    rw [hr.nv] at hx
    have h1 := hr.fin_heap x hx
    constructor
    · intro hf
      cases hp : getPriority r.heap x with
      | none => rw [h1.2 hp] at hf; cases hf
      | some k =>
        obtain ⟨p, hp1, hp2⟩ := (getPriority_some_iff hr.heap.1 x k).1 hp
        exact ⟨p, hp1, by rw [hp2]⟩
    · rintro ⟨p, hp1, hp2⟩
      have := getPriority_eq_some hr.heap.1 hp1
      rw [hp2] at this
      cases hf : r.finished x with
      | false => rfl
      | true => rw [h1.1 hf] at this; cases this
  · intro hf
    rw [relaxWith_single, if_neg hrange, if_pos hf]
  · intro hf
    have hf' : ¬r.finished e.toVertex.toNat = true := by rw [hf]; exact Bool.false_ne_true
    cases hp : getPriority r.heap e.toVertex.toNat with
    | none => exact absurd ((hr.fin_heap _ hvn).2 hp) hf'
    | some prio =>
      obtain ⟨p, hp1, hp2⟩ := (getPriority_some_iff hr.heap.1 _ prio).1 hp
      refine ⟨p, prio, hp1, hp2, rfl, ?_, ?_⟩
      · intro hlt
        rw [relaxWith_single, if_neg hrange, if_neg hf', hp]
        simp only [if_neg hlt]
      · intro hlt
        obtain ⟨heap, hdec, _⟩ := decreasePriority_spec hr.heap hp hlt
        refine ⟨heap, hdec, ?_⟩
        rw [relaxWith_single, if_neg hrange, if_neg hf', hp]
        simp only [if_pos hlt, hdec]

theorem iterationCallsOk_with (cand : Int → Edge → Int) {g : Graph} {s : Nat}
    (hs : s < g.numVertices) (hrange : TargetsInRange g) {r0 r : Records} {j : Nat}
    (hinit : initRecords g (s : Int) = some r0) (hl : loopWith cand g j r0 = some r) :
    IterationCallsOk (fun u k => relaxWith (cand k) u) cand g r := by
  have hrun := reached_running cand hs hrange hinit hl
  have hinv : RecInv g.numVertices r := hrun.inv
  intro hne
  have hsz : 0 < r.heap.size := by
    unfold isEmpty at hne
    simp only [decide_eq_false_iff_not] at hne
    omega
  have hcap : (∀ v, r.predecessors v = NOTHING) ∨
      r.numTreeEdges + r.heap.size ≤ g.numVertices - 1 := by
    cases hf : r.finished s with
    | false => exact Or.inl (hrun.init hf).1
    | true => exact Or.inr (hrun.count hf)
  obtain ⟨r1, hex, hinv1⟩ := extractStep_spec hinv hsz hcap
  refine ⟨r.heap.arr 0, r1, hex, getMin_eq hsz, ?_⟩
  intro adj hadj pre e rest hsplit
  have hin : ∀ e', e' ∈ adj → 0 ≤ e'.toVertex ∧ e'.toVertex < (g.numVertices : Int) :=
    fun e' he' => hrange _ adj hadj e' he'
  obtain ⟨r2, hrel, hres⟩ := relaxWith_spec (cand (r.heap.arr 0).priority) (r.heap.arr 0).id
    g.numVertices pre r1 hinv1 (fun e' he' => hin e' (by rw [hsplit]; simp [he']))
  exact ⟨r2, hrel, innerIterationOk_of_inv _ _ hres.inv (hin e (by rw [hsplit]; simp))⟩

/-! ## Tree edges and the keys they come from -/

theorem Justified.persist {cand : Int → Edge → Int} {g : Graph} {L : List HeapNode}
    {r r' : Records} {u : Nat} {k : Int} {adj : List Edge}
    (hj : Justified cand g L r) (hrel : StepRel cand g g.numVertices r r' u k adj) :
    Justified cand g (L ++ [⟨k, u⟩]) r' := by
  constructor
  · intro v kv hv hpv
    by_cases hvu : v = u
    · subst hvu
      rw [hrel.prio_u'] at hv
      cases hv
    · have hrelax := hrel.relax v hvu
      unfold VertexRelax at hrelax
      cases hp : getPriority r.heap v with
      | none =>
        rw [hp] at hrelax
        simp only at hrelax
        rw [hrelax.1] at hv
        cases hv
      | some kv0 =>
        rw [hp] at hrelax
        simp only at hrelax
        obtain ⟨kv', h1, _, _, h4⟩ := hrelax
        rw [hv] at h1
        have hkv : kv = kv' := Option.some.inj h1
        subst hkv
        rcases h4 with ⟨h5, h6⟩ | ⟨_, h6, e0, he0, hto, hc⟩
        · rw [h6] at hpv
          obtain ⟨p, kp, adj', e0, hp1, hp2, hp3, hp4, hp5, hp6⟩ := hj.prio_just v kv0 hp hpv
          exact ⟨p, kp, adj', e0, by rw [h6, hp1], List.mem_append_left _ hp2, hp3, hp4, hp5,
            by rw [h5, hp6]⟩
        · exact ⟨u, k, adj, e0, h6, List.mem_append_right _ (List.mem_singleton.2 rfl),
            hrel.adj_u, he0, hto, hc.symm⟩
  · intro e he
    rw [hrel.tree_eq] at he
    have hold : e ∈ treeEdges r → ∃ (u' p : Nat) (kp : Int) (adj' : List Edge) (e0 : Edge),
        e.fromVertex = (u' : Int) ∧ e.toVertex = (p : Int) ∧
        (⟨e.weight, u'⟩ : HeapNode) ∈ L ++ [⟨k, u⟩] ∧ (⟨kp, p⟩ : HeapNode) ∈ L ++ [⟨k, u⟩] ∧
        adjListOf g p = some adj' ∧ e0 ∈ adj' ∧ e0.toVertex = (u' : Int) ∧
        e.weight = cand kp e0 := by
      intro he'
      obtain ⟨u', p, kp, adj', e0, h1, h2, h3, h4, h5⟩ := hj.tree_just e he'
      exact ⟨u', p, kp, adj', e0, h1, h2, List.mem_append_left _ h3, List.mem_append_left _ h4,
        h5⟩
    by_cases hp : r.predecessors u ≠ NOTHING
    · rw [if_pos hp] at he
      rcases List.mem_append.1 he with he' | he'
      · exact hold he'
      · rw [List.mem_singleton] at he'
        subst he'
        obtain ⟨p, kp, adj', e0, hp1, hp2, hp3, hp4, hp5, hp6⟩ :=
          hj.prio_just u k hrel.prio_u hp
        exact ⟨u, p, kp, adj', e0, rfl, hp1,
          List.mem_append_right _ (List.mem_singleton.2 rfl), List.mem_append_left _ hp2, hp3,
          hp4, hp5, hp6⟩
    · rw [if_neg hp] at he
      exact hold he

theorem run_justified (cand : Int → Edge → Int) {g : Graph} {s : Nat} (hs : s < g.numVertices)
    (hslots : SlotsPresent g) (hrange : TargetsInRange g) :
    ∃ r0 r, initRecords g (s : Int) = some r0 ∧
      loopWith cand g g.numVertices r0 = some r ∧
      Logged g s (extractedWith cand g g.numVertices r0) r ∧
      Justified cand g (extractedWith cand g g.numVertices r0) r ∧ r.heap.size = 0 := by
  obtain ⟨r0, hinit, hlog0, hall⟩ := run_logged cand hs hslots hrange
  obtain ⟨r, hl, hlog, hsz⟩ := hall g.numVertices (le_refl _)
  refine ⟨r0, r, hinit, hl, hlog, ?_, by omega⟩
  obtain ⟨r0', hinit', _, _, _, hnum0, _, hpred0, _⟩ := initial_state g s
  rw [hinit] at hinit'
  cases hinit'
  have hj0 : Justified cand g [] r0 :=
    ⟨fun v kv _ hpv => absurd (hpred0 v) hpv,
     fun e he => by rw [treeEdges_of_zero hnum0] at he; cases he⟩
  have := extractedWith_induct cand g (fun L r => Logged g s L r ∧ Justified cand g L r)
    (fun L r r' node h hP hsz hex hstep => by
      obtain ⟨hlog', adj, hrel, _⟩ := Logged.extend cand hs hslots hrange hP.1 hsz hex hstep
      exact ⟨hlog', hP.2.persist hrel⟩)
    g.numVertices [] r0 r ⟨hlog0, hj0⟩ hl
  simpa using this.2

/-! ## The tree array in extraction order -/

theorem TreeLog.grow {cand : Int → Edge → Int} {g : Graph} {s : Nat} {L : List HeapNode}
    {r r' : Records} {u : Nat} {k : Int} {adj : List Edge}
    (hlog : Logged g s L r) (ht : TreeLog s L r)
    (hrel : StepRel cand g g.numVertices r r' u k adj)
    (hfirst : r.finished s = false → u = s ∧ k = 0)
    (hlater : r.finished s = true → u ≠ s)
    (hpred : r.finished s = true → ∃ p : Nat, r.predecessors u = (p : Int) ∧
      r.finished p = true) :
    TreeLog s (L ++ [⟨k, u⟩]) r' := by
  cases hfs : r.finished s with
  | false =>
    obtain ⟨hp, hf, _, _, _⟩ := hlog.run.init hfs
    have hL : L = [] := by
      cases L with
      | nil => rfl
      | cons x xs =>
        have := (hlog.fin_log x.id).2 (by simp)
        rw [hf] at this
        cases this
    subst hL
    obtain ⟨hus, hk0⟩ := hfirst hfs
    have htree : treeEdges r' = treeEdges r := by
      rw [hrel.tree_eq, if_neg (by rw [hp u]; exact fun h => h rfl)]
    refine ⟨?_, ?_, ?_⟩
    · intro node hn
      simp only [List.nil_append, List.head?_cons, Option.some.injEq] at hn
      rw [← hn, hus, hk0]
    · rw [htree, ht.from_eq]
      rfl
    · rw [htree]
      exact ht.order
  | true =>
    obtain ⟨p, hp1, hp2⟩ := hpred hfs
    have hne : r.predecessors u ≠ NOTHING := by rw [hp1]; exact nat_ne_NOTHING p
    have htree : treeEdges r' = treeEdges r ++
        [{ fromVertex := (u : Int), toVertex := r.predecessors u, weight := k }] := by
      rw [hrel.tree_eq, if_pos hne]
    have hsL : s ∈ L.map HeapNode.id := (hlog.fin_log s).1 hfs
    obtain ⟨x, xs, hL⟩ : ∃ x xs, L = x :: xs := by
      cases L with
      | nil => simp at hsL
      | cons x xs => exact ⟨x, xs, rfl⟩
    have hx : x = ⟨0, s⟩ := ht.head x (by rw [hL]; rfl)
    have hufin : r.finished u = false := hlog.run.inv.unfinished_of_prio hrel.prio_u
    refine ⟨?_, ?_, ?_⟩
    · intro node hn
      apply ht.head node
      rw [hL] at hn ⊢
      simpa using hn
    · rw [htree, List.map_append, ht.from_eq, hL]
      simp
    · rw [htree]
      apply TreeOrdered.snoc ht.order
      · show r.predecessors u = (s : Int) ∨ _
        rw [hp1]
        have hpL : p ∈ L.map HeapNode.id := (hlog.fin_log p).1 hp2
        rw [hL, List.map_cons, List.mem_cons] at hpL
        rcases hpL with h1 | h1
        · left
          rw [h1, hx]
        · right
          have : (p : Int) ∈ (treeEdges r).map Edge.fromVertex := by
            rw [ht.from_eq, hL]
            obtain ⟨node, hn1, hn2⟩ := List.mem_map.1 h1
            exact List.mem_map.2 ⟨node, hn1, by rw [hn2]⟩
          obtain ⟨e', he1, he2⟩ := List.mem_map.1 this
          exact ⟨e', he1, he2⟩
      · intro e' he' heq
        have : e'.fromVertex ∈ (treeEdges r).map Edge.fromVertex := List.mem_map.2 ⟨e', he', rfl⟩
        rw [ht.from_eq] at this
        obtain ⟨node, hn1, hn2⟩ := List.mem_map.1 this
        have hmem : u ∈ L.map HeapNode.id := by
          have h3 : (node.id : Int) = (u : Int) := by rw [hn2, heq]
          have h4 : node.id = u := by omega
          rw [← h4]
          exact List.mem_map.2 ⟨node, List.mem_of_mem_tail hn1, rfl⟩
        have := (hlog.fin_log u).2 hmem
        rw [hufin] at this
        cases this
      · show (u : Int) ≠ (s : Int)
        have := hlater hfs
        omega

theorem TreeOrdered.indexed {s : Int} {T : List Edge} (h : TreeOrdered s T) :
    (∀ e, e ∈ T → e.fromVertex ≠ s) ∧ (T.map Edge.fromVertex).Nodup ∧
    ∀ (i : Nat) (e : Edge), T[i]? = some e → e.toVertex = s ∨
      ∃ (j : Nat) (e' : Edge), j < i ∧ T[j]? = some e' ∧ e'.fromVertex = e.toVertex := by
  induction h with
  | nil =>
    refine ⟨fun e he => absurd he (List.not_mem_nil e), List.nodup_nil, ?_⟩
    intro i e hi
    simp at hi
  | @snoc T e hT hto hfrom hs ih =>
    obtain ⟨ih1, ih2, ih3⟩ := ih
    refine ⟨?_, ?_, ?_⟩
    · intro e' he'
      rcases List.mem_append.1 he' with h1 | h1
      · exact ih1 e' h1
      · rw [List.mem_singleton] at h1
        rw [h1]; exact hs
    · rw [List.map_append, List.map_cons, List.map_nil]
      apply List.Nodup.append ih2 (List.nodup_singleton _)
      intro x hx1 hx2
      rw [List.mem_singleton] at hx2
      obtain ⟨e', he1, he2⟩ := List.mem_map.1 hx1
      exact hfrom e' he1 (by rw [he2, hx2])
    · intro i e1 hi
      by_cases hlt : i < T.length
      · rw [List.getElem?_append_left hlt] at hi
        rcases ih3 i e1 hi with h1 | ⟨j, e', hj, hje, hfe⟩
        · exact Or.inl h1
        · exact Or.inr ⟨j, e', hj, by rw [List.getElem?_append_left (by omega)]; exact hje, hfe⟩
      · have hi' := hi
        rw [List.getElem?_append_right (by omega)] at hi'
        have hi0 : i - T.length = 0 := by
          by_contra hne
          obtain ⟨m, hm⟩ := Nat.exists_eq_succ_of_ne_zero hne
          rw [hm] at hi'
          simp at hi'
        rw [hi0] at hi'
        simp only [List.getElem?_cons_zero, Option.some.injEq] at hi'
        subst hi'
        rcases hto with h1 | ⟨e', he1, he2⟩
        · exact Or.inl h1
        · right
          obtain ⟨j, hj, hje⟩ := List.getElem_of_mem he1
          refine ⟨j, e', by omega, ?_, he2⟩
          rw [List.getElem?_append_left hj, List.getElem?_eq_getElem hj, hje]

theorem prim_run_tree {g : Graph} {s : Nat} (hs : s < g.numVertices)
    (hslots : SlotsPresent g) (hrange : TargetsInRange g)
    (hreach : ∀ v, v < g.numVertices → Reach g s v) (hw : WeightsBelowMax g) :
    ∃ r0 r, initRecords g (s : Int) = some r0 ∧
      loopWith primCand g g.numVertices r0 = some r ∧
      Logged g s (extractedWith primCand g g.numVertices r0) r ∧
      TreeLog s (extractedWith primCand g g.numVertices r0) r ∧ r.heap.size = 0 := by
  obtain ⟨r0, hinit, hlog0, hall⟩ := run_logged primCand hs hslots hrange
  obtain ⟨r, hl, hlog, hsz⟩ := hall g.numVertices (le_refl _)
  refine ⟨r0, r, hinit, hl, hlog, ?_, by omega⟩
  obtain ⟨r0', hinit', hrun0, hinv0, _, hnum0, hf0, _, _⟩ := initial_state g s
  rw [hinit] at hinit'
  cases hinit'
  have hc0 : PrimConnState g s r0 :=
    ⟨⟨hrun0, hinv0⟩, fun h => (by rw [hf0 s] at h; cases h),
      fun v h => (by rw [hf0 v] at h; cases h)⟩
  have ht0 : TreeLog s [] r0 :=
    ⟨fun node hn => Option.noConfusion hn, (by rw [treeEdges_of_zero hnum0]; rfl),
     (by rw [treeEdges_of_zero hnum0]; exact TreeOrdered.nil)⟩
  have := extractedWith_induct primCand g
    (fun L r => Logged g s L r ∧ PrimConnState g s r ∧ TreeLog s L r)
    (fun L r r' node h hP hsz hex hstep => by
      obtain ⟨hlog', adj, hrel, hfirst, hlater⟩ :=
        Logged.extend primCand hs hslots hrange hP.1 hsz hex hstep
      obtain ⟨r'', _, _, _, hstep', _, hst', _⟩ :=
        hP.2.1.next_conn hs hslots hrange hreach hw hsz
      rw [hstep] at hstep'
      cases hstep'
      refine ⟨hlog', hst', hP.2.2.grow hP.1 hrel hfirst hlater ?_⟩
      intro hfs
      have hne := prim_pred_u hrange hreach hw hP.2.1.st.run hP.2.1.st.inv hfs hrel.prio_u
        hrel.min_u
      obtain ⟨p, hp1, hp2, _⟩ := hP.2.1.st.inv.pred_edge _ _ hrel.prio_u hne
      exact ⟨p, hp1, hp2⟩)
    g.numVertices [] r0 r ⟨hlog0, hc0, ht0⟩ hl
  simpa using this.2.2

theorem dijkstra_run_tree {g : Graph} {s : Nat} (hs : s < g.numVertices)
    (hslots : SlotsPresent g) (hrange : TargetsInRange g) (hnn : NonNegWeights g)
    (hreach : ∀ v, v < g.numVertices → Reach g s v) (hover : NoOverflow g s) :
    ∃ r0 r, initRecords g (s : Int) = some r0 ∧
      loopWith dijkstraCand g g.numVertices r0 = some r ∧
      Logged g s (extractedWith dijkstraCand g g.numVertices r0) r ∧
      TreeLog s (extractedWith dijkstraCand g g.numVertices r0) r ∧ r.heap.size = 0 := by
  obtain ⟨r0, hinit, hlog0, hall⟩ := run_logged dijkstraCand hs hslots hrange
  obtain ⟨r, hl, hlog, hsz⟩ := hall g.numVertices (le_refl _)
  refine ⟨r0, r, hinit, hl, hlog, ?_, by omega⟩
  obtain ⟨r0', hinit', hrun0, _, _, hnum0, hf0, _, _⟩ := initial_state g s
  rw [hinit] at hinit'
  cases hinit'
  have ht0 : TreeLog s [] r0 :=
    ⟨fun node hn => Option.noConfusion hn, (by rw [treeEdges_of_zero hnum0]; rfl),
     (by rw [treeEdges_of_zero hnum0]; exact TreeOrdered.nil)⟩
  have := extractedWith_induct dijkstraCand g
    (fun L r => Logged g s L r ∧ DijkState g s r ∧ TreeLog s L r)
    (fun L r r' node h hP hsz hex hstep => by
      obtain ⟨hlog', adj, hrel, hfirst, hlater⟩ :=
        Logged.extend dijkstraCand hs hslots hrange hP.1 hsz hex hstep
      have hinv' := (hP.2.1.inv.hold hrange hnn hreach hover hP.2.1.run hrel hrel.inv hfirst
        hlater).1
      refine ⟨hlog', ⟨hlog'.run, hinv'⟩, hP.2.2.grow hP.1 hrel hfirst hlater ?_⟩
      intro hfs
      obtain ⟨_, _, p, hp1, hp2, _⟩ := dijkstra_extracted hrange hnn hreach hover hP.2.1.run
        hP.2.1.inv hfs hrel.prio_u hrel.min_u
      exact ⟨p, hp1, hp2⟩)
    g.numVertices [] r0 r ⟨hlog0, ⟨hrun0, DijkInv.at_begin hf0 hnum0⟩, ht0⟩ hl
  simpa using this.2.2

/-! ## Dijkstra: extracted keys never decrease -/

theorem addInt_eq_of_le {a b : Int} (ha : 0 ≤ a) (hb : 0 ≤ b) (hle : a + b ≤ INT_MAX) :
    addInt a b = a + b := by
  unfold addInt
  unfold INT_MAX at hle
  rw [Int.emod_eq_of_lt (by omega) (by omega)]
  omega

theorem KeysMonotone.proceed {g : Graph} {L : List HeapNode} {r r' : Records} {u : Nat}
    {k : Int} {adj : List Edge} (hnn : NonNegWeights g)
    (hr : RecInv g.numVertices r) (hm : KeysMonotone L r)
    (hrel : StepRel dijkstraCand g g.numVertices r r' u k adj)
    (hsum : ∀ e, e ∈ adj → e.toVertex.toNat ≠ u → r.finished e.toVertex.toNat = false →
      k + e.weight ≤ INT_MAX) :
    KeysMonotone (L ++ [⟨k, u⟩]) r' := by
  have hk0 : 0 ≤ k := hm.nonneg u k hrel.prio_u
  have hkey : ∀ v kv', v ≠ u → getPriority r'.heap v = some kv' →
      (getPriority r.heap v = some kv') ∨ (k ≤ kv') := by
    intro v kv' hvu hv
    have hrelax := hrel.relax v hvu
    unfold VertexRelax at hrelax
    cases hp : getPriority r.heap v with
    | none =>
      rw [hp] at hrelax
      simp only at hrelax
      rw [hrelax.1] at hv
      cases hv
    | some kv0 =>
      rw [hp] at hrelax
      simp only at hrelax
      obtain ⟨kv'', h1, _, _, h4⟩ := hrelax
      rw [hv] at h1
      have hkv : kv' = kv'' := Option.some.inj h1
      subst hkv
      rcases h4 with ⟨h5, _⟩ | ⟨_, _, e0, he0, hto, hc⟩
      · left; rw [h5]
      · right
        have hv' : e0.toVertex.toNat = v := by omega
        have hw0 : 0 ≤ e0.weight := hnn u v e0.weight ⟨adj, e0, hrel.adj_u, he0, hto, rfl⟩
        have hfit := hsum e0 he0 (by rw [hv']; exact hvu)
          (by rw [hv']; exact hr.unfinished_of_prio hp)
        have : dijkstraCand k e0 = k + e0.weight := addInt_eq_of_le hk0 hw0 hfit
        rw [← hc, this]
        omega
  have hnotu : ∀ v kv', getPriority r'.heap v = some kv' → v ≠ u := by
    intro v kv' hv hvu
    rw [hvu, hrel.prio_u'] at hv
    cases hv
  refine ⟨?_, ?_, ?_, ?_⟩
  · rw [List.map_append, List.pairwise_append]
    refine ⟨hm.sorted, by simp, ?_⟩
    intro a ha b hb
    obtain ⟨node, hn, hna⟩ := List.mem_map.1 ha
    simp only [List.map_cons, List.map_nil, List.mem_singleton] at hb
    rw [hb, ← hna]
    exact hm.above node hn u k hrel.prio_u
  · intro v kv' hv
    rcases hkey v kv' (hnotu v kv' hv) hv with h1 | h1
    · exact hm.nonneg v kv' h1
    · omega
  · intro node hn v kv' hv
    have hle : node.priority ≤ k := by
      rcases List.mem_append.1 hn with h1 | h1
      · exact hm.above node h1 u k hrel.prio_u
      · rw [List.mem_singleton] at h1
        rw [h1]
    rcases hkey v kv' (hnotu v kv' hv) hv with h1 | h1
    · rcases List.mem_append.1 hn with h2 | h2
      · exact hm.above node h2 v kv' h1
      · rw [List.mem_singleton] at h2
        rw [h2]
        exact hrel.min_u v kv' h1
    · omega
  · rw [hrel.tree_eq, List.map_append]
    split_ifs
    · rw [List.map_append]
      exact List.Sublist.append hm.tree_sub (List.Sublist.refl _)
    · exact hm.tree_sub.trans (List.sublist_append_left _ _)

theorem loopWith_snoc (cand : Int → Edge → Int) (g : Graph) : ∀ (j : Nat) (r0 r r' : Records),
    loopWith cand g j r0 = some r → 0 < r.heap.size → stepWith cand g r = some r' →
    loopWith cand g (j + 1) r0 = some r' := by
  intro j
  induction j with
  | zero =>
    intro r0 r r' hl hsz hstep
    cases hl
    unfold loopWith
    have : isEmpty (some r0.heap) = false := by
      simp only [isEmpty, decide_eq_false_iff_not]; omega
    rw [this, hstep]
    rfl
  | succ j ih =>
    intro r0 r r' hl hsz hstep
    unfold loopWith at hl
    by_cases he : isEmpty (some r0.heap) = true
    · rw [if_pos he] at hl
      cases hl
      simp only [isEmpty, decide_eq_true_eq] at he
      omega
    · rw [if_neg he] at hl
      cases hs : stepWith cand g r0 with
      | none => rw [hs] at hl; cases hl
      | some r1 =>
        rw [hs] at hl
        have := ih r1 r r' hl hsz hstep
        unfold loopWith
        rw [if_neg he, hs]
        exact this

theorem getMin_of_extractMin {h h' : MinHeap} {node : HeapNode}
    (hex : extractMin h = some (node, h')) : getMin h = some node := by
  unfold extractMin at hex
  unfold getMin
  by_cases h0 : h.size = 0
  · rw [if_pos h0] at hex; cases hex
  · rw [if_neg h0] at hex
    rw [if_neg h0]
    simp only [Option.some.injEq, Prod.mk.injEq] at hex
    rw [hex.1]

theorem dijkstra_run_monotone {g : Graph} {s : Nat} (hs : s < g.numVertices)
    (hslots : SlotsPresent g) (hrange : TargetsInRange g) (hnn : NonNegWeights g)
    {r0 : Records} (hinit : initRecords g (s : Int) = some r0) (hsum : NoSumOverflow g r0) :
    ∃ r, loopWith dijkstraCand g g.numVertices r0 = some r ∧
      KeysMonotone (extractedWith dijkstraCand g g.numVertices r0) r ∧ r.heap.size = 0 := by
  obtain ⟨r0', hinit', hlog0, hall⟩ := run_logged dijkstraCand hs hslots hrange
  rw [hinit] at hinit'
  cases hinit'
  obtain ⟨r, hl, hlog, hsz⟩ := hall g.numVertices (le_refl _)
  refine ⟨r, hl, ?_, by omega⟩
  obtain ⟨r0', hinit', _, _, _, hnum0, _, _, hp0⟩ := initial_state g s
  rw [hinit] at hinit'
  cases hinit'
  have hm0 : KeysMonotone [] r0 := by
    refine ⟨List.Pairwise.nil, ?_, fun node hn => absurd hn (List.not_mem_nil _), ?_⟩
    · intro v kv hv
      rw [hp0] at hv
      unfold initPrio at hv
      split_ifs at hv
      · cases hv; exact le_refl _
      · cases hv; unfold INT_MAX; omega
    · rw [treeEdges_of_zero hnum0]
      exact List.Sublist.refl _
  have := extractedWith_induct dijkstraCand g
    (fun L r => Logged g s L r ∧ KeysMonotone L r ∧
      ∃ j, loopWith dijkstraCand g j r0 = some r)
    (fun L r r' node h hP hsz hex hstep => by
      obtain ⟨hlog', adj, hrel, _, _⟩ :=
        Logged.extend dijkstraCand hs hslots hrange hP.1 hsz hex hstep
      obtain ⟨j, hj⟩ := hP.2.2
      refine ⟨hlog', hP.2.1.proceed hnn hP.1.run.inv hrel ?_,
        j + 1, loopWith_snoc dijkstraCand g j r0 r r' hj hsz hstep⟩
      intro e he hne hf
      exact (hsum j r node adj e (by rw [dijkstraLoop_eq]; exact hj) (getMin_of_extractMin hex)
        hrel.adj_u he hne hf).2)
    g.numVertices [] r0 r ⟨hlog0, hm0, 0, rfl⟩ hl
  simpa using this.2.1

theorem noSumOverflow_of_noOverflow {g : Graph} {s : Nat} (hs : s < g.numVertices)
    (hslots : SlotsPresent g) (hrange : TargetsInRange g) (hnn : NonNegWeights g)
    (hreach : ∀ v, v < g.numVertices → Reach g s v) (hover : NoOverflow g s)
    {r0 : Records} (hinit : initRecords g (s : Int) = some r0) : NoSumOverflow g r0 := by
  intro j r node adj e hl hmin hadj he hne hf
  rw [dijkstraLoop_eq] at hl
  obtain ⟨r0', hinit', hrun0, _, _, hnum0, hf0, _, _⟩ := initial_state g s
  rw [hinit] at hinit'
  cases hinit'
  have hst : DijkState g s r := loopWith_preserves dijkstraCand g (DijkState g s)
    (fun r r' hP hsz hstep => by
      obtain ⟨r'', u, k, adj, hstep', hrel, hrun', _, hfirst, hlater⟩ :=
        hP.run.advance dijkstraCand hs hslots hrange hsz
      rw [hstep] at hstep'
      cases hstep'
      exact ⟨hrun', (hP.inv.hold hrange hnn hreach hover hP.run hrel hrel.inv hfirst hlater).1⟩)
    j r0 r ⟨hrun0, DijkInv.at_begin hf0 hnum0⟩ hl
  have hsz : 0 < r.heap.size := by
    unfold getMin at hmin
    by_contra hcon
    rw [if_pos (by omega)] at hmin
    cases hmin
  have hnode : node = r.heap.arr 0 := by
    rw [getMin_eq hsz] at hmin
    exact (Option.some.inj hmin).symm
  have hpu : getPriority r.heap node.id = some node.priority := by
    rw [hnode]; exact root_getPriority hst.run.inv.heap hsz
  have hminu : ∀ v kv, getPriority r.heap v = some kv → node.priority ≤ kv := by
    intro v kv hv
    rw [hnode]; exact root_min hst.run.inv.heap hv
  obtain ⟨he0, hen⟩ := hrange _ adj hadj e he
  have hlink : Links g node.id e.toVertex.toNat e.weight :=
    ⟨adj, e, hadj, he, (Int.toNat_of_nonneg he0).symm, rfl⟩
  have hw0 := hnn _ _ _ hlink
  have hk : IsDist g s node.id node.priority ∧
      ∀ y W, r.finished y = false → PathW g s y W → node.priority ≤ W := by
    cases hfs : r.finished s with
    | false =>
      obtain ⟨_, hfall, hp, _, _⟩ := hst.run.init hfs
      have hps : getPriority r.heap s = some 0 := by
        rw [hp]; unfold initPrio; rw [if_pos hs, if_pos rfl]
      have hk0 := hminu s 0 hps
      have hpu' := hpu
      rw [hp] at hpu'
      unfold initPrio at hpu'
      rw [if_pos (hst.run.inv.lt_of_prio hpu)] at hpu'
      have hk : (if (node.id : Int) = (s : Int) then (0 : Int) else INT_MAX) = node.priority :=
        Option.some.inj hpu'
      by_cases hus : (node.id : Int) = (s : Int)
      · rw [if_pos hus] at hk
        have hid : node.id = s := by omega
        rw [hid, ← hk]
        exact ⟨IsDist.start hnn s, fun y W _ hW => hW.nonneg hnn⟩
      · rw [if_neg hus] at hk
        unfold INT_MAX at hk
        omega
    | true =>
      obtain ⟨h1, h2, _⟩ := dijkstra_extracted hrange hnn hreach hover hst.run hst.inv hfs hpu
        hminu
      exact ⟨h2, h1⟩
  have := hover node.id node.priority hk.1 e.toVertex.toNat e.weight hlink
    (fun W hW => hk.2 _ W hf hW)
  have hk0 : 0 ≤ node.priority := hk.1.1.nonneg hnn
  unfold INT_MIN
  omega

/-! ## Bounds, termination and order of every run -/

theorem addInt_exact {a b : Int} (h1 : INT_MIN ≤ a + b) (h2 : a + b ≤ INT_MAX) :
    addInt a b = a + b := by
  unfold addInt
  unfold INT_MIN at h1
  unfold INT_MAX at h2
  rw [Int.emod_eq_of_lt (by omega) (by omega)]
  omega

theorem primLoop_fun (g : Graph) : primLoop g = loopWith primCand g :=
  funext fun fuel => funext fun r => primLoop_eq g fuel r

theorem dijkstraLoop_fun (g : Graph) : dijkstraLoop g = loopWith dijkstraCand g :=
  funext fun fuel => funext fun r => dijkstraLoop_eq g fuel r

theorem primExtracted_fun (g : Graph) : primExtracted g = extractedWith primCand g :=
  funext fun fuel => funext fun r => primExtracted_eq g fuel r

theorem dijkstraExtracted_fun (g : Graph) : dijkstraExtracted g = extractedWith dijkstraCand g :=
  funext fun fuel => funext fun r => dijkstraExtracted_eq g fuel r

theorem run_tree_bound (cand : Int → Edge → Int) {g : Graph} {s : Nat} (hs : s < g.numVertices)
    (hslots : SlotsPresent g) (hrange : TargetsInRange g) :
    ∃ r0 r, initRecords g (s : Int) = some r0 ∧ loopWith cand g g.numVertices r0 = some r ∧
      (treeEdges r).length ≤ g.numVertices - 1 ∧
      ∀ j rj, loopWith cand g j r0 = some rj → rj.numTreeEdges ≤ g.numVertices - 1 := by
  obtain ⟨r0, hinit, hlog0, hall⟩ := run_logged cand hs hslots hrange
  obtain ⟨r, hl, hlog, hsz⟩ := hall g.numVertices (le_refl _)
  have hbound : ∀ r', Running g s r' → r'.numTreeEdges ≤ g.numVertices - 1 := by
    intro r' hrun
    cases hfs : r'.finished s with
    | false =>
      have := (hrun.init hfs).2.2.2.1
      omega
    | true =>
      have := hrun.count hfs
      omega
  refine ⟨r0, r, hinit, hl, ?_, ?_⟩
  · rw [treeEdges_length]
    exact hbound r hlog.run
  · intro j rj hj
    apply hbound
    exact loopWith_preserves cand g (Running g s)
      (fun r r' hr hsz hstep => by
        obtain ⟨r'', _, _, _, hstep', _, hrun', _⟩ := Running.advance cand hs hslots hrange hr hsz
        rw [hstep] at hstep'
        cases hstep'
        exact hrun')
      j r0 rj hlog0.run hj

/-- C12. On every graph whose vertex slots are all present and whose adjacency
targets are in range, connected or not, and for every valid start vertex, both
`getMSTprim` and `getDistanceTreeDijkstra` are defined (no `addTreeEdge` writes
outside the tree array of capacity `numVertices - 1`) and return at most
`numVertices - 1` tree edges; after any number of iterations `numTreeEdges` is at
most `numVertices - 1`. -/
theorem tree_edges_within_capacity (g : Graph) (s : Nat) (hs : s < g.numVertices)
    (hslots : SlotsPresent g) (hrange : TargetsInRange g) :
    ∃ r0, initRecords g (s : Int) = some r0 ∧
      (∃ T, getMSTprim (some g) (s : Int) = some (TreeResult.edges T) ∧
        T.length ≤ g.numVertices - 1) ∧
      (∃ T, getDistanceTreeDijkstra (some g) (s : Int) = some (TreeResult.edges T) ∧
        T.length ≤ g.numVertices - 1) ∧
      (∀ j r, primLoop g j r0 = some r → r.numTreeEdges ≤ g.numVertices - 1) ∧
      (∀ j r, dijkstraLoop g j r0 = some r → r.numTreeEdges ≤ g.numVertices - 1) := by
  obtain ⟨r0, r, hinit, hl, hlen, hall⟩ := run_tree_bound primCand hs hslots hrange
  obtain ⟨r0', r', hinit', hl', hlen', hall'⟩ := run_tree_bound dijkstraCand hs hslots hrange
  rw [hinit] at hinit'
  cases hinit'
  refine ⟨r0, hinit, ⟨_, getMSTprim_eq_of_loop hs hinit hl, hlen⟩,
    ⟨_, getDistanceTreeDijkstra_eq_of_loop hs hinit hl', hlen'⟩, ?_, ?_⟩
  · intro j rj hj
    rw [primLoop_eq] at hj
    exact hall j rj hj
  · intro j rj hj
    rw [dijkstraLoop_eq] at hj
    exact hall' j rj hj

theorem tree_edges_within_capacity_witness :
    ∃ r0, initRecords islandGraph ((0 : Nat) : Int) = some r0 ∧
      (∃ T, getMSTprim (some islandGraph) ((0 : Nat) : Int) = some (TreeResult.edges T) ∧
        T.length ≤ islandGraph.numVertices - 1) ∧
      (∃ T, getDistanceTreeDijkstra (some islandGraph) ((0 : Nat) : Int) =
          some (TreeResult.edges T) ∧ T.length ≤ islandGraph.numVertices - 1) ∧
      (∀ j r, primLoop islandGraph j r0 = some r → r.numTreeEdges ≤ islandGraph.numVertices - 1) ∧
      (∀ j r, dijkstraLoop islandGraph j r0 = some r →
        r.numTreeEdges ≤ islandGraph.numVertices - 1) :=
  tree_edges_within_capacity islandGraph 0 (by decide) (slotsPresent_of_all (by decide))
    (targetsInRange_of_all (by decide))

/-- C16. On every graph with `n` vertices whose slots are all present and whose
adjacency targets are in range, and for every valid start vertex, the main loop
of `getMSTprim` and of `getDistanceTreeDijkstra` ends after exactly `n`
extractions: the extracted ids are the ids in `[0, n)`, each once; after `j <= n`
iterations the heap is empty exactly when `j = n`, the `finished` flags that are
true are exactly those of the `j` vertices extracted so far (a flag turns true at
the extraction of its vertex and stays true), and all flags are true at the
end. -/
theorem main_loop_extracts_each_vertex_once (g : Graph) (s : Nat) (hs : s < g.numVertices)
    (hslots : SlotsPresent g) (hrange : TargetsInRange g) :
    ∃ r0, initRecords g (s : Int) = some r0 ∧
      ExtractsEachOnce (primLoop g) (primExtracted g) g.numVertices r0 ∧
      ExtractsEachOnce (dijkstraLoop g) (dijkstraExtracted g) g.numVertices r0 := by
  obtain ⟨r0, hinit, h1⟩ := run_extractsEachOnce primCand hs hslots hrange
  obtain ⟨r0', hinit', h2⟩ := run_extractsEachOnce dijkstraCand hs hslots hrange
  rw [hinit] at hinit'
  cases hinit'
  refine ⟨r0, hinit, ?_, ?_⟩
  · rw [primLoop_fun, primExtracted_fun]; exact h1
  · rw [dijkstraLoop_fun, dijkstraExtracted_fun]; exact h2

theorem main_loop_extracts_each_vertex_once_witness :
    ∃ r0, initRecords islandGraph ((0 : Nat) : Int) = some r0 ∧
      ExtractsEachOnce (primLoop islandGraph) (primExtracted islandGraph)
        islandGraph.numVertices r0 ∧
      ExtractsEachOnce (dijkstraLoop islandGraph) (dijkstraExtracted islandGraph)
        islandGraph.numVertices r0 :=
  main_loop_extracts_each_vertex_once islandGraph 0 (by decide) (slotsPresent_of_all (by decide))
    (targetsInRange_of_all (by decide))

theorem rootedInOrder_of_log {g : Graph} {s : Nat} (hs : s < g.numVertices)
    {L : List HeapNode} {r : Records} (hlog : Logged g s L r) (ht : TreeLog s L r)
    (hsz : r.heap.size = 0) : RootedInOrder s L (treeEdges r) := by
  obtain ⟨h1, h2, h3⟩ := ht.order.indexed
  refine ⟨?_, ht.from_eq, h1, h2, h3⟩
  have hlen := hlog.count
  cases L with
  | nil => simp only [List.length_nil] at hlen; omega
  | cons x xs =>
    rw [ht.head x rfl]
    rfl

theorem extractStep_prim (g : Graph) (r : Records) :
    primStep g r = (extractStep r).bind fun x =>
      (adjListOf g x.1.id).bind fun adj => primRelax x.1.id adj x.2 := by
  rw [primStep_eq, stepWith_eq_extractStep]
  congr 1
  funext x
  congr 1
  funext adj
  exact (primRelax_eq _ _ _ _).symm

theorem extractStep_dijkstra (g : Graph) (r : Records) :
    dijkstraStep g r = (extractStep r).bind fun x =>
      (adjListOf g x.1.id).bind fun adj => dijkstraRelax x.1.id x.1.priority adj x.2 := by
  rw [dijkstraStep_eq, stepWith_eq_extractStep]
  congr 1
  funext x
  congr 1
  funext adj
  exact (dijkstraRelax_eq _ _ _ _).symm

/-- C15. In every run of `getMSTprim` and of `getDistanceTreeDijkstra` on a graph
with in-range adjacency targets, at the head of every iteration that the run
reaches, the iteration splits into the extraction part and the relaxation loop,
and every iteration of the relaxation loop is reached with records on which the
`finished` flag of a vertex is false exactly when the vertex is still in the
heap; `getPriority` is called only for an unfinished target, which is present;
`decreasePriority` is called only with a key strictly below the current
priority of that present target; and the predecessor is assigned only together
with that decrease. -/
theorem heap_calls_meet_preconditions (g : Graph) (s : Nat) (hs : s < g.numVertices)
    (hrange : TargetsInRange g) (r0 : Records) (hinit : initRecords g (s : Int) = some r0)
    (j : Nat) (r : Records) :
    (primStep g r = (extractStep r).bind fun x =>
      (adjListOf g x.1.id).bind fun adj => primRelax x.1.id adj x.2) ∧
    (dijkstraStep g r = (extractStep r).bind fun x =>
      (adjListOf g x.1.id).bind fun adj => dijkstraRelax x.1.id x.1.priority adj x.2) ∧
    (primLoop g j r0 = some r → IterationCallsOk (fun u _ => primRelax u) primCand g r) ∧
    (dijkstraLoop g j r0 = some r → IterationCallsOk dijkstraRelax dijkstraCand g r) := by
  refine ⟨extractStep_prim g r, extractStep_dijkstra g r, ?_, ?_⟩
  · intro hl
    rw [primLoop_eq] at hl
    have := iterationCallsOk_with primCand hs hrange hinit hl
    have hfun : (fun (u : Nat) (k : Int) => relaxWith (primCand k) u) =
        fun u _ => primRelax u :=
      funext fun u => funext fun k => funext fun adj => funext fun r =>
        (primRelax_eq u k adj r).symm
    rw [hfun] at this
    exact this
  · intro hl
    rw [dijkstraLoop_eq] at hl
    have := iterationCallsOk_with dijkstraCand hs hrange hinit hl
    have hfun : (fun (u : Nat) (k : Int) => relaxWith (dijkstraCand k) u) = dijkstraRelax :=
      funext fun u => funext fun k => funext fun adj => funext fun r =>
        (dijkstraRelax_eq u k adj r).symm
    rw [hfun] at this
    exact this

theorem heap_calls_meet_preconditions_witness :
    ∃ r0, initRecords exampleGraph ((0 : Nat) : Int) = some r0 ∧
      IterationCallsOk (fun u _ => primRelax u) primCand exampleGraph r0 ∧
      IterationCallsOk dijkstraRelax dijkstraCand exampleGraph r0 := by
  obtain ⟨r0, hinit, _⟩ := initRecords_spec exampleGraph ((0 : Nat) : Int)
  exact ⟨r0, hinit,
    (heap_calls_meet_preconditions exampleGraph 0 (by decide) exampleGraph_targets r0 hinit 0
      r0).2.2.1 rfl,
    (heap_calls_meet_preconditions exampleGraph 0 (by decide) exampleGraph_targets r0 hinit 0
      r0).2.2.2 rfl⟩

/-- C18. On every graph whose slots are present and whose targets are in range,
and for every valid start vertex, every tree edge `(u, p, k)` that either
algorithm returns is justified by an adjacency entry `p -> u` of some weight
`w`, where `u` was extracted with key `k`: in `getMSTprim` `k = w` (the node read
by `getMin` is the node that `extractMin` removes); in `getDistanceTreeDijkstra`
`k` is the `int` sum `key(p) + w` of the key `p` was extracted with and `w`, which
is the exact sum whenever that fits an `int`. -/
theorem tree_edges_justified (g : Graph) (s : Nat) (hs : s < g.numVertices)
    (hslots : SlotsPresent g) (hrange : TargetsInRange g) :
    (∀ h top node h', getMin h = some top → extractMin h = some (node, h') → top = node) ∧
    ∃ r0, initRecords g (s : Int) = some r0 ∧
      (∃ T, getMSTprim (some g) (s : Int) = some (TreeResult.edges T) ∧
        ∀ e, e ∈ T → ∃ (u p : Nat) (w : Int), e.fromVertex = (u : Int) ∧
          e.toVertex = (p : Int) ∧ Links g p u w ∧ e.weight = w ∧
          (⟨e.weight, u⟩ : HeapNode) ∈ primExtracted g g.numVertices r0) ∧
      (∃ T, getDistanceTreeDijkstra (some g) (s : Int) = some (TreeResult.edges T) ∧
        ∀ e, e ∈ T → ∃ (u p : Nat) (w kp : Int), e.fromVertex = (u : Int) ∧
          e.toVertex = (p : Int) ∧ Links g p u w ∧
          (⟨e.weight, u⟩ : HeapNode) ∈ dijkstraExtracted g g.numVertices r0 ∧
          (⟨kp, p⟩ : HeapNode) ∈ dijkstraExtracted g g.numVertices r0 ∧
          e.weight = addInt kp w ∧
          (INT_MIN ≤ kp + w → kp + w ≤ INT_MAX → e.weight = kp + w)) := by
  refine ⟨?_, ?_⟩
  · intro h top node h' h1 h2
    have := getMin_of_extractMin h2
    rw [h1] at this
    exact Option.some.inj this
  · obtain ⟨r0, r, hinit, hl, _, hj, _⟩ := run_justified primCand hs hslots hrange
    obtain ⟨r0', r', hinit', hl', _, hj', _⟩ := run_justified dijkstraCand hs hslots hrange
    rw [hinit] at hinit'
    cases hinit'
    refine ⟨r0, hinit, ⟨_, getMSTprim_eq_of_loop hs hinit hl, ?_⟩,
      ⟨_, getDistanceTreeDijkstra_eq_of_loop hs hinit hl', ?_⟩⟩
    · intro e he
      obtain ⟨u, p, kp, adj, e0, h1, h2, h3, _, h5, h6, h7, h8⟩ := hj.tree_just e he
      rw [primExtracted_fun]
      exact ⟨u, p, e0.weight, h1, h2, ⟨adj, e0, h5, h6, h7, rfl⟩, h8, h3⟩
    · intro e he
      obtain ⟨u, p, kp, adj, e0, h1, h2, h3, h4, h5, h6, h7, h8⟩ := hj'.tree_just e he
      rw [dijkstraExtracted_fun]
      exact ⟨u, p, e0.weight, kp, h1, h2, ⟨adj, e0, h5, h6, h7, rfl⟩, h3, h4, h8,
        fun hlo hhi => by rw [h8]; exact addInt_exact hlo hhi⟩

theorem tree_edges_justified_witness :
    (∀ h top node h', getMin h = some top → extractMin h = some (node, h') → top = node) ∧
    ∃ r0, initRecords islandGraph ((0 : Nat) : Int) = some r0 ∧
      (∃ T, getMSTprim (some islandGraph) ((0 : Nat) : Int) = some (TreeResult.edges T) ∧
        ∀ e, e ∈ T → ∃ (u p : Nat) (w : Int), e.fromVertex = (u : Int) ∧
          e.toVertex = (p : Int) ∧ Links islandGraph p u w ∧ e.weight = w ∧
          (⟨e.weight, u⟩ : HeapNode) ∈ primExtracted islandGraph islandGraph.numVertices r0) ∧
      (∃ T, getDistanceTreeDijkstra (some islandGraph) ((0 : Nat) : Int) =
          some (TreeResult.edges T) ∧
        ∀ e, e ∈ T → ∃ (u p : Nat) (w kp : Int), e.fromVertex = (u : Int) ∧
          e.toVertex = (p : Int) ∧ Links islandGraph p u w ∧
          (⟨e.weight, u⟩ : HeapNode) ∈
            dijkstraExtracted islandGraph islandGraph.numVertices r0 ∧
          (⟨kp, p⟩ : HeapNode) ∈ dijkstraExtracted islandGraph islandGraph.numVertices r0 ∧
          e.weight = addInt kp w ∧
          (INT_MIN ≤ kp + w → kp + w ≤ INT_MAX → e.weight = kp + w)) :=
  tree_edges_justified islandGraph 0 (by decide) (slotsPresent_of_all (by decide))
    (targetsInRange_of_all (by decide))

/-- C19. On every connected graph with weights below `INT_MAX` and for every
valid start vertex, the tree array that `getMSTprim` returns is a rooted tree
listed in extraction order: the start vertex is extracted first and is never a
`fromVertex`, the `fromVertex` values are the vertices extracted after it, in
order and pairwise distinct, and the `toVertex` of the edge at index `i` is the
start vertex or the `fromVertex` of an edge at an index `j < i`.  The same holds
of `getDistanceTreeDijkstra` when the weights are non-negative and no relaxation
sum overflows. -/
theorem tree_rooted_in_extraction_order (g : Graph) (s : Nat) (hs : s < g.numVertices)
    (hslots : SlotsPresent g) (hrange : TargetsInRange g) (hconn : Connected g)
    (hw : WeightsBelowMax g) :
    ∃ r0, initRecords g (s : Int) = some r0 ∧
      (∃ T, getMSTprim (some g) (s : Int) = some (TreeResult.edges T) ∧
        RootedInOrder s (primExtracted g g.numVertices r0) T) ∧
      (NonNegWeights g → NoOverflow g s →
        ∃ T, getDistanceTreeDijkstra (some g) (s : Int) = some (TreeResult.edges T) ∧
          RootedInOrder s (dijkstraExtracted g g.numVertices r0) T) := by
  have hreach : ∀ v, v < g.numVertices → Reach g s v := fun v hv => hconn s v hs hv
  obtain ⟨r0, r, hinit, hl, hlog, ht, hsz⟩ := prim_run_tree hs hslots hrange hreach hw
  refine ⟨r0, hinit, ⟨_, getMSTprim_eq_of_loop hs hinit hl, ?_⟩, ?_⟩
  · rw [primExtracted_fun]
    exact rootedInOrder_of_log hs hlog ht hsz
  · intro hnn hover
    obtain ⟨r0', r', hinit', hl', hlog', ht', hsz'⟩ :=
      dijkstra_run_tree hs hslots hrange hnn hreach hover
    rw [hinit] at hinit'
    cases hinit'
    refine ⟨_, getDistanceTreeDijkstra_eq_of_loop hs hinit hl', ?_⟩
    rw [dijkstraExtracted_fun]
    exact rootedInOrder_of_log hs hlog' ht' hsz'

theorem tree_rooted_in_extraction_order_witness :
    ∃ r0, initRecords exampleGraph ((0 : Nat) : Int) = some r0 ∧
      (∃ T, getMSTprim (some exampleGraph) ((0 : Nat) : Int) = some (TreeResult.edges T) ∧
        RootedInOrder 0 (primExtracted exampleGraph exampleGraph.numVertices r0) T) ∧
      ∃ T, getDistanceTreeDijkstra (some exampleGraph) ((0 : Nat) : Int) =
          some (TreeResult.edges T) ∧
        RootedInOrder 0 (dijkstraExtracted exampleGraph exampleGraph.numVertices r0) T := by
  obtain ⟨r0, hinit, hprim, hdijk⟩ := tree_rooted_in_extraction_order exampleGraph 0 (by decide)
    exampleGraph_slots exampleGraph_targets exampleGraph_connected exampleGraph_below
  exact ⟨r0, hinit, hprim, hdijk exampleGraph_nonneg exampleGraph_noOverflow⟩

/-- C20. On every graph (slots present, targets in range) with non-negative edge
weights on which no relaxation sum of the run overflows, and for every valid
start vertex, the weight fields of the tree edges that
`getDistanceTreeDijkstra` returns are non-decreasing in array order: the
extracted priorities are non-decreasing, and the weight fields are some of
them, in extraction order. -/
theorem dijkstra_tree_weights_nondecreasing (g : Graph) (s : Nat) (hs : s < g.numVertices)
    (hslots : SlotsPresent g) (hrange : TargetsInRange g) (hnn : NonNegWeights g)
    (r0 : Records) (hinit : initRecords g (s : Int) = some r0) (hsum : NoSumOverflow g r0) :
    ∃ T, getDistanceTreeDijkstra (some g) (s : Int) = some (TreeResult.edges T) ∧
      List.Pairwise (fun a b : Int => a ≤ b) (T.map Edge.weight) ∧
      List.Pairwise (fun a b : Int => a ≤ b)
        ((dijkstraExtracted g g.numVertices r0).map HeapNode.priority) ∧
      List.Sublist (T.map Edge.weight)
        ((dijkstraExtracted g g.numVertices r0).map HeapNode.priority) := by
  obtain ⟨r, hl, hm, _⟩ := dijkstra_run_monotone hs hslots hrange hnn hinit hsum
  rw [dijkstraExtracted_fun]
  exact ⟨_, getDistanceTreeDijkstra_eq_of_loop hs hinit hl,
    List.Pairwise.sublist hm.tree_sub hm.sorted, hm.sorted, hm.tree_sub⟩

theorem dijkstra_tree_weights_nondecreasing_witness :
    ∃ r0, initRecords exampleGraph ((0 : Nat) : Int) = some r0 ∧ NoSumOverflow exampleGraph r0 ∧
      ∃ T, getDistanceTreeDijkstra (some exampleGraph) ((0 : Nat) : Int) =
          some (TreeResult.edges T) ∧
        List.Pairwise (fun a b : Int => a ≤ b) (T.map Edge.weight) ∧
        List.Pairwise (fun a b : Int => a ≤ b)
          ((dijkstraExtracted exampleGraph exampleGraph.numVertices r0).map HeapNode.priority) ∧
        List.Sublist (T.map Edge.weight)
          ((dijkstraExtracted exampleGraph exampleGraph.numVertices r0).map
            HeapNode.priority) := by
  obtain ⟨r0, hinit, _⟩ := initRecords_spec exampleGraph ((0 : Nat) : Int)
  have hsum : NoSumOverflow exampleGraph r0 :=
    noSumOverflow_of_noOverflow (by decide : 0 < exampleGraph.numVertices) exampleGraph_slots
      exampleGraph_targets exampleGraph_nonneg exampleGraph_reach exampleGraph_noOverflow hinit
  exact ⟨r0, hinit, hsum,
    dijkstra_tree_weights_nondecreasing exampleGraph 0 (by decide) exampleGraph_slots
      exampleGraph_targets exampleGraph_nonneg r0 hinit hsum⟩

/-! ## Runs on graphs with vertices that cannot be reached from the start -/

end GraphAlgos
